import Mathlib

/-!
# PAIS multi-view stereo engine: `TMVS/mvs/mvs.cpp`

A shallow embedding of the engine class `MVS` of `mvs.cpp` and the properties
of its cell-map index, runtime filter, priority queue, expansion loop, post-filters
and quantization.

Conventions of the embedding.

* A `double` that the source compares or tests with `_isnan` is a `Dbl`: a rational
  number or NaN.  Comparisons follow IEEE (every comparison with NaN is false);
  infinite values are not represented.
* Coordinates (`Vec2d`, `Vec3d`) and the thresholds of the configuration are
  rationals; `maxCellPatchNum` is a natural number (the source compares it with
  `cell.size()`).
* Where the engine computes with `double`s (the expansion center, the distance
  kernel, the quotient of the neighbour-cell filter) every operation is rounded to the
  nearest `double` by `roundDouble`.  A function whose name ends in `Fl` takes the
  rounding as its argument `fl`: with `roundDouble` it is the function of the source,
  with `id` it computes in exact arithmetic.  A result that is not a finite number (a
  zero divisor) is `none`.  Elsewhere (image coordinates, depths, distances and the
  sums of the k-nearest-neighbour filter) the values are exact.
* An unchecked access of the source (`vector::operator[]` out of range, a cell
  outside the grid, a patch id that is not in the patch map, an iterator invalidated
  by `erase`) has no defined behaviour in C++; the embedded operation returns `none`
  there.  The unchecked pixel read `img.at` is the exception: `Camera.pixel` gives the
  value it returns at every position, and `Camera.inImage` tells whether the position
  is a pixel of the image.
* The classes `Camera`, `Patch` and `CellMap` are declared outside `mvs.cpp`;
  they appear as records holding what `mvs.cpp` reads from them.
* Library functions with irrational values (`exp`, `cv::norm`,
  `Utility::spherical2Normal`) and the accessor `getSphericalNormal` are parameters
  of the embedded functions; the general theorems hold for every such function.
-/

namespace PAIS

/-! ## Numbers -/

/-- A `double` value as seen by the comparisons of the engine: a number or NaN. -/
inductive Dbl where
  | nan : Dbl
  | num (q : ℚ) : Dbl
deriving DecidableEq

namespace Dbl

/-- The test `_isnan(a)`. -/
def isnan : Dbl → Bool
  | nan => true
  | num _ => false

/-- The comparison `a < b` on doubles; false when either side is NaN. -/
def lt : Dbl → Dbl → Bool
  | num a, num b => decide (a < b)
  | _, _ => false

/-- The comparison `a > b` on doubles; false when either side is NaN. -/
def gt (a b : Dbl) : Bool := lt b a

/-- The comparison `a == b` on doubles; false when either side is NaN. -/
def eq : Dbl → Dbl → Bool
  | num a, num b => decide (a = b)
  | _, _ => false

end Dbl

/-- The constant `DBL_MAX` of `<cfloat>`: the largest finite double. -/
def DBL_MAX : Dbl := Dbl.num (2 ^ 1024 - 2 ^ 971)

/-- The cast `(int) q` of a double to `int`: truncation toward zero. -/
def truncToInt (q : ℚ) : Int := Int.tdiv q.num q.den

/-- The cell coordinate `(int) (u / cellSize)` of an image coordinate `u`. -/
def cellCoord (u : ℚ) (cellSize : Int) : Int := truncToInt (u / cellSize)

/-- OpenCV `cvRound`: the nearest integer, halves going to the even neighbour. -/
def cvRound (q : ℚ) : Int :=
  let f := Int.floor q
  let r := q - f
  if r < 1 / 2 then f
  else if 1 / 2 < r then f + 1
  else if f % 2 = 0 then f else f + 1

/-- The number of halvings that take `n` below 2, at most `fuel` of them: `⌊log₂ n⌋` for
`0 < n < 2 ^ fuel`. -/
def log2Fuel : Nat → Nat → Nat
  | 0, _ => 0
  | fuel + 1, n => if n < 2 then 0 else log2Fuel fuel (n / 2) + 1

/-- The binary exponent of a non-zero number: the integer `e` with `2 ^ e ≤ |q| < 2 ^ (e + 1)`
(numerator and denominator below `2 ^ 4096`). -/
def log2Floor (q : ℚ) : Int :=
  if (2 : ℚ) ^ ((log2Fuel 4096 q.num.natAbs : Int) - (log2Fuel 4096 q.den : Int)) ≤ |q| then
    (log2Fuel 4096 q.num.natAbs : Int) - (log2Fuel 4096 q.den : Int)
  else (log2Fuel 4096 q.num.natAbs : Int) - (log2Fuel 4096 q.den : Int) - 1

/-- The rounding of one operation of `double` arithmetic (IEEE 754 binary64, round to
nearest, ties to even): the nearest number with a 53-bit significand, for a number whose
numerator and denominator are below `2 ^ 4096`.  The exponent range is not bounded:
overflow, underflow and subnormal numbers are not represented. -/
def roundDouble (q : ℚ) : ℚ :=
  if q = 0 then 0
  else (cvRound (q * (2 : ℚ) ^ (52 - log2Floor q)) : ℚ) / (2 : ℚ) ^ (52 - log2Floor q)

/-- OpenCV `Vec2d`. -/
structure Vec2d where
  x : ℚ
  y : ℚ
deriving DecidableEq

/-- OpenCV `Vec3d`. -/
structure Vec3d where
  x : ℚ
  y : ℚ
  z : ℚ
deriving DecidableEq

namespace Vec3d

/-- The dot product `a.ddot(b)`. -/
def ddot (a b : Vec3d) : ℚ := a.x * b.x + a.y * b.y + a.z * b.z

/-- The vector `-a`. -/
def neg (a : Vec3d) : Vec3d := ⟨-a.x, -a.y, -a.z⟩

/-- The vector `a + b`. -/
def add (a b : Vec3d) : Vec3d := ⟨a.x + b.x, a.y + b.y, a.z + b.z⟩

/-- The vector `a - b`. -/
def sub (a b : Vec3d) : Vec3d := ⟨a.x - b.x, a.y - b.y, a.z - b.z⟩

/-- The vector `u * a`. -/
def smul (u : ℚ) (a : Vec3d) : Vec3d := ⟨u * a.x, u * a.y, u * a.z⟩

/-- The product `a.ddot(b)` with every multiplication and addition rounded by `fl`, summed
from the first component on. -/
def ddotFl (fl : ℚ → ℚ) (a b : Vec3d) : ℚ :=
  fl (fl (fl (a.x * b.x) + fl (a.y * b.y)) + fl (a.z * b.z))

/-- The vector `a + b`, every component rounded by `fl`. -/
def addFl (fl : ℚ → ℚ) (a b : Vec3d) : Vec3d := ⟨fl (a.x + b.x), fl (a.y + b.y), fl (a.z + b.z)⟩

/-- The vector `a - b`, every component rounded by `fl`. -/
def subFl (fl : ℚ → ℚ) (a b : Vec3d) : Vec3d := ⟨fl (a.x - b.x), fl (a.y - b.y), fl (a.z - b.z)⟩

/-- The vector `u * a`, every component rounded by `fl`. -/
def smulFl (fl : ℚ → ℚ) (u : ℚ) (a : Vec3d) : Vec3d := ⟨fl (u * a.x), fl (u * a.y), fl (u * a.z)⟩

end Vec3d

/-! ## Camera, Patch, CellMap -/

/-- Modelled from the spec: the class `Camera` (declared outside `mvs.cpp`), reduced to
what the engine reads: intrinsics and extrinsics, the image size, `project`
(`none` when the point falls outside the image) and `pixel row col`, the value that the
unchecked read `img.at<uchar>(row, col)` of pyramid level 0 yields: a pixel of the image for
`0 ≤ row < imgHeight` and `0 ≤ col < imgWidth` (`Camera.inImage`), and whatever the read finds
for an index outside the image. -/
structure Camera where
  focal : Vec2d
  principle : Vec2d
  rotation : Vec3d × Vec3d × Vec3d
  translation : Vec3d
  center : Vec3d
  opticalNormal : Vec3d
  imgWidth : Nat
  imgHeight : Nat
  project : Vec3d → Option Vec2d
  pixel : Int → Int → Nat

/-- One visible camera of a patch: the entries `camIdx[i]` and `imgPoints[i]` of the two
parallel vectors `getCameraIndices()` and `getImagePoints()`. -/
structure View where
  cam : Nat
  pt : Vec2d
deriving DecidableEq

/-- Modelled from the spec: the class `Patch` (declared outside `mvs.cpp`), reduced to the
attributes the engine reads through its accessors.  The parallel vectors of camera
indices and image points are kept as one list of views, so `getCameraNumber()` is
its length. -/
structure Patch where
  id : Int
  center : Vec3d
  normal : Vec3d
  views : List View
  refCam : Nat
  fitness : Dbl
  priority : Dbl
  correlation : Dbl
  expanded : Bool
  dropped : Bool
deriving DecidableEq

namespace Patch

/-- The accessor `getCameraNumber()`. -/
def getCameraNumber (p : Patch) : Int := p.views.length

/-- The mutator `setExpanded()`. -/
def setExpanded (p : Patch) : Patch := { p with expanded := true }

end Patch

/-- Modelled from the spec: the class `CellMap` (declared outside `mvs.cpp`): a grid of
`width × height` cells, each a list of patch ids. -/
structure CellMap where
  width : Nat
  height : Nat
  cells : Int → Int → List Int

namespace CellMap

/-- Modelled from the spec: the constructor `CellMap(camera, cellSize)`: a grid of
`⌈imageWidth / cellSize⌉ × ⌈imageHeight / cellSize⌉` empty cells. -/
def new (cam : Camera) (cellSize : Int) : CellMap :=
  { width := (Int.ceil ((cam.imgWidth : ℚ) / cellSize)).toNat
    height := (Int.ceil ((cam.imgHeight : ℚ) / cellSize)).toNat
    cells := fun _ _ => [] }

/-- Modelled from the spec: `inMap(cx, cy)` bounds-checks. -/
def inMap (m : CellMap) (cx cy : Int) : Bool :=
  decide (0 ≤ cx ∧ cx < m.width ∧ 0 ≤ cy ∧ cy < m.height)

/-- Modelled from the spec: `getCell(cx, cy)`; an access outside the grid is undefined. -/
def getCell (m : CellMap) (cx cy : Int) : Option (List Int) :=
  if m.inMap cx cy then some (m.cells cx cy) else none

/-- Modelled from the spec: `insert(cx, cy, id)` appends the id to the cell. -/
def insert (m : CellMap) (cx cy : Int) (id : Int) : Option CellMap :=
  if m.inMap cx cy then
    some { m with cells := fun x y => if x = cx ∧ y = cy then m.cells x y ++ [id] else m.cells x y }
  else none

/-- Modelled from the spec: `drop(cx, cy, id)` removes the first matching id of the cell. -/
def drop (m : CellMap) (cx cy : Int) (id : Int) : Option CellMap :=
  if m.inMap cx cy then
    some { m with cells := fun x y => if x = cx ∧ y = cy then (m.cells x y).erase id else m.cells x y }
  else none

end CellMap

/-! ## The patch map `std::map<int, Patch>` -/

/-- The container `map<int, Patch> patches`, as the list of its values in ascending key
order; the key of a patch is its id. -/
abbrev PatchMap := List Patch

namespace PatchMap

/-- The lookup `patches.find(id)`; `none` stands for `patches.end()`. -/
def find : PatchMap → Int → Option Patch
  | [], _ => none
  | p :: ps, id => if p.id = id then some p else find ps id

/-- The call `patches.insert(pair<int, Patch>(pth.getId(), pth))`: the patch is placed at
its key; an existing entry with that key is kept. -/
def insert : PatchMap → Patch → PatchMap
  | [], p => [p]
  | q :: qs, p =>
    if p.id < q.id then p :: q :: qs
    else if p.id = q.id then q :: qs
    else q :: insert qs p

/-- The call `patches.erase(it)` for the entry `it` with key `id`. -/
def erase : PatchMap → Int → PatchMap
  | [], _ => []
  | q :: qs, id => if q.id = id then qs else q :: erase qs id

/-- The effect of `pth.setExpanded()` through the reference `pth` to the entry with key `id`. -/
def setExpanded : PatchMap → Int → PatchMap
  | [], _ => []
  | q :: qs, id => if q.id = id then q.setExpanded :: qs else q :: setExpanded qs id

/-- The keys of the map, in iteration order. -/
def keys (m : PatchMap) : List Int := m.map Patch.id

end PatchMap

/-! ## The engine -/

/-- The state of the class `MVS`: cameras, patch map, cell maps, priority queue and the
tunables of `setConfig` that the embedded member functions read. -/
structure MVS where
  cameras : List Camera
  patches : PatchMap
  cellMaps : List CellMap
  queue : List Int
  cellSize : Int
  minCamNum : Int
  maxFitness : ℚ
  minCorrelation : ℚ
  maxCellPatchNum : Nat

namespace MVS

/-- The accessor `getPatch(id)`; a missing id is an undefined access. -/
def getPatch (s : MVS) (id : Int) : Option Patch := PatchMap.find s.patches id

/-- The accessor `getCamera(idx)`; an index out of range is an undefined access. -/
def getCamera (s : MVS) (idx : Nat) : Option Camera := s.cameras[idx]?

/-- The cell of a view: `(cx, cy) = ((int) (pt[0] / cellSize), (int) (pt[1] / cellSize))`. -/
def cellOf (cellSize : Int) (v : View) : Int × Int :=
  (cellCoord v.pt.x cellSize, cellCoord v.pt.y cellSize)

/-- The loop "skip background" of `runtimeFiltering`: the center projects into every
camera and the read `img.at<uchar>(cvRound(pt[1]), cvRound(pt[0]))` yields a non-zero value.
The read is unchecked: the rounded index can lie outside the image. -/
def inForeground : List Camera → Vec3d → Bool
  | [], _ => true
  | cam :: cams, center =>
    match cam.project center with
    | none => false
    | some pt =>
      if cam.pixel (cvRound pt.y) (cvRound pt.x) = 0 then false
      else inForeground cams center

/-- The loop "skip invisible cameras" of `runtimeFiltering`: counts the visible cameras
whose optical normal faces the patch normal. -/
def frontFacingCount (s : MVS) (pth : Patch) : List View → Int → Option Int
  | [], count => some count
  | v :: vs, count =>
    match s.getCamera v.cam with
    | none => none
    | some cam =>
      frontFacingCount s pth vs
        (if 0 < pth.normal.ddot cam.opticalNormal.neg then count + 1 else count)

/-- The cell a view projects to in a vector of cell maps,
`cellMaps[camIdx[i]].getCell(cx, cy)`. -/
def cellAtOf (cellSize : Int) (cms : List CellMap) (v : View) : Option (List Int) :=
  match cms[v.cam]? with
  | none => none
  | some m => m.getCell (cellOf cellSize v).1 (cellOf cellSize v).2

/-- The cell a view projects to in the cell maps of the engine. -/
def cellAt (s : MVS) (v : View) : Option (List Int) := cellAtOf s.cellSize s.cellMaps v

/-- The loop "cell patch number filtering" of `runtimeFiltering`, followed by the final
test `fullCellCounter >= camNum`. -/
def cellFilter (s : MVS) (pth : Patch) : List View → Int → Option Bool
  | [], fullCellCounter => some (decide (¬ pth.getCameraNumber ≤ fullCellCounter))
  | v :: vs, fullCellCounter =>
    match s.cellAt v with
    | none => none
    | some cell =>
      if pth.id ∈ cell then some true
      else cellFilter s pth vs
        (if s.maxCellPatchNum ≤ cell.length then fullCellCounter + 1 else fullCellCounter)

/-- The member function `MVS::runtimeFiltering`. -/
def runtimeFiltering (s : MVS) (pth : Patch) : Option Bool :=
  if pth.dropped then some false
  else if pth.getCameraNumber < s.minCamNum then some false
  else if pth.fitness.gt (Dbl.num s.maxFitness) then some false
  else if pth.fitness.eq (Dbl.num 0) then some false
  else if pth.priority.gt (Dbl.num 10000) then some false
  else if pth.fitness.isnan then some false
  else if pth.priority.isnan then some false
  else if pth.correlation.isnan then some false
  else if pth.correlation.lt (Dbl.num s.minCorrelation) then some false
  else if !inForeground s.cameras pth.center then some false
  else
    match frontFacingCount s pth pth.views 0 with
    | none => none
    | some count =>
      if count < s.minCamNum then some false
      else if s.cellMaps.isEmpty then some true
      else cellFilter s pth pth.views 0

/-- The loop "insert into cell maps" of `insertPatch` and `setCellMaps`. -/
def insertCells (cellSize : Int) (id : Int) : List View → List CellMap → Option (List CellMap)
  | [], cms => some cms
  | v :: vs, cms =>
    match cms[v.cam]? with
    | none => none
    | some m =>
      match m.insert (cellOf cellSize v).1 (cellOf cellSize v).2 id with
      | none => none
      | some m' => insertCells cellSize id vs (cms.set v.cam m')

/-- The loop of `deletePatch` that drops the id from the cell of every view. -/
def dropCells (cellSize : Int) (id : Int) : List View → List CellMap → Option (List CellMap)
  | [], cms => some cms
  | v :: vs, cms =>
    match cms[v.cam]? with
    | none => none
    | some m =>
      match m.drop (cellOf cellSize v).1 (cellOf cellSize v).2 id with
      | none => none
      | some m' => dropCells cellSize id vs (cms.set v.cam m')

/-- The member function `MVS::insertPatch` (the viewer event `addPatchView` is external). -/
def insertPatch (s : MVS) (pth : Patch) : Option MVS :=
  match s.runtimeFiltering pth with
  | none => none
  | some false => some s
  | some true =>
    match insertCells s.cellSize pth.id pth.views s.cellMaps with
    | none => none
    | some cms =>
      some { s with
        patches := PatchMap.insert s.patches pth
        queue := s.queue ++ [pth.id]
        cellMaps := cms }

/-- The member function `MVS::deletePatch(const int id)`; `deletePatch(Patch &pth)` is
`deletePatch(pth.getId())`.  The returned iterator is not represented. -/
def deletePatch (s : MVS) (id : Int) : Option MVS :=
  match PatchMap.find s.patches id with
  | none => some s
  | some pth =>
    if s.cellMaps.isEmpty then some { s with patches := PatchMap.erase s.patches id }
    else
      match dropCells s.cellSize pth.id pth.views s.cellMaps with
      | none => none
      | some cms => some { s with cellMaps := cms, patches := PatchMap.erase s.patches id }

/-- The member function `MVS::initCellMaps`: the returned flag and the new state. -/
def initCellMaps (s : MVS) : Bool × MVS :=
  if s.cameras.isEmpty then (false, s)
  else (true, { s with cellMaps := s.cameras.map fun cam => CellMap.new cam s.cellSize })

/-- The loop over `patches` of `setCellMaps`. -/
def projectPatches (cellSize : Int) : List Patch → List CellMap → Option (List CellMap)
  | [], cms => some cms
  | pth :: rest, cms =>
    match insertCells cellSize pth.id pth.views cms with
    | none => none
    | some cms' => projectPatches cellSize rest cms'

/-- The member function `MVS::setCellMaps`. -/
def setCellMaps (s : MVS) : Option MVS :=
  match projectPatches s.cellSize s.patches s.initCellMaps.2.cellMaps with
  | none => none
  | some cms => some { s.initCellMaps.2 with cellMaps := cms }

/-- The member function `MVS::initPriorityQueue`. -/
def initPriorityQueue (s : MVS) : MVS := { s with queue := s.patches.map Patch.id }

/-- The scan of `getTopPriorityPatchId` over the queue.  `kept` holds the ids already
passed and not erased, `topIt` the position in `kept` of the current top (`none` for
`queue.end()`), `topPriority` its priority. -/
def scanQueue (s : MVS) : List Int → List Int → Option Nat → Dbl → Option (List Int × Option Nat)
  | [], kept, topIt, _ => some (kept, topIt)
  | id :: rest, kept, topIt, topPriority =>
    match s.getPatch id with
    | none => none
    | some pth =>
      if pth.expanded then scanQueue s rest kept topIt topPriority
      else if pth.priority.lt topPriority then
        scanQueue s rest (kept ++ [id]) (some kept.length) pth.priority
      else scanQueue s rest (kept ++ [id]) topIt topPriority

/-- The member function `MVS::getTopPriorityPatchId`: the returned id and the state with
the updated queue.  The iterator `topIt` is initialised with `queue.end()` before the scan;
when the scan erases an id and selects no candidate, that iterator is invalid at the final
test `topIt != queue.end()` and the call has no defined result. -/
def getTopPriorityPatchId (s : MVS) : Option (Int × MVS) :=
  match scanQueue s s.queue [] none DBL_MAX with
  | none => none
  | some (kept, none) =>
    if kept.length = s.queue.length then some (-1, { s with queue := kept }) else none
  | some (kept, some i) =>
    match kept[i]? with
    | none => none
    | some topId => some (topId, { s with queue := kept.eraseIdx i })

/-- The pixel center of the cell `(cx, cy)` in world coordinates, the matrix `p3d` of
`getExpansionPatchCenter` after `p3d = R.t() * (p3d - T)`, every operation rounded by `fl`;
the products of the matrix multiplication are summed from the first on. -/
def unprojectCellCenterFl (fl : ℚ → ℚ) (s : MVS) (cam : Camera) (cx cy : Int) : Vec3d :=
  let px : ℚ := fl (fl (cx + 1 / 2) * s.cellSize)
  let py : ℚ := fl (fl (cy + 1 / 2) * s.cellSize)
  let q : Vec3d := Vec3d.subFl fl
    ⟨fl (fl (px - cam.principle.x) / cam.focal.x), fl (fl (py - cam.principle.y) / cam.focal.y), 1⟩
    cam.translation
  Vec3d.addFl fl (Vec3d.addFl fl (Vec3d.smulFl fl q.x cam.rotation.1)
    (Vec3d.smulFl fl q.y cam.rotation.2.1)) (Vec3d.smulFl fl q.z cam.rotation.2.2)

/-- The member function `MVS::getExpansionPatchCenter`, every operation rounded by `fl`.  The
result is `none` when a divisor (a focal length or `parentNormal.ddot(v12)`) is zero: the
double result is then not a finite vector. -/
def getExpansionPatchCenterFl (fl : ℚ → ℚ) (s : MVS) (cam : Camera) (parent : Patch)
    (cx cy : Int) : Option Vec3d :=
  let v13 := Vec3d.subFl fl parent.center cam.center
  let v12 := Vec3d.subFl fl (unprojectCellCenterFl fl s cam cx cy) cam.center
  if cam.focal.x = 0 ∨ cam.focal.y = 0 ∨ Vec3d.ddotFl fl parent.normal v12 = 0 then none
  else
    let u := fl (Vec3d.ddotFl fl parent.normal v13 / Vec3d.ddotFl fl parent.normal v12)
    some (Vec3d.addFl fl cam.center (Vec3d.smulFl fl u v12))

/-- The member function `MVS::getExpansionPatchCenter` in `double` arithmetic. -/
def getExpansionPatchCenter (s : MVS) (cam : Camera) (parent : Patch) (cx cy : Int) :
    Option Vec3d :=
  getExpansionPatchCenterFl roundDouble s cam parent cx cy

/-- The operations of the class `Patch` that the expansion calls and that are defined
outside `mvs.cpp`: the neighbour test `Patch::isNeighbor`, and the construction of an
expansion patch, `Patch expPatch(center, parent); expPatch.refine();
expPatch.removeInvisibleCamera();`.  The first argument of `newPatch` is the number of
patches constructed so far in the run (the state of the id counter and of the
optimizer); the second is the center handed to the constructor, `none` when it is not a
finite vector. -/
structure PatchOps where
  isNeighbor : Patch → Patch → Bool
  newPatch : Nat → Option Vec3d → Patch → Patch

/-- The loop of `skipNeighborCell` over the patches of the cell. -/
def skipNeighborCellLoop (s : MVS) (ops : PatchOps) (refPth : Patch) : List Int → Option Bool
  | [] => some false
  | id :: rest =>
    match s.getPatch id with
    | none => none
    | some pth =>
      if pth.correlation.gt (Dbl.num s.minCorrelation) then some true
      else if ops.isNeighbor refPth pth then some true
      else skipNeighborCellLoop s ops refPth rest

/-- The member function `MVS::skipNeighborCell`. -/
def skipNeighborCell (s : MVS) (ops : PatchOps) (cell : List Int) (refPth : Patch) : Option Bool :=
  if s.maxCellPatchNum ≤ cell.length then some true
  else skipNeighborCellLoop s ops refPth cell

/-- The member function `MVS::expandCell`; the second component of the state counts the
patches constructed so far.  The patch is constructed and handed to `insertPatch` also when
the center is not a finite vector. -/
def expandCell (ops : PatchOps) (st : MVS × Nat) (cam : Camera) (parent : Patch) (cx cy : Int) :
    Option (MVS × Nat) :=
  match st.1.insertPatch
      (ops.newPatch st.2 (getExpansionPatchCenter st.1 cam parent cx cy) parent) with
  | none => none
  | some s' => some (s', st.2 + 1)

/-- The loop of `expandNeighborCell` over the four neighbour cells of camera `c`. -/
def expandNeighbors (ops : PatchOps) (cam : Camera) (pth : Patch) (c : Nat) :
    List (Int × Int) → MVS × Nat → Option (MVS × Nat)
  | [], st => some st
  | n :: rest, st =>
    match st.1.cellMaps[c]? with
    | none => none
    | some m =>
      if !m.inMap n.1 n.2 then expandNeighbors ops cam pth c rest st
      else
        match m.getCell n.1 n.2 with
        | none => none
        | some cell =>
          match skipNeighborCell st.1 ops cell pth with
          | none => none
          | some true => expandNeighbors ops cam pth c rest st
          | some false =>
            match expandCell ops st cam pth n.1 n.2 with
            | none => none
            | some st' => expandNeighbors ops cam pth c rest st'

/-- The loop of `expandNeighborCell` over the visible cameras of the patch. -/
def expandViews (ops : PatchOps) (pth : Patch) : List View → MVS × Nat → Option (MVS × Nat)
  | [], st => some st
  | v :: vs, st =>
    if v.cam ≠ pth.refCam then expandViews ops pth vs st
    else
      match st.1.cameras[v.cam]? with
      | none => none
      | some cam =>
        let cx := (cellOf st.1.cellSize v).1
        let cy := (cellOf st.1.cellSize v).2
        match expandNeighbors ops cam pth v.cam
            [(cx - 1, cy), (cx, cy - 1), (cx + 1, cy), (cx, cy + 1)] st with
        | none => none
        | some st' => expandViews ops pth vs st'

/-- The member function `MVS::expandNeighborCell`. -/
def expandNeighborCell (ops : PatchOps) (st : MVS × Nat) (pth : Patch) : Option (MVS × Nat) :=
  expandViews ops pth pth.views st

/-- The result of a run of `expansionPatches`: the final engine state, the number of
patches constructed and the number of checkpoints `writeMVS("auto_save.mvs")` written. -/
structure Expansion where
  mvs : MVS
  created : Nat
  saves : Nat

/-- The `while (pthId >= 0)` loop of `expansionPatches`, for at most `fuel` iterations
(`none` also when the iterations are used up). -/
def expansionLoop (ops : PatchOps) : Nat → MVS × Nat → Int → Nat → Nat → Option Expansion
  | 0, _, _, _, _ => none
  | fuel + 1, st, pthId, count, saves =>
    if pthId < 0 then some ⟨st.1, st.2, saves⟩
    else
      match st.1.getPatch pthId with
      | none => none
      | some found =>
        let pth := found.setExpanded
        let s1 : MVS := { st.1 with patches := PatchMap.setExpanded st.1.patches pthId }
        match s1.getTopPriorityPatchId with
        | none => none
        | some (next, s2) =>
          match s2.runtimeFiltering pth with
          | none => none
          | some false =>
            match s2.deletePatch pth.id with
            | none => none
            | some s3 => expansionLoop ops fuel (s3, st.2) next count saves
          | some true =>
            match expandNeighborCell ops (s2, st.2) pth with
            | none => none
            | some st' =>
              expansionLoop ops fuel st' next (count + 1)
                (if count % 500 = 0 then saves + 1 else saves)

/-- The member function `MVS::expansionPatches`, for at most `fuel` loop iterations. -/
def expansionPatches (ops : PatchOps) (fuel : Nat) (s : MVS) (created : Nat) : Option Expansion :=
  match s.setCellMaps with
  | none => none
  | some s1 =>
    match s1.initPriorityQueue.getTopPriorityPatchId with
    | none => none
    | some (pthId, s2) => expansionLoop ops fuel (s2, created) pthId 0 0

/-! ## Predicates used in the statements -/

/-- The cell of view `v` exists, holds at least `maxCellPatchNum` ids and does not hold `id`. -/
def Saturated (s : MVS) (id : Int) (v : View) : Prop :=
  ∃ cell, s.cellAt v = some cell ∧ s.maxCellPatchNum ≤ cell.length ∧ id ∉ cell

/-- The number of views of the list that project to cell `(x, y)` of camera `c`. -/
def occ (cellSize : Int) (vs : List View) (c : Nat) (x y : Int) : Nat :=
  vs.countP fun v => decide (v.cam = c ∧ cellOf cellSize v = (x, y))

/-- The number of times the cell maps should hold id `i` in cell `(x, y)` of camera `c`: once
for every view of the patch stored under `i` that projects there. -/
def expectedCount (s : MVS) (i : Int) (c : Nat) (x y : Int) : Nat :=
  match PatchMap.find s.patches i with
  | none => 0
  | some p => occ s.cellSize p.views c x y

/-- The cell maps hold exactly the projections of the patches of the patch map. -/
def CellsExact (s : MVS) : Prop :=
  ∀ c m, s.cellMaps[c]? = some m → ∀ x y i, (m.cells x y).count i = s.expectedCount i c x y

/-- Two vectors of cell maps with the same grids. -/
structure SameShape (cms cms' : List CellMap) : Prop where
  length_eq : cms'.length = cms.length
  shape : ∀ (c : Nat) (m m' : CellMap), cms[c]? = some m → cms'[c]? = some m' →
    m'.width = m.width ∧ m'.height = m.height

/-- The number of views of the patches with id `i` in the list that project to cell
`(x, y)` of camera `c`. -/
def occAll (cellSize : Int) (ps : List Patch) (i : Int) (c : Nat) (x y : Int) : Nat :=
  match ps with
  | [] => 0
  | p :: rest =>
    (if p.id = i then occ cellSize p.views c x y else 0) + occAll cellSize rest i c x y

/-- The id resolves to a patch that is not marked expanded. -/
def unexpanded (s : MVS) (id : Int) : Bool :=
  match s.getPatch id with
  | none => false
  | some p => !p.expanded

/-- The priority of the patch stored under the id (NaN when there is none). -/
def priorityOf (s : MVS) (id : Int) : Dbl :=
  match s.getPatch id with
  | none => Dbl.nan
  | some p => p.priority

/-- The scan of `getTopPriorityPatchId` erases an id and selects no candidate: the queue holds
an id whose patch is marked expanded, and no id whose patch is unexpanded with a priority
below `DBL_MAX`.  The final test then uses the invalid iterator `topIt`. -/
def StaleTop (s : MVS) : Prop :=
  (∃ j ∈ s.queue, s.unexpanded j = false) ∧
  ∀ j ∈ s.queue, s.unexpanded j = true → (s.priorityOf j).lt DBL_MAX = false

/-- The loop invariant of the scan of `getTopPriorityPatchId`, after the ids `seen` of the
queue have been passed: `kept` holds the unexpanded ones, no unexpanded id seen has a
priority below `topPriority`, and the top, when there is one, is the first unexpanded
id seen whose priority is `topPriority`, which is below `DBL_MAX`. -/
structure ScanInv (s : MVS) (seen kept : List Int) (topIt : Option Nat) (topPriority : Dbl) :
    Prop where
  kept_eq : kept = seen.filter s.unexpanded
  lower : ∀ j ∈ seen, s.unexpanded j = true → (s.priorityOf j).lt topPriority = false
  none_case : topIt = none → topPriority = DBL_MAX
  some_case : ∀ i, topIt = some i → ∃ pre top post, seen = pre ++ top :: post ∧
    i = (pre.filter s.unexpanded).length ∧ s.unexpanded top = true ∧
    topPriority = s.priorityOf top ∧ topPriority.lt DBL_MAX = true ∧
    ∀ j ∈ pre, s.unexpanded j = true → s.priorityOf j ≠ topPriority

/-- The image points of the patch have non-negative coordinates. -/
def NonnegViews (p : Patch) : Prop := ∀ v ∈ p.views, 0 ≤ v.pt.x ∧ 0 ≤ v.pt.y

/-- The invariant behind cell-map consistency: the keys of the patch map are distinct, the
cell maps hold exactly the projections of its patches, every view of a patch has a
cell, and image coordinates are non-negative. -/
structure WellFormed (s : MVS) : Prop where
  keys_nodup : (PatchMap.keys s.patches).Nodup
  exact : CellsExact s
  in_range : ∀ p ∈ s.patches, ∀ v ∈ p.views, (s.cellAt v).isSome = true
  nonneg : ∀ p ∈ s.patches, NonnegViews p
  size_pos : 0 < s.cellSize

/-- Cell-map consistency: (a) every patch of the patch map is found in the cell
`(⌊u / cellSize⌋, ⌊v / cellSize⌋)` of each of its visible cameras, and (b) every id stored
in a cell is a key of the patch map. -/
def Consistent (s : MVS) : Prop :=
  (∀ p ∈ s.patches, ∀ v ∈ p.views, ∃ m cell, s.cellMaps[v.cam]? = some m ∧
    m.getCell (Int.floor (v.pt.x / s.cellSize)) (Int.floor (v.pt.y / s.cellSize)) = some cell ∧
    p.id ∈ cell) ∧
  (∀ m ∈ s.cellMaps, ∀ x y cell, m.getCell x y = some cell →
    ∀ i ∈ cell, i ∈ PatchMap.keys s.patches)

/-- The engine states reached by `setCellMaps` followed by calls of `deletePatch` and of
`insertPatch` on patches whose id is not yet a key of the patch map. -/
inductive Reachable : MVS → Prop where
  | setCellMaps (s0 s : MVS) (hcam : s0.cameras.isEmpty = false) (hsize : 0 < s0.cellSize)
      (hkeys : (PatchMap.keys s0.patches).Nodup) (hpts : ∀ p ∈ s0.patches, NonnegViews p)
      (h : s0.setCellMaps = some s) : Reachable s
  | insertPatch (s s' : MVS) (p : Patch) (hs : Reachable s)
      (hfresh : PatchMap.find s.patches p.id = none) (hpts : NonnegViews p)
      (h : s.insertPatch p = some s') : Reachable s'
  | deletePatch (s s' : MVS) (id : Int) (hs : Reachable s)
      (h : s.deletePatch id = some s') : Reachable s'

/-- Every cell of every cell map holds at most `maxCellPatchNum` ids. -/
def CellsBounded (s : MVS) : Prop :=
  ∀ m ∈ s.cellMaps, ∀ x y cell, m.getCell x y = some cell → cell.length ≤ s.maxCellPatchNum

/-- What the expansion of a patch preserves: the cameras, and that a patch of the patch
map was there before or passed the foreground test of `runtimeFiltering`. -/
def Grown (st st' : MVS × Nat) : Prop :=
  st'.1.cameras = st.1.cameras ∧
  ∀ q ∈ st'.1.patches, q ∈ st.1.patches ∨ inForeground st.1.cameras q.center = true

/-- One call `expandCell(cam, pth, cx, cy)` made by `expandNeighborCell`: the engine at the
moment of the call, the index of the camera and the cell. -/
structure ExpandCall where
  mvs : MVS
  cam : Nat
  cx : Int
  cy : Int

/-- The loop `expandNeighbors`, recording the calls of `expandCell`. -/
def expandNeighborsLog (ops : PatchOps) (cam : Camera) (pth : Patch) (c : Nat) :
    List (Int × Int) → (MVS × Nat) × List ExpandCall → Option ((MVS × Nat) × List ExpandCall)
  | [], acc => some acc
  | n :: rest, (st, log) =>
    match st.1.cellMaps[c]? with
    | none => none
    | some m =>
      if !m.inMap n.1 n.2 then expandNeighborsLog ops cam pth c rest (st, log)
      else
        match m.getCell n.1 n.2 with
        | none => none
        | some cell =>
          match skipNeighborCell st.1 ops cell pth with
          | none => none
          | some true => expandNeighborsLog ops cam pth c rest (st, log)
          | some false =>
            match expandCell ops st cam pth n.1 n.2 with
            | none => none
            | some st' =>
              expandNeighborsLog ops cam pth c rest (st', log ++ [⟨st.1, c, n.1, n.2⟩])

/-- The loop `expandViews`, recording the calls of `expandCell`. -/
def expandViewsLog (ops : PatchOps) (pth : Patch) :
    List View → (MVS × Nat) × List ExpandCall → Option ((MVS × Nat) × List ExpandCall)
  | [], acc => some acc
  | v :: vs, (st, log) =>
    if v.cam ≠ pth.refCam then expandViewsLog ops pth vs (st, log)
    else
      match st.1.cameras[v.cam]? with
      | none => none
      | some cam =>
        let cx := (cellOf st.1.cellSize v).1
        let cy := (cellOf st.1.cellSize v).2
        match expandNeighborsLog ops cam pth v.cam
            [(cx - 1, cy), (cx, cy - 1), (cx + 1, cy), (cx, cy + 1)] (st, log) with
        | none => none
        | some acc => expandViewsLog ops pth vs acc

/-- The member function `MVS::expandNeighborCell`, together with the list of its calls of
`expandCell`. -/
def expandNeighborCellLog (ops : PatchOps) (st : MVS × Nat) (pth : Patch) :
    Option ((MVS × Nat) × List ExpandCall) :=
  expandViewsLog ops pth pth.views (st, [])

/-- What holds of a recorded call made for camera `c`: the cell is inside the map and
`skipNeighborCell` did not skip it. -/
def CallOk (ops : PatchOps) (pth : Patch) (c : Nat) (call : ExpandCall) : Prop :=
  call.cam = c ∧ ∃ m cell, call.mvs.cellMaps[c]? = some m ∧
    m.inMap call.cx call.cy = true ∧ m.getCell call.cx call.cy = some cell ∧
    skipNeighborCell call.mvs ops cell pth = some false

/-! ### The neighbour-cell filter -/

/-- The cells `(nx[j], ny[j])`, `j = 0 .. 8`, of `neighborCellFiltering` for the center cell
`(x, y)`. -/
def neighborCells9 (x y : Int) : List (Int × Int) :=
  [(x, y), (x - 1, y - 1), (x + 1, y - 1), (x - 1, y + 1), (x + 1, y + 1), (x + 1, y),
    (x, y + 1), (x - 1, y), (x, y - 1)]

/-- The loop "neighbor patch" of `neighborCellFiltering` over the ids of one neighbour cell:
it adds to `neighborPthNum` the patches that are neighbours of the center patch. -/
def countNeighborPatches (s : MVS) (ops : PatchOps) (centerPth : Patch) : List Int → Int → Option Int
  | [], neighborPthNum => some neighborPthNum
  | id :: rest, neighborPthNum =>
    match s.getPatch id with
    | none => none
    | some neighborPth =>
      countNeighborPatches s ops centerPth rest
        (if ops.isNeighbor centerPth neighborPth then neighborPthNum + 1 else neighborPthNum)

/-- The loop "neighbor cell" of `neighborCellFiltering` over the nine cells: the pair
`(neighborPthSum, neighborPthNum)`. -/
def tallyNeighborCells (s : MVS) (ops : PatchOps) (m : CellMap) (centerPth : Patch) :
    List (Int × Int) → Int × Int → Option (Int × Int)
  | [], acc => some acc
  | n :: rest, (neighborPthSum, neighborPthNum) =>
    if !m.inMap n.1 n.2 then
      tallyNeighborCells s ops m centerPth rest (neighborPthSum, neighborPthNum)
    else
      match m.getCell n.1 n.2 with
      | none => none
      | some neighborCell =>
        match countNeighborPatches s ops centerPth neighborCell neighborPthNum with
        | none => none
        | some num =>
          tallyNeighborCells s ops m centerPth rest (neighborPthSum + neighborCell.length, num)

/-- The test `(double) neighborPthNum / (double) neighborPthSum < neighborRatio` for a finite
`neighborRatio`: the quotient of the two `double`s is rounded to the nearest `double`
before it is compared; with a zero denominator it is NaN or infinite and the comparison is
false. -/
def belowRatio (neighborPthNum neighborPthSum : Int) (neighborRatio : ℚ) : Bool :=
  decide (neighborPthSum ≠ 0 ∧
    roundDouble ((neighborPthNum : ℚ) / (neighborPthSum : ℚ)) < neighborRatio)

/-- The loop "center cell" of `neighborCellFiltering` over the ids of the cell `(x, y)`: the
vector `removeIdx`. -/
def markCenterCell (s : MVS) (ops : PatchOps) (neighborRatio : ℚ) (m : CellMap) (x y : Int) :
    List Int → List Int → Option (List Int)
  | [], removeIdx => some removeIdx
  | id :: rest, removeIdx =>
    match s.getPatch id with
    | none => none
    | some centerPth =>
      match tallyNeighborCells s ops m centerPth (neighborCells9 x y) (0, 0) with
      | none => none
      | some tally =>
        markCenterCell s ops neighborRatio m x y rest
          (if belowRatio tally.2 tally.1 neighborRatio then removeIdx ++ [centerPth.id]
            else removeIdx)

/-- The loop `for (i ...) deletePatch(removeIdx[i])` of the filters. -/
def deleteAll : MVS → List Int → Option MVS
  | s, [] => some s
  | s, id :: rest =>
    match s.deletePatch id with
    | none => none
    | some s' => deleteAll s' rest

/-- The body of the loops over `x` and `y` of `neighborCellFiltering` for camera `i`: the
patches of cell `(x, y)` are marked, then deleted. -/
def neighborCellFilterAt (ops : PatchOps) (neighborRatio : ℚ) (i : Nat) (s : MVS) (x y : Int) :
    Option MVS :=
  match s.cellMaps[i]? with
  | none => none
  | some m =>
    match m.getCell x y with
    | none => none
    | some cell =>
      match markCenterCell s ops neighborRatio m x y cell [] with
      | none => none
      | some removeIdx => deleteAll s removeIdx

/-- The cells `(x, y)`, `x < width`, `y < height`, in the order of the loops of the filters. -/
def gridCells (width height : Nat) : List (Int × Int) :=
  (List.range width).flatMap fun x => (List.range height).map fun y => ((x : Int), (y : Int))

/-- A loop over cells with a body that may be undefined. -/
def forCells (body : MVS → Int → Int → Option MVS) : List (Int × Int) → MVS → Option MVS
  | [], s => some s
  | n :: rest, s =>
    match body s n.1 n.2 with
    | none => none
    | some s' => forCells body rest s'

/-- The loop over the cameras of `neighborCellFiltering`. -/
def neighborCellFilterCameras (ops : PatchOps) (neighborRatio : ℚ) : List Nat → MVS → Option MVS
  | [], s => some s
  | i :: rest, s =>
    match s.cellMaps[i]? with
    | none => none
    | some m =>
      match forCells (neighborCellFilterAt ops neighborRatio i) (gridCells m.width m.height) s with
      | none => none
      | some s' => neighborCellFilterCameras ops neighborRatio rest s'

/-- The member function `MVS::neighborCellFiltering`. -/
def neighborCellFiltering (ops : PatchOps) (s : MVS) (neighborRatio : ℚ) : Option MVS :=
  neighborCellFilterCameras ops neighborRatio (List.range s.cameras.length) s

/-- The 3 × 3 neighbourhood of the cell `(x, y)`. -/
def block3x3 (x y : Int) : List (Int × Int) :=
  [x - 1, x, x + 1].flatMap fun a => [y - 1, y, y + 1].map fun b => (a, b)

/-- The patch ids held by the given cells that lie inside the map, with multiplicity. -/
def idsOfCells (m : CellMap) (cells : List (Int × Int)) : List Int :=
  (cells.filter fun n => m.inMap n.1 n.2).flatMap fun n => m.cells n.1 n.2

/-- The id resolves to a patch that is a neighbour of `centerPth`. -/
def isNeighborId (s : MVS) (ops : PatchOps) (centerPth : Patch) (id : Int) : Bool :=
  match s.getPatch id with
  | none => false
  | some q => ops.isNeighbor centerPth q

/-- The removal test of the neighbour-cell filter in the words of its description: among the
patches of the 3 × 3 neighbourhood inside the map, the share of neighbours of the center
patch is below `neighborRatio`. -/
def fewNeighbors (s : MVS) (ops : PatchOps) (neighborRatio : ℚ) (m : CellMap) (x y : Int)
    (id : Int) : Bool :=
  match s.getPatch id with
  | none => false
  | some centerPth =>
    decide ((idsOfCells m (block3x3 x y)).length ≠ 0 ∧
      (((idsOfCells m (block3x3 x y)).countP (isNeighborId s ops centerPth) : Nat) : ℚ) /
        (((idsOfCells m (block3x3 x y)).length : Nat) : ℚ) < neighborRatio)

/-- The removal test of the neighbour-cell filter on `double`s: among the patches of the
3 × 3 neighbourhood inside the map, the share of neighbours of the center patch, rounded to
the nearest `double`, is below `neighborRatio`. -/
def lowRatio (s : MVS) (ops : PatchOps) (neighborRatio : ℚ) (m : CellMap) (x y : Int)
    (id : Int) : Bool :=
  match s.getPatch id with
  | none => false
  | some centerPth =>
    decide ((idsOfCells m (block3x3 x y)).length ≠ 0 ∧
      roundDouble
        ((((idsOfCells m (block3x3 x y)).countP (isNeighborId s ops centerPth) : Nat) : ℚ) /
          (((idsOfCells m (block3x3 x y)).length : Nat) : ℚ)) < neighborRatio)

/-- The cells visited by the loops of the neighbour-cell filter, in their order: for every
camera `i`, every cell `(x, y)` of its cell map, column by column. -/
def cellVisits (s : MVS) : List (Nat × Int × Int) :=
  (List.range s.cameras.length).flatMap fun i =>
    match s.cellMaps[i]? with
    | none => []
    | some m => (gridCells m.width m.height).map fun c => (i, c.1, c.2)

/-- A run of the neighbour-cell filter over the given visits, from state `t` to state `s1`.
At the visit of cell `(x, y)` of camera `i` the cell exists; for every center patch the loop
over the nine neighbour cells returns the number of ids held by those of them that lie inside
the map and the number of these that are neighbours of the center patch; the ids marked in
`removeIdx` are the ids of the cell that satisfy `lowRatio` in the state of the visit; and
these are the ids whose patches are deleted before the next visit. -/
def FilterSteps (ops : PatchOps) (neighborRatio : ℚ) : List (Nat × Int × Int) → MVS → MVS → Prop
  | [], t, s1 => s1 = t
  | v :: rest, t, s1 =>
    ∃ (m : CellMap) (cell : List Int) (t1 : MVS),
      t.cellMaps[v.1]? = some m ∧ m.getCell v.2.1 v.2.2 = some cell ∧
      (∀ centerPth : Patch,
        tallyNeighborCells t ops m centerPth (neighborCells9 v.2.1 v.2.2) (0, 0) =
          some ((((idsOfCells m (neighborCells9 v.2.1 v.2.2)).length : Nat) : Int),
            (((idsOfCells m (neighborCells9 v.2.1 v.2.2)).countP
              (isNeighborId t ops centerPth) : Nat) : Int))) ∧
      markCenterCell t ops neighborRatio m v.2.1 v.2.2 cell [] =
        some (cell.filter (lowRatio t ops neighborRatio m v.2.1 v.2.2)) ∧
      deleteAll t (cell.filter (lowRatio t ops neighborRatio m v.2.1 v.2.2)) = some t1 ∧
      (∀ j, t1.getPatch j =
        if j ∈ cell.filter (lowRatio t ops neighborRatio m v.2.1 v.2.2) then none
        else t.getPatch j) ∧
      FilterSteps ops neighborRatio rest t1 s1

/-! ### The visibility filter -/

/-- The loop over the ids of one cell in `visibilityFiltering`: whether the scan reaches a
patch other than `pth` with `depth > neighborDepth`, where it decrements `visibleCount` and
breaks.  The function `norm` stands for `cv::norm` on `Vec3d`. -/
def closerInCell (norm : Vec3d → ℚ) (s : MVS) (pth : Patch) (cam : Camera) (depth : ℚ) :
    List Int → Option Bool
  | [] => some false
  | id :: rest =>
    if id = pth.id then closerInCell norm s pth cam depth rest
    else
      match s.getPatch id with
      | none => none
      | some neighborPth =>
        if depth > norm (neighborPth.center.sub cam.center) then some true
        else closerInCell norm s pth cam depth rest

/-- The loop "count visible views" of `visibilityFiltering`: the final `visibleCount`. -/
def countVisible (norm : Vec3d → ℚ) (s : MVS) (pth : Patch) : List View → Int → Option Int
  | [], visibleCount => some visibleCount
  | v :: rest, visibleCount =>
    match s.getCamera v.cam with
    | none => none
    | some cam =>
      match s.cellAt v with
      | none => none
      | some cell =>
        match closerInCell norm s pth cam (norm (pth.center.sub cam.center)) cell with
        | none => none
        | some closer =>
          countVisible norm s pth rest (if closer then visibleCount - 1 else visibleCount)

/-- The loop over `patches` of `visibilityFiltering`, from the entry the iterator points to:
the entries after it are not touched by erasing the current one. -/
def visibilityLoop (norm : Vec3d → ℚ) : List Patch → MVS → Option MVS
  | [], s => some s
  | pth :: rest, s =>
    match countVisible norm s pth pth.views pth.getCameraNumber with
    | none => none
    | some visibleCount =>
      if visibleCount < s.minCamNum then
        match s.deletePatch pth.id with
        | none => none
        | some s' => visibilityLoop norm rest s'
      else visibilityLoop norm rest s

/-- The member function `MVS::visibilityFiltering`. -/
def visibilityFiltering (norm : Vec3d → ℚ) (s : MVS) : Option MVS :=
  visibilityLoop norm s.patches s

/-- The patch stored under `id` is strictly closer to the center of `cam` than `pth`. -/
def closerId (norm : Vec3d → ℚ) (s : MVS) (pth : Patch) (cam : Camera) (id : Int) : Bool :=
  match s.getPatch id with
  | none => false
  | some q => decide (norm (q.center.sub cam.center) < norm (pth.center.sub cam.center))

/-- In the view `v` of `pth`, no other patch of the cell is strictly closer to the camera
center. -/
def unoccluded (norm : Vec3d → ℚ) (s : MVS) (pth : Patch) (v : View) : Bool :=
  match s.getCamera v.cam, s.cellAt v with
  | some cam, some cell => cell.all fun id => decide (id = pth.id) || !closerId norm s pth cam id
  | _, _ => false

/-- The state `s'` comes from `s` by deletions only: same cameras and configuration, every id
resolves to nothing or to the same patch, and every cell holds only ids it held before. -/
structure Shrunk (s s' : MVS) : Prop where
  cameras : s'.cameras = s.cameras
  minCamNum : s'.minCamNum = s.minCamNum
  patches : ∀ i, s'.getPatch i = none ∨ s'.getPatch i = s.getPatch i
  cells : ∀ v cell', s'.cellAt v = some cell' →
    ∃ cell, s.cellAt v = some cell ∧ ∀ i ∈ cell', i ∈ cell

/-! ### The k-nearest-neighbour filter -/

/-- The bounds `minTheta .. maxDist` of `patchQuantization`. -/
structure QuanBound where
  minTheta : ℚ
  maxTheta : ℚ
  minPhi : ℚ
  maxPhi : ℚ
  minDist : ℚ
  maxDist : ℚ
deriving DecidableEq

/-- One entry `bins[thetaIdx][phiIdx][distIdx].push_back(id)`. -/
structure Vote where
  thetaIdx : Int
  phiIdx : Int
  distIdx : Int
  id : Int
deriving DecidableEq

/-- One call `pth.setQuantization(center, quanNormal)` on the patch `id`, together with the
values of the locals `quanDist` and `projCenter` at the call. -/
structure QuanCall where
  id : Int
  center : Vec3d
  quanNormal : Vec3d
  quanDist : ℚ
  projCenter : Vec3d
deriving DecidableEq

/-- The value of `DBL_MAX` as a rational number. -/
def dblMaxValue : ℚ := 2 ^ 1024 - 2 ^ 971

/-- The loop "get bound" of `patchQuantization`.  The function `getSphericalNormal` stands for
the accessor of the class `Patch`. -/
def getBound (getSphericalNormal : Patch → Vec2d) : List Patch → QuanBound → QuanBound
  | [], b => b
  | pth :: rest, b =>
    getBound getSphericalNormal rest
      { minDist := if -(pth.normal.ddot pth.center) < b.minDist
          then -(pth.normal.ddot pth.center) else b.minDist
        maxDist := if -(pth.normal.ddot pth.center) > b.maxDist
          then -(pth.normal.ddot pth.center) else b.maxDist
        minTheta := if (getSphericalNormal pth).x < b.minTheta
          then (getSphericalNormal pth).x else b.minTheta
        maxTheta := if (getSphericalNormal pth).x > b.maxTheta
          then (getSphericalNormal pth).x else b.maxTheta
        minPhi := if (getSphericalNormal pth).y < b.minPhi
          then (getSphericalNormal pth).y else b.minPhi
        maxPhi := if (getSphericalNormal pth).y > b.maxPhi
          then (getSphericalNormal pth).y else b.maxPhi }

/-- The index `cvRound(((v - lo) / range) * (num - 1))` into a vector of `num` bins.  With
`range = 0` the quotient is not a number and `cvRound` has no defined value; an index outside
the vector is an undefined access. -/
def binIndex (v lo range : ℚ) (num : Int) : Option Int :=
  if range = 0 then none
  else if 0 ≤ cvRound ((v - lo) / range * ((num - 1 : Int) : ℚ)) ∧
      cvRound ((v - lo) / range * ((num - 1 : Int) : ℚ)) < num then
    some (cvRound ((v - lo) / range * ((num - 1 : Int) : ℚ)))
  else none

/-- The loop "vote in hough space" of `patchQuantization`: the entries pushed to the bins, in
order. -/
def voteLoop (getSphericalNormal : Patch → Vec2d) (b : QuanBound) (thetaNum phiNum distNum : Int) :
    List Patch → Option (List Vote)
  | [] => some []
  | pth :: rest =>
    match binIndex (getSphericalNormal pth).x b.minTheta (b.maxTheta - b.minTheta) thetaNum,
      binIndex (getSphericalNormal pth).y b.minPhi (b.maxPhi - b.minPhi) phiNum,
      binIndex (-(pth.normal.ddot pth.center)) b.minDist (b.maxDist - b.minDist) distNum with
    | some thetaIdx, some phiIdx, some distIdx =>
      match voteLoop getSphericalNormal b thetaNum phiNum distNum rest with
      | none => none
      | some votes => some (⟨thetaIdx, phiIdx, distIdx, pth.id⟩ :: votes)
    | _, _, _ => none

/-- The content of `bins[thetaIdx][phiIdx][distIdx]` after the vote. -/
def binIds (votes : List Vote) (thetaIdx phiIdx distIdx : Int) : List Int :=
  (votes.filter fun v =>
    decide (v.thetaIdx = thetaIdx ∧ v.phiIdx = phiIdx ∧ v.distIdx = distIdx)).map Vote.id

/-- The loop over the ids of one bin in `patchQuantization`: the calls of `setQuantization`.
Its first argument is `center`, the center of the patch; `projCenter` is computed and not
used. -/
def quantizeBin (s : MVS) (quanNormal : Vec3d) (quanDist : ℚ) : List Int → Option (List QuanCall)
  | [] => some []
  | id :: rest =>
    match s.getPatch id with
    | none => none
    | some pth =>
      match quantizeBin s quanNormal quanDist rest with
      | none => none
      | some calls =>
        some (⟨pth.id, pth.center, quanNormal, quanDist,
          pth.center.sub (Vec3d.smul
            ((pth.center.add (Vec3d.smul quanDist quanNormal)).ddot quanNormal) quanNormal)⟩
          :: calls)

/-- The index triples of the three nested loops "patch quantization", in loop order. -/
def binTriples (thetaNum phiNum distNum : Int) : List (Int × Int × Int) :=
  (List.range thetaNum.toNat).flatMap fun t =>
    (List.range phiNum.toNat).flatMap fun p =>
      (List.range distNum.toNat).map fun d => ((t : Int), (p : Int), (d : Int))

/-- The three nested loops "patch quantization" over the given bins.  The function
`spherical2Normal` stands for `Utility::spherical2Normal`. -/
def quantizeBins (spherical2Normal : Vec2d → Vec3d) (s : MVS) (b : QuanBound)
    (thetaStep phiStep distStep : ℚ) (votes : List Vote) :
    List (Int × Int × Int) → Option (List QuanCall)
  | [] => some []
  | (thetaIdx, phiIdx, distIdx) :: rest =>
    match quantizeBin s
        (spherical2Normal ⟨thetaIdx * thetaStep + b.minTheta, phiIdx * phiStep + b.minPhi⟩)
        (distIdx * distStep + b.minDist) (binIds votes thetaIdx phiIdx distIdx) with
    | none => none
    | some calls =>
      match quantizeBins spherical2Normal s b thetaStep phiStep distStep votes rest with
      | none => none
      | some more => some (calls ++ more)

/-- The part of `patchQuantization` after the loop "get bound", for the bounds `b`: the
steps, the vote and the loops "patch quantization". -/
def quantizeWith (getSphericalNormal : Patch → Vec2d) (spherical2Normal : Vec2d → Vec3d)
    (s : MVS) (thetaNum phiNum distNum : Int) (b : QuanBound) : Option (List QuanCall) :=
  match voteLoop getSphericalNormal b thetaNum phiNum distNum s.patches with
  | none => none
  | some votes =>
    quantizeBins spherical2Normal s b ((b.maxTheta - b.minTheta) / thetaNum)
      ((b.maxPhi - b.minPhi) / phiNum) ((b.maxDist - b.minDist) / distNum) votes
      (binTriples thetaNum phiNum distNum)

/-- The member function `MVS::patchQuantization`: the calls of `Patch::setQuantization` it
makes, in order. -/
def patchQuantization (getSphericalNormal : Patch → Vec2d) (spherical2Normal : Vec2d → Vec3d)
    (s : MVS) (thetaNum phiNum distNum : Int) : Option (List QuanCall) :=
  quantizeWith getSphericalNormal spherical2Normal s thetaNum phiNum distNum
    (getBound getSphericalNormal s.patches
      ⟨dblMaxValue, -dblMaxValue, dblMaxValue, -dblMaxValue, dblMaxValue, -dblMaxValue⟩)

/-! ### The configurations of the expansion loop -/

/-- Every id held in the priority queue is a key of the patch map. -/
def QueueResolves (s : MVS) : Prop := ∀ id ∈ s.queue, (s.getPatch id).isSome = true

/-- The configurations `(engine state, pthId)` in which `expansionPatches` reaches the test
`while (pthId >= 0)` during at most `fuel` iterations; the list ends where the loop exits,
where an access is undefined, or when the iterations are used up. -/
def expansionConfigs (ops : PatchOps) : Nat → MVS × Nat → Int → List (MVS × Int)
  | 0, st, pthId => [(st.1, pthId)]
  | fuel + 1, st, pthId =>
    (st.1, pthId) ::
      if pthId < 0 then []
      else
        match st.1.getPatch pthId with
        | none => []
        | some found =>
          match ({ st.1 with patches := PatchMap.setExpanded st.1.patches pthId } :
              MVS).getTopPriorityPatchId with
          | none => []
          | some (next, s2) =>
            match s2.runtimeFiltering found.setExpanded with
            | none => []
            | some false =>
              match s2.deletePatch found.setExpanded.id with
              | none => []
              | some s3 => expansionConfigs ops fuel (s3, st.2) next
            | some true =>
              match expandNeighborCell ops (s2, st.2) found.setExpanded with
              | none => []
              | some st' => expansionConfigs ops fuel st' next

/-- The configurations of a run of `expansionPatches`, from the first test of the loop. -/
def expansionPatchesConfigs (ops : PatchOps) (fuel : Nat) (s : MVS) (created : Nat) :
    List (MVS × Int) :=
  match s.setCellMaps with
  | none => []
  | some s1 =>
    match s1.initPriorityQueue.getTopPriorityPatchId with
    | none => []
    | some (pthId, s2) => expansionConfigs ops fuel (s2, created) pthId

/-- The state after `pth.setExpanded()` on the patch stored under `pthId`. -/
def markExpanded (s : MVS) (pthId : Int) : MVS :=
  { s with patches := PatchMap.setExpanded s.patches pthId }

/-- The queue invariant in one configuration: the queue ids are keys of the patch map, and
so is `pthId` when the loop goes on (`pthId >= 0`). -/
def ConfigOk (cfg : MVS × Int) : Prop :=
  QueueResolves cfg.1 ∧ (0 ≤ cfg.2 → (cfg.1.getPatch cfg.2).isSome = true)

/-- The patch map and the queue only grow from `st` to `st'`, by ids that are keys. -/
def KeysGrow (st st' : MVS × Nat) : Prop :=
  (∀ id, (st.1.getPatch id).isSome = true → (st'.1.getPatch id).isSome = true) ∧
  ∀ id ∈ st'.1.queue, id ∈ st.1.queue ∨ (st'.1.getPatch id).isSome = true

end MVS

/-! ## Concrete engines -/

namespace Example

/-- A pinhole camera at the origin looking along `+z`, with a `4 × 4` image without
background pixels. -/
def camera : Camera :=
  { focal := ⟨1, 1⟩
    principle := ⟨0, 0⟩
    rotation := (⟨1, 0, 0⟩, ⟨0, 1, 0⟩, ⟨0, 0, 1⟩)
    translation := ⟨0, 0, 0⟩
    center := ⟨0, 0, 0⟩
    opticalNormal := ⟨0, 0, 1⟩
    imgWidth := 4
    imgHeight := 4
    project := fun p =>
      if 0 < p.z ∧ 0 ≤ p.x / p.z ∧ p.x / p.z < 4 ∧ 0 ≤ p.y / p.z ∧ p.y / p.z < 4
      then some ⟨p.x / p.z, p.y / p.z⟩ else none
    pixel := fun _ _ => 255 }

/-- A patch facing `camera`, visible in camera 0 at the projection of its center. -/
def patchAt (id : Int) (c : Vec3d) : Patch :=
  { id := id
    center := c
    normal := ⟨0, 0, -1⟩
    views := [⟨0, ⟨c.x / c.z, c.y / c.z⟩⟩]
    refCam := 0
    fitness := Dbl.num (1 / 2)
    priority := Dbl.num 1
    correlation := Dbl.num (9 / 10)
    expanded := false
    dropped := false }

/-- Patch operations: no two patches are neighbours; the `k`-th constructed patch gets
id `100 + k`, and fitness NaN when its center is not a finite vector. -/
def ops : MVS.PatchOps :=
  { isNeighbor := fun _ _ => false
    newPatch := fun k c _ =>
      match c with
      | some c => patchAt (100 + k) c
      | none => { patchAt (100 + k) ⟨0, 0, 1⟩ with fitness := Dbl.nan } }

/-- One camera and one seed patch; cell maps and queue not yet built. -/
def seedEngine : MVS :=
  { cameras := [camera]
    patches := [patchAt 0 ⟨1, 1, 1⟩]
    cellMaps := []
    queue := []
    cellSize := 2
    minCamNum := 1
    maxFitness := 1
    minCorrelation := 7 / 10
    maxCellPatchNum := 3 }

/-- The engine `seedEngine` without patches. -/
def emptyEngine : MVS := { seedEngine with patches := [] }

/-- A patch with id 5 that projects to cell `(0, 0)` of camera 0. -/
def fifthPatch : Patch := patchAt 5 ⟨1, 1, 1⟩

/-- The engine `emptyEngine` after `setCellMaps`. -/
def builtEngine : MVS := (emptyEngine.setCellMaps).getD emptyEngine

/-- The engine `builtEngine` after `insertPatch(fifthPatch)`. -/
def insertedOnce : MVS := (builtEngine.insertPatch fifthPatch).getD builtEngine

/-- The run `setCellMaps(); insertPatch(p); insertPatch(p);` on `emptyEngine`, with
`p = fifthPatch`. -/
def insertedTwice : Option MVS :=
  (emptyEngine.setCellMaps.bind fun s => s.insertPatch fifthPatch).bind
    fun s => s.insertPatch fifthPatch

/-- The run `setCellMaps(); insertPatch(p); insertPatch(p); deletePatch(p);` on
`emptyEngine`, with `p = fifthPatch`. -/
def insertedTwiceDeleted : Option MVS :=
  insertedTwice.bind fun s => s.deletePatch fifthPatch.id

/-- Four patches in the queue: priorities 3, 2, 2 and an expanded patch of priority 1. -/
def queueEngine : MVS :=
  { seedEngine with
    patches := [{ patchAt 1 ⟨1, 1, 1⟩ with priority := Dbl.num 3 },
      { patchAt 2 ⟨1, 1, 1⟩ with priority := Dbl.num 2 },
      { patchAt 3 ⟨1, 1, 1⟩ with priority := Dbl.num 2 },
      { patchAt 4 ⟨1, 1, 1⟩ with priority := Dbl.num 1, expanded := true }]
    queue := [1, 2, 3, 4] }

/-- An engine whose queue holds one id, of a patch that is marked expanded. -/
def expandedQueue : MVS :=
  { seedEngine with
    patches := [{ patchAt 4 ⟨1, 1, 1⟩ with expanded := true }]
    queue := [4] }

/-- One camera and one seed patch that is already marked expanded. -/
def expandedSeed : MVS :=
  { seedEngine with patches := [{ patchAt 0 ⟨1, 1, 1⟩ with expanded := true }] }

/-- One camera and one seed, with a single cell covering the image: the seed has no
neighbour cell inside the map. -/
def coarseSeeds : MVS := { seedEngine with cellSize := 4 }

/-- The result of `expansionPatches` on `coarseSeeds`. -/
def coarseRun : MVS.Expansion :=
  (MVS.expansionPatches ops 10 coarseSeeds 0).getD ⟨coarseSeeds, 0, 0⟩

/-- The seed engine with the id of its seed twice in the queue. -/
def duplicateQueue : MVS := { seedEngine with queue := [0, 0] }

/-- An engine whose queue holds one unexpanded patch, of priority NaN. -/
def nanQueue : MVS :=
  { seedEngine with
    patches := [{ patchAt 0 ⟨1, 1, 1⟩ with priority := Dbl.nan }]
    queue := [0] }

/-- An engine whose queue holds one unexpanded patch, of priority `DBL_MAX`. -/
def maxQueue : MVS :=
  { seedEngine with
    patches := [{ patchAt 0 ⟨1, 1, 1⟩ with priority := DBL_MAX }]
    queue := [0] }

/-- A patch like the seed, with fitness `-1`. -/
def negativePatch : Patch := { patchAt 7 ⟨1, 1, 1⟩ with fitness := Dbl.num (-1) }

/-- Two cameras and three patches that project to cell `(0, 0)` of camera 0. -/
def threeSeeds : MVS :=
  { seedEngine with
    cameras := [camera, camera]
    patches := [patchAt 1 ⟨1, 1, 1⟩, patchAt 2 ⟨1, 1, 1⟩, patchAt 3 ⟨1, 1, 1⟩] }

/-- The engine `threeSeeds` after `setCellMaps`: cell `(0, 0)` of camera 0 holds
`maxCellPatchNum = 3` ids. -/
def fullEngine : MVS := (threeSeeds.setCellMaps).getD threeSeeds

/-- A fourth patch whose only visible cell is the full one. -/
def fourthPatch : Patch := patchAt 4 ⟨1, 1, 1⟩

/-- A fourth patch visible in the full cell of camera 0 and in an empty cell of camera 1. -/
def twoViewPatch : Patch :=
  { patchAt 4 ⟨1, 1, 1⟩ with views := [⟨0, ⟨1, 1⟩⟩, ⟨1, ⟨1, 1⟩⟩] }

/-- The engine `emptyEngine` without cameras. -/
def noCameras : MVS := { emptyEngine with cameras := [] }

/-- The engine `seedEngine` after `setCellMaps`. -/
def seedBuilt : MVS := (seedEngine.setCellMaps).getD seedEngine

/-- The engine `seedBuilt` after `expandNeighborCell` on its seed. -/
def seedExpanded : MVS × Nat :=
  (MVS.expandNeighborCell ops (seedBuilt, 0) (patchAt 0 ⟨1, 1, 1⟩)).getD (seedBuilt, 0)

/-- The run of `expandNeighborCell` on the seed of `seedBuilt`, with its calls of
`expandCell`. -/
def seedExpandedLog : (MVS × Nat) × List MVS.ExpandCall :=
  (MVS.expandNeighborCellLog ops (seedBuilt, 0) (patchAt 0 ⟨1, 1, 1⟩)).getD ((seedBuilt, 0), [])

/-- Patch operations: two patches are neighbours when their centers coincide. -/
def centerOps : MVS.PatchOps :=
  { isNeighbor := fun a b => decide (a.center = b.center)
    newPatch := ops.newPatch }

/-- One camera and three patches: two at the same place in cell `(0, 0)`, one in cell
`(1, 1)`. -/
def mixedSeeds : MVS :=
  { seedEngine with
    patches := [patchAt 1 ⟨1, 1, 1⟩, patchAt 2 ⟨1, 1, 1⟩, patchAt 3 ⟨3, 3, 1⟩] }

/-- The engine `mixedSeeds` after `setCellMaps`. -/
def mixedEngine : MVS := (mixedSeeds.setCellMaps).getD mixedSeeds

/-- The cell map of camera 0 of `mixedEngine`. -/
def mixedMap : CellMap := (mixedEngine.cellMaps[0]?).getD (CellMap.new camera 2)

/-- One camera and five patches at five places: two in cell `(0, 0)` and one in each other
cell of the `2 × 2` map. -/
def fiveSeeds : MVS :=
  { seedEngine with
    patches := [patchAt 1 ⟨1, 1, 1⟩, patchAt 2 ⟨3, 1, 1⟩, patchAt 3 ⟨1, 3, 1⟩,
      patchAt 4 ⟨3, 3, 1⟩, patchAt 5 ⟨1 / 2, 1 / 2, 1⟩] }

/-- The engine `fiveSeeds` after `setCellMaps`. -/
def fiveEngine : MVS := (fiveSeeds.setCellMaps).getD fiveSeeds

/-- The cell map of camera 0 of `fiveEngine`. -/
def fiveMap : CellMap := (fiveEngine.cellMaps[0]?).getD (CellMap.new camera 2)

/-- A stand-in for `cv::norm` on the rationals: the squared Euclidean norm, which orders
vectors as the norm does. -/
def normSq (v : Vec3d) : ℚ := v.ddot v

/-- One camera and two patches on the same viewing ray: patch 1 behind patch 2. -/
def depthSeeds : MVS :=
  { seedEngine with patches := [patchAt 1 ⟨2, 2, 2⟩, patchAt 2 ⟨1, 1, 1⟩] }

/-- The engine `depthSeeds` after `setCellMaps`. -/
def depthEngine : MVS := (depthSeeds.setCellMaps).getD depthSeeds

/-- A stand-in for `sin` with the angle counted in quarter turns, exact at whole quarter
turns. -/
def quarterSin (q : ℚ) : ℚ :=
  if Int.floor q % 4 = 0 then 0 else if Int.floor q % 4 = 1 then 1
  else if Int.floor q % 4 = 2 then 0 else -1

/-- A stand-in for `cos` with the angle counted in quarter turns, exact at whole quarter
turns. -/
def quarterCos (q : ℚ) : ℚ := quarterSin (q + 1)

/-- A stand-in for `Utility::spherical2Normal`, angles counted in quarter turns:
`(sin θ cos φ, sin θ sin φ, cos θ)`. -/
def sphericalToNormal (v : Vec2d) : Vec3d :=
  ⟨quarterSin v.x * quarterCos v.y, quarterSin v.x * quarterSin v.y, quarterCos v.x⟩

/-- The spherical normal of the patches of `quanEngine`, in quarter turns: `(0, 0)` for the
normal `(0, 0, 1)` and `(1, 1)` for the normal `(0, 1, 0)`. -/
def sphericalOf (p : Patch) : Vec2d :=
  if p.normal = ⟨0, 1, 0⟩ then ⟨1, 1⟩ else ⟨0, 0⟩

/-- Two patches: id 1 at `(0, 0, 1)` with normal `(0, 0, 1)` and id 2 at `(0, 2, 0)` with
normal `(0, 1, 0)`. -/
def quanEngine : MVS :=
  { seedEngine with
    cameras := []
    patches := [{ patchAt 1 ⟨0, 0, 1⟩ with normal := ⟨0, 0, 1⟩, views := [] },
      { patchAt 2 ⟨0, 2, 0⟩ with normal := ⟨0, 1, 0⟩, views := [] }] }

end Example

/-! ## The runtime filter -/

namespace MVS

theorem ite_reject_eq_true {c : Prop} [Decidable c] {x : Option Bool} :
    (if c then some false else x) = some true ↔ ¬ c ∧ x = some true := by
  by_cases hc : c <;> simp [hc]

theorem ite_reject_of_else {c : Prop} [Decidable c] {x : Option Bool} (h : x = some false) :
    (if c then some false else x) = some false := by
  by_cases hc : c <;> simp [hc, h]

theorem ite_reject_mono {c c' : Prop} [Decidable c] [Decidable c'] {x x' : Option Bool}
    (hc : c → c') (hx : x = some false → x' = some false)
    (h : (if c then some false else x) = some false) :
    (if c' then some false else x') = some false := by
  by_cases h' : c'
  · simp [h']
  · have : ¬ c := fun hh => h' (hc hh)
    simp only [this, if_false] at h
    simp [h', hx h]

theorem dbl_lt_trans {a b c : Dbl} (h1 : a.lt b = true) (h2 : b.lt c = true) :
    a.lt c = true := by
  cases a <;> cases b <;> cases c <;> simp_all [Dbl.lt]
  exact h1.trans h2

theorem dbl_not_isnan_of_lt {a b : Dbl} (h : a.lt b = true) : b.isnan = false := by
  cases a <;> cases b <;> simp_all [Dbl.lt, Dbl.isnan]

/-- When every remaining cell is full and without the id, the cell filter counts them all. -/
theorem cellFilter_saturated (s : MVS) (p : Patch) :
    ∀ (vs : List View) (k : Int), (∀ v ∈ vs, Saturated s p.id v) →
      cellFilter s p vs k = some (decide (¬ p.getCameraNumber ≤ k + vs.length))
  | [], k, _ => by simp [cellFilter]
  | v :: vs, k, h => by
    obtain ⟨cell, hc, hfull, hid⟩ := h v (List.mem_cons_self _ _)
    have ih := cellFilter_saturated s p vs (k + 1) fun w hw => h w (List.mem_cons_of_mem _ hw)
    simp only [cellFilter, hc, hid, if_false, hfull, if_true, ih, List.length_cons,
      Nat.cast_add, Nat.cast_one]
    congr 2
    apply propext
    constructor <;> intro h1 <;> omega

theorem cellFilter_false_bound (s : MVS) (p : Patch) :
    ∀ (vs : List View) (k : Int), cellFilter s p vs k = some false →
      p.getCameraNumber ≤ k + vs.length
  | [], k, h => by simpa [cellFilter] using h
  | v :: vs, k, h => by
    simp only [cellFilter] at h
    cases hc : s.cellAt v with
    | none => simp [hc] at h
    | some cell =>
      simp only [hc] at h
      by_cases hid : p.id ∈ cell
      · simp [hid] at h
      · simp only [hid, if_false] at h
        have := cellFilter_false_bound s p vs _ h
        simp only [List.length_cons, Nat.cast_add, Nat.cast_one]
        split at this <;> omega

/-- A rejection by the cell filter means that every visible cell is full and without the id. -/
theorem cellFilter_false_saturated (s : MVS) (p : Patch) :
    ∀ (vs : List View) (k : Int), cellFilter s p vs k = some false →
      k + vs.length ≤ p.getCameraNumber → ∀ v ∈ vs, Saturated s p.id v
  | [], _, _, _ => by simp
  | v :: vs, k, h, hk => by
    simp only [cellFilter] at h
    cases hc : s.cellAt v with
    | none => simp [hc] at h
    | some cell =>
      simp only [hc] at h
      by_cases hid : p.id ∈ cell
      · simp [hid] at h
      · simp only [hid, if_false] at h
        simp only [List.length_cons, Nat.cast_add, Nat.cast_one] at hk
        have hb := cellFilter_false_bound s p vs _ h
        by_cases hfull : s.maxCellPatchNum ≤ cell.length
        · simp only [hfull, if_true] at h hb
          have ih := cellFilter_false_saturated s p vs (k + 1) h (by omega)
          intro w hw
          rcases List.mem_cons.1 hw with rfl | hw
          · exact ⟨cell, hc, hfull, hid⟩
          · exact ih w hw
        · simp only [hfull, if_false] at hb
          omega

/-- An acceptance by the cell filter exhibits a visible cell holding the id or having room. -/
theorem cellFilter_true_room (s : MVS) (p : Patch) :
    ∀ (vs : List View) (k : Int), cellFilter s p vs k = some true →
      p.getCameraNumber ≤ k + vs.length →
      ∃ v ∈ vs, ∃ cell, s.cellAt v = some cell ∧
        (p.id ∈ cell ∨ cell.length < s.maxCellPatchNum)
  | [], k, h, hk => by
    simp only [cellFilter, Option.some.injEq, decide_eq_true_eq] at h
    simp at hk
    omega
  | v :: vs, k, h, hk => by
    simp only [cellFilter] at h
    cases hc : s.cellAt v with
    | none => simp [hc] at h
    | some cell =>
      simp only [hc] at h
      by_cases hid : p.id ∈ cell
      · exact ⟨v, List.mem_cons_self _ _, cell, hc, Or.inl hid⟩
      · simp only [hid, if_false] at h
        simp only [List.length_cons, Nat.cast_add, Nat.cast_one] at hk
        by_cases hfull : s.maxCellPatchNum ≤ cell.length
        · simp only [hfull, if_true] at h
          obtain ⟨w, hw, hrest⟩ := cellFilter_true_room s p vs (k + 1) h (by omega)
          exact ⟨w, List.mem_cons_of_mem _ hw, hrest⟩
        · exact ⟨v, List.mem_cons_self _ _, cell, hc, Or.inr (by omega)⟩

theorem cellFilter_congr (s : MVS) (p p' : Patch) (hid : p'.id = p.id)
    (hN : p'.getCameraNumber = p.getCameraNumber) :
    ∀ (vs : List View) (k : Int), cellFilter s p' vs k = cellFilter s p vs k
  | [], _ => by simp [cellFilter, hN]
  | v :: vs, k => by
    simp only [cellFilter, hid, fun k => cellFilter_congr s p p' hid hN vs k]

theorem frontFacingCount_total (s : MVS) (p : Patch) :
    ∀ (vs : List View) (a : Int), (∀ v ∈ vs, v.cam < s.cameras.length) →
      ∃ c, frontFacingCount s p vs a = some c
  | [], a, _ => ⟨a, rfl⟩
  | v :: vs, a, h => by
    have hv := h v (List.mem_cons_self _ _)
    have : s.getCamera v.cam = some (s.cameras[v.cam]) := by
      simp [getCamera, hv]
    simp only [frontFacingCount, this]
    exact frontFacingCount_total s p vs _ fun w hw => h w (List.mem_cons_of_mem _ hw)

theorem frontFacingCount_congr (s : MVS) (p p' : Patch) (hn : p'.normal = p.normal) :
    ∀ (vs : List View) (a : Int), frontFacingCount s p' vs a = frontFacingCount s p vs a
  | [], _ => rfl
  | v :: vs, a => by
    simp only [frontFacingCount, hn]
    cases s.getCamera v.cam with
    | none => rfl
    | some cam => exact frontFacingCount_congr s p p' hn vs _

/-- Removing views cannot raise the count of front-facing cameras. -/
theorem frontFacingCount_sublist (s : MVS) (p p' : Patch) (hn : p'.normal = p.normal)
    {vs' vs : List View} (hsub : vs'.Sublist vs) :
    ∀ (a' a c : Int), a' ≤ a → frontFacingCount s p vs a = some c →
      ∃ c', frontFacingCount s p' vs' a' = some c' ∧ c' ≤ c := by
  induction hsub with
  | slnil =>
    intro a' a c ha h
    simp only [frontFacingCount, Option.some.injEq] at h
    exact ⟨a', rfl, by omega⟩
  | cons v _ ih =>
    intro a' a c ha h
    simp only [frontFacingCount] at h
    cases hcam : s.getCamera v.cam with
    | none => simp [hcam] at h
    | some cam =>
      simp only [hcam] at h
      refine ih a' _ c ?_ h
      split <;> omega
  | cons₂ v _ ih =>
    intro a' a c ha h
    simp only [frontFacingCount] at h ⊢
    cases hcam : s.getCamera v.cam with
    | none => simp [hcam] at h
    | some cam =>
      simp only [hcam] at h ⊢
      refine ih _ _ c ?_ h
      rw [hn]
      split <;> omega

/-- What an accepted patch has passed. -/
theorem runtimeFiltering_true_checks (s : MVS) (p : Patch)
    (h : s.runtimeFiltering p = some true) :
    p.dropped = false ∧ ¬ p.getCameraNumber < s.minCamNum ∧
    p.fitness.gt (Dbl.num s.maxFitness) = false ∧ p.fitness.eq (Dbl.num 0) = false ∧
    p.priority.gt (Dbl.num 10000) = false ∧ p.fitness.isnan = false ∧
    p.priority.isnan = false ∧ p.correlation.isnan = false ∧
    p.correlation.lt (Dbl.num s.minCorrelation) = false ∧
    inForeground s.cameras p.center = true ∧
    ∃ count, frontFacingCount s p p.views 0 = some count ∧ ¬ count < s.minCamNum ∧
      (s.cellMaps.isEmpty = true ∨ cellFilter s p p.views 0 = some true) := by
  unfold runtimeFiltering at h
  simp only [ite_reject_eq_true] at h
  obtain ⟨h1, h2, h3, h4, h5, h6, h7, h8, h9, h10, h⟩ := h
  simp only [Bool.not_eq_true, Bool.not_eq_eq_eq_not, Bool.not_true, Bool.not_eq_false] at *
  refine ⟨h1, h2, h3, h4, h5, h6, h7, h8, h9, h10, ?_⟩
  cases hf : frontFacingCount s p p.views 0 with
  | none => rw [hf] at h; cases h
  | some count =>
    rw [hf] at h
    simp only [ite_reject_eq_true] at h
    refine ⟨count, rfl, h.1, ?_⟩
    by_cases he : s.cellMaps.isEmpty = true
    · exact Or.inl he
    · right; simpa [he] using h.2

theorem runtimeFiltering_of_saturated (s : MVS) (p : Patch) (he : s.cellMaps.isEmpty = false)
    (hcam : ∀ v ∈ p.views, v.cam < s.cameras.length)
    (hfull : ∀ v ∈ p.views, Saturated s p.id v) :
    s.runtimeFiltering p = some false := by
  obtain ⟨count, hcount⟩ := frontFacingCount_total s p p.views 0 hcam
  have hcell := cellFilter_saturated s p p.views 0 hfull
  have hN : p.getCameraNumber ≤ 0 + (p.views.length : Int) := by simp [Patch.getCameraNumber]
  simp only [hN, not_true_eq_false, decide_False] at hcell
  unfold runtimeFiltering
  simp only [hcount, he, hcell]
  iterate 11 apply ite_reject_of_else
  simp

theorem runtimeFiltering_lower_correlation (s : MVS) (p : Patch) (c : Dbl)
    (hc : c.lt p.correlation = true) (h : s.runtimeFiltering p = some false) :
    s.runtimeFiltering { p with correlation := c } = some false := by
  unfold runtimeFiltering at h ⊢
  refine ite_reject_mono id (fun h => ?_) h
  refine ite_reject_mono id (fun h => ?_) h
  refine ite_reject_mono id (fun h => ?_) h
  refine ite_reject_mono id (fun h => ?_) h
  refine ite_reject_mono id (fun h => ?_) h
  refine ite_reject_mono id (fun h => ?_) h
  refine ite_reject_mono id (fun h => ?_) h
  refine ite_reject_mono (fun hn => ?_) (fun h => ?_) h
  · rw [dbl_not_isnan_of_lt hc] at hn; cases hn
  refine ite_reject_mono (fun hl => dbl_lt_trans hc hl) (fun h => ?_) h
  refine ite_reject_mono id (fun h => ?_) h
  rw [frontFacingCount_congr s p { p with correlation := c } rfl,
    cellFilter_congr s p { p with correlation := c } rfl rfl]
  exact h

theorem runtimeFiltering_fewer_views (s : MVS) (p : Patch) (vs : List View)
    (hsub : vs.Sublist p.views) (h : s.runtimeFiltering p = some false) :
    s.runtimeFiltering { p with views := vs } = some false := by
  have hlen : (vs.length : Int) ≤ p.views.length := by exact_mod_cast hsub.length_le
  unfold runtimeFiltering at h ⊢
  refine ite_reject_mono id (fun h => ?_) h
  refine ite_reject_mono (fun hl => ?_) (fun h => ?_) h
  · simp only [Patch.getCameraNumber] at hl ⊢; omega
  refine ite_reject_mono id (fun h => ?_) h
  refine ite_reject_mono id (fun h => ?_) h
  refine ite_reject_mono id (fun h => ?_) h
  refine ite_reject_mono id (fun h => ?_) h
  refine ite_reject_mono id (fun h => ?_) h
  refine ite_reject_mono id (fun h => ?_) h
  refine ite_reject_mono id (fun h => ?_) h
  refine ite_reject_mono id (fun h => ?_) h
  cases hf : frontFacingCount s p p.views 0 with
  | none => rw [hf] at h; cases h
  | some count =>
    rw [hf] at h
    obtain ⟨count', hf', hle⟩ :=
      frontFacingCount_sublist s p { p with views := vs } rfl hsub 0 0 count le_rfl hf
    simp only [hf']
    simp only at h
    refine ite_reject_mono (fun hl => by omega) (fun h => ?_) h
    by_cases he : s.cellMaps.isEmpty = true
    · simp [he] at h
    · simp only [he, if_false, Bool.false_eq_true] at h ⊢
      have hsat := cellFilter_false_saturated s p p.views 0 h (by simp [Patch.getCameraNumber])
      have := cellFilter_saturated s { p with views := vs } vs 0
        (fun v hv => hsat v (hsub.subset hv))
      rw [this]
      simp [Patch.getCameraNumber]

/-- C4 (as amended): a patch accepted by `runtimeFiltering` has a fitness that is a number,
is different from zero and is at most `maxFitness`; the sign of the fitness is not tested. -/
theorem runtimeFiltering_fitness_bound (s : MVS) (p : Patch)
    (h : s.runtimeFiltering p = some true) :
    ∃ q, p.fitness = Dbl.num q ∧ q ≠ 0 ∧ q ≤ s.maxFitness := by
  obtain ⟨-, -, h3, h4, -, h6, -⟩ := runtimeFiltering_true_checks s p h
  cases hf : p.fitness with
  | nan => rw [hf] at h6; cases h6
  | num q =>
    rw [hf] at h3 h4
    simp only [Dbl.gt, Dbl.lt, Dbl.eq, decide_eq_false_iff_not, not_lt] at h3 h4
    exact ⟨q, rfl, h4, h3⟩

/-- C4, instance: the seed of `Example.seedEngine` is accepted and its fitness `1/2` is
non-zero and at most `maxFitness = 1`. -/
theorem runtimeFiltering_fitness_bound_witness :
    Example.seedEngine.runtimeFiltering (Example.patchAt 0 ⟨1, 1, 1⟩) = some true ∧
    ∃ q, (Example.patchAt 0 ⟨1, 1, 1⟩).fitness = Dbl.num q ∧ q ≠ 0 ∧
      q ≤ Example.seedEngine.maxFitness :=
  ⟨by decide!, runtimeFiltering_fitness_bound _ _ (by decide!)⟩

/-- C4, counterexample to the claim as stated: a patch with fitness `-1` is accepted by
`runtimeFiltering`, although its fitness is not positive. -/
theorem runtimeFiltering_accepts_negative_fitness :
    Example.seedEngine.runtimeFiltering Example.negativePatch = some true ∧
    ¬ ∃ q, Example.negativePatch.fitness = Dbl.num q ∧ 0 < q ∧
      q ≤ Example.seedEngine.maxFitness := by
  refine ⟨by decide!, ?_⟩
  rintro ⟨q, hq, hpos, -⟩
  have h1 : Example.negativePatch.fitness = Dbl.num (-1) := rfl
  rw [h1] at hq
  injection hq with hq
  rw [← hq] at hpos
  exact absurd hpos (by norm_num)

/-- C5 (as amended): when cell maps exist, a patch accepted by `runtimeFiltering` has at least
one visible view whose cell already holds the patch id or holds fewer than
`maxCellPatchNum` ids. -/
theorem runtimeFiltering_some_cell_has_room (s : MVS) (p : Patch)
    (hne : s.cellMaps.isEmpty = false)
    (h : s.runtimeFiltering p = some true) :
    ∃ v ∈ p.views, ∃ cell, s.cellAt v = some cell ∧
      (p.id ∈ cell ∨ cell.length < s.maxCellPatchNum) := by
  obtain ⟨-, -, -, -, -, -, -, -, -, -, count, -, -, hcell⟩ := runtimeFiltering_true_checks s p h
  rcases hcell with he | hcell
  · rw [he] at hne; cases hne
  · exact cellFilter_true_room s p p.views 0 hcell (by simp [Patch.getCameraNumber])

/-- C5, instance: `Example.twoViewPatch` is accepted in `Example.fullEngine` and one of its
cells has room. -/
theorem runtimeFiltering_some_cell_has_room_witness :
    Example.fullEngine.cellMaps.isEmpty = false ∧
    Example.fullEngine.runtimeFiltering Example.twoViewPatch = some true ∧
    ∃ v ∈ Example.twoViewPatch.views, ∃ cell, Example.fullEngine.cellAt v = some cell ∧
      (Example.twoViewPatch.id ∈ cell ∨ cell.length < Example.fullEngine.maxCellPatchNum) :=
  ⟨by decide!, by decide!,
    runtimeFiltering_some_cell_has_room _ _ (by decide!) (by decide!)⟩

/-- C5, counterexample to the claim as stated: `Example.twoViewPatch` is accepted although the
cell of its first view is full (3 ids, `maxCellPatchNum = 3`) and does not hold its id. -/
theorem runtimeFiltering_accepts_beside_full_cell :
    Example.fullEngine.cellMaps.isEmpty = false ∧
    Example.fullEngine.runtimeFiltering Example.twoViewPatch = some true ∧
    ∃ v ∈ Example.twoViewPatch.views, ∃ cell, Example.fullEngine.cellAt v = some cell ∧
      Example.twoViewPatch.id ∉ cell ∧ ¬ cell.length < Example.fullEngine.maxCellPatchNum :=
  ⟨by decide!, by decide!, ⟨0, ⟨1, 1⟩⟩, by decide!, [1, 2, 3], by decide!, by decide!,
    by decide!⟩

/-- C6: when cell maps exist and every visible cell of the patch holds at least
`maxCellPatchNum` ids and not the patch id, `runtimeFiltering` returns false and
`insertPatch` leaves the engine unchanged. -/
theorem insertPatch_saturated_rejects (s : MVS) (p : Patch)
    (hne : s.cellMaps.isEmpty = false)
    (hcam : ∀ v ∈ p.views, v.cam < s.cameras.length)
    (hfull : ∀ v ∈ p.views, Saturated s p.id v) :
    s.runtimeFiltering p = some false ∧ s.insertPatch p = some s := by
  have h := runtimeFiltering_of_saturated s p hne hcam hfull
  exact ⟨h, by simp [insertPatch, h]⟩

/-- C6, instance: `maxCellPatchNum = 3`, the only visible cell of `Example.fourthPatch` holds the
three other ids `1, 2, 3`; the patch is rejected and nothing is inserted. -/
theorem insertPatch_saturated_rejects_witness :
    Example.fullEngine.maxCellPatchNum = 3 ∧
    Example.fourthPatch.views.map Example.fullEngine.cellAt = [some [1, 2, 3]] ∧
    Example.fullEngine.runtimeFiltering Example.fourthPatch = some false ∧
    Example.fullEngine.insertPatch Example.fourthPatch = some Example.fullEngine :=
  ⟨by decide!, by decide!,
    insertPatch_saturated_rejects Example.fullEngine Example.fourthPatch (by decide!)
      (by decide!)
      (by
        intro v hv
        have hviews : Example.fourthPatch.views = [⟨0, ⟨1, 1⟩⟩] := by decide!
        rw [hviews, List.mem_singleton] at hv
        subst hv
        exact ⟨[1, 2, 3], by decide!, by decide!, by decide!⟩)⟩

/-- C7: `runtimeFiltering` is monotone in the correlation and in the visible cameras: if a
patch is rejected, so is the patch with a smaller correlation, and so is the patch with
some of its views removed. -/
theorem runtimeFiltering_monotone (s : MVS) (p p' : Patch)
    (hrel : (∃ c : Dbl, c.lt p.correlation = true ∧ p' = { p with correlation := c }) ∨
      (∃ vs : List View, vs.Sublist p.views ∧ p' = { p with views := vs }))
    (h : s.runtimeFiltering p = some false) : s.runtimeFiltering p' = some false := by
  rcases hrel with ⟨c, hc, rfl⟩ | ⟨vs, hsub, rfl⟩
  · exact runtimeFiltering_lower_correlation s p c hc h
  · exact runtimeFiltering_fewer_views s p vs hsub h

/-- C7, instance: `Example.fourthPatch` is rejected in `Example.fullEngine`, and stays rejected
with all its views removed. -/
theorem runtimeFiltering_monotone_witness :
    Example.fullEngine.runtimeFiltering Example.fourthPatch = some false ∧
    Example.fullEngine.runtimeFiltering { Example.fourthPatch with views := [] } = some false :=
  ⟨by decide!,
    runtimeFiltering_monotone Example.fullEngine Example.fourthPatch
      { Example.fourthPatch with views := [] }
      (Or.inr ⟨[], List.nil_sublist _, rfl⟩) (by decide!)⟩

end MVS

/-! ## The patch map and the cell maps -/

namespace PatchMap

theorem find_eq_none_iff (ps : PatchMap) (i : Int) : find ps i = none ↔ i ∉ keys ps := by
  induction ps with
  | nil => simp [find, keys]
  | cons q qs ih =>
    simp only [find, keys, List.map_cons, List.mem_cons, not_or] at ih ⊢
    by_cases h : q.id = i
    · simp [h]
    · simp only [h, if_false, ih]
      constructor
      · intro h'; exact ⟨fun e => h e.symm, h'⟩
      · intro h'; exact h'.2

theorem find_some_id {ps : PatchMap} {i : Int} {p : Patch} (h : find ps i = some p) :
    p.id = i ∧ p ∈ ps := by
  induction ps with
  | nil => simp [find] at h
  | cons q qs ih =>
    simp only [find] at h
    by_cases hq : q.id = i
    · simp only [hq, if_true, Option.some.injEq] at h
      subst h
      exact ⟨hq, List.mem_cons_self _ _⟩
    · simp only [hq, if_false] at h
      exact ⟨(ih h).1, List.mem_cons_of_mem _ (ih h).2⟩

theorem find_of_mem {ps : PatchMap} (hnd : (keys ps).Nodup) {p : Patch} (hp : p ∈ ps) :
    find ps p.id = some p := by
  induction ps with
  | nil => simp at hp
  | cons q qs ih =>
    simp only [keys, List.map_cons, List.nodup_cons] at hnd
    rcases List.mem_cons.1 hp with rfl | hp
    · simp [find]
    · have : q.id ≠ p.id := by
        intro e
        exact hnd.1 (e ▸ List.mem_map_of_mem Patch.id hp)
      simp only [find, this, if_false]
      exact ih hnd.2 hp

theorem find_insert_fresh (ps : PatchMap) (p : Patch) (h : p.id ∉ keys ps) (i : Int) :
    find (insert ps p) i = if i = p.id then some p else find ps i := by
  induction ps with
  | nil =>
    by_cases hi : i = p.id
    · simp [insert, find, hi]
    · have : ¬ p.id = i := fun e => hi e.symm
      simp [insert, find, hi, this]
  | cons q qs ih =>
    simp only [keys, List.map_cons, List.mem_cons, not_or] at h ih
    have h2 : ¬ p.id = q.id := h.1
    simp only [insert]
    by_cases h1 : p.id < q.id
    · simp only [h1, if_true, find]
      by_cases hi : i = p.id
      · simp [hi]
      · have : ¬ p.id = i := fun e => hi e.symm
        simp [hi, this]
    · simp only [h1, h2, if_false, find, ih h.2]
      by_cases hi : i = p.id
      · have : ¬ q.id = i := fun e => h2 (by omega)
        simp [hi, this]
        intro e; exact absurd e.symm h2
      · simp [hi]

theorem mem_keys_insert (ps : PatchMap) (p : Patch) : p.id ∈ keys (insert ps p) := by
  induction ps with
  | nil => simp [insert, keys]
  | cons q qs ih =>
    simp only [insert]
    by_cases h1 : p.id < q.id
    · simp [h1, keys]
    · by_cases h2 : p.id = q.id
      · simp [h1, h2, keys]
      · simp only [h1, h2, if_false, keys, List.map_cons, List.mem_cons]
        exact Or.inr ih

theorem keys_insert_perm (ps : PatchMap) (p : Patch) (h : p.id ∉ keys ps) :
    (keys (insert ps p)).Perm (p.id :: keys ps) := by
  induction ps with
  | nil => simp [insert, keys]
  | cons q qs ih =>
    simp only [keys, List.map_cons, List.mem_cons, not_or] at h ih ⊢
    simp only [insert]
    by_cases h1 : p.id < q.id
    · simp [h1]
    · have h2 : ¬ p.id = q.id := h.1
      simp only [h1, h2, if_false, List.map_cons]
      exact ((ih h.2).cons q.id).trans (List.Perm.swap _ _ _)

theorem erase_sublist (ps : PatchMap) (i : Int) : (erase ps i).Sublist ps := by
  induction ps with
  | nil => simp [erase]
  | cons q qs ih =>
    simp only [erase]
    by_cases h : q.id = i
    · simp [h]
    · simp only [h, if_false]
      exact ih.cons₂ q

theorem find_erase (ps : PatchMap) (hnd : (keys ps).Nodup) (i j : Int) :
    find (erase ps i) j = if j = i then none else find ps j := by
  induction ps with
  | nil => simp [erase, find]
  | cons q qs ih =>
    simp only [keys, List.map_cons, List.nodup_cons] at hnd
    simp only [erase]
    by_cases h : q.id = i
    · simp only [h, if_true, find]
      by_cases hj : j = i
      · subst hj
        simp only [if_true]
        rw [find_eq_none_iff]
        exact h ▸ hnd.1
      · have : ¬ i = j := fun e => hj e.symm
        simp [hj, this]
    · simp only [h, if_false, find, ih hnd.2]
      by_cases hj : j = i
      · subst hj; simp [h]
      · simp [hj]

end PatchMap

namespace MVS

theorem occ_cons (cs : Int) (v : View) (vs : List View) (c : Nat) (x y : Int) :
    occ cs (v :: vs) c x y =
      occ cs vs c x y + if v.cam = c ∧ cellOf cs v = (x, y) then 1 else 0 := by
  simp only [occ, List.countP_cons, decide_eq_true_eq]

theorem occ_pos_of_mem {cs : Int} {vs : List View} {v : View} (hv : v ∈ vs) :
    0 < occ cs vs v.cam (cellOf cs v).1 (cellOf cs v).2 := by
  simp only [occ, List.countP_pos_iff, decide_eq_true_eq]
  exact ⟨v, hv, rfl, rfl⟩

theorem cellAtOf_isSome_iff (cs : Int) (cms : List CellMap) (v : View) :
    (cellAtOf cs cms v).isSome = true ↔
      ∃ m, cms[v.cam]? = some m ∧ m.inMap (cellOf cs v).1 (cellOf cs v).2 = true := by
  simp only [cellAtOf]
  cases hm : cms[v.cam]? with
  | none => simp
  | some m =>
    simp only [CellMap.getCell, Option.some.injEq, exists_eq_left']
    by_cases hin : m.inMap (cellOf cs v).1 (cellOf cs v).2 = true <;> simp [hin]

theorem SameShape.refl (cms : List CellMap) : SameShape cms cms :=
  ⟨rfl, fun c m m' h h' => by rw [h] at h'; cases h'; exact ⟨rfl, rfl⟩⟩

theorem SameShape.get {cms cms' : List CellMap} (h : SameShape cms cms') {c : Nat} {m : CellMap}
    (hm : cms[c]? = some m) : ∃ m', cms'[c]? = some m' ∧ m'.width = m.width ∧ m'.height = m.height := by
  have hc : c < cms'.length := by
    rw [h.1]; exact (List.getElem?_eq_some_iff.1 hm).1
  exact ⟨cms'[c], List.getElem?_eq_getElem hc, h.2 c m _ hm (List.getElem?_eq_getElem hc)⟩

theorem SameShape.symm {cms cms' : List CellMap} (h : SameShape cms cms') : SameShape cms' cms :=
  ⟨h.1.symm, fun c m m' hm hm' => by
    obtain ⟨h1, h2⟩ := h.2 c m' m hm' hm
    exact ⟨h1.symm, h2.symm⟩⟩

theorem SameShape.trans {a b c : List CellMap} (h1 : SameShape a b) (h2 : SameShape b c) :
    SameShape a c :=
  ⟨h2.1.trans h1.1, fun i m m' hm hm' => by
    obtain ⟨mb, hmb, hw, hh⟩ := h1.get hm
    obtain ⟨hw', hh'⟩ := h2.2 i mb m' hmb hm'
    exact ⟨hw'.trans hw, hh'.trans hh⟩⟩

theorem SameShape.inRange {cms cms' : List CellMap} (h : SameShape cms cms') (cs : Int) (v : View)
    (hv : (cellAtOf cs cms v).isSome = true) : (cellAtOf cs cms' v).isSome = true := by
  rw [cellAtOf_isSome_iff] at hv ⊢
  obtain ⟨m, hm, hin⟩ := hv
  obtain ⟨m', hm', hw, hh⟩ := h.get hm
  refine ⟨m', hm', ?_⟩
  simpa [CellMap.inMap, hw, hh] using hin

theorem sameShape_set {cms : List CellMap} {c : Nat} {m m1 : CellMap} (hm : cms[c]? = some m)
    (hw : m1.width = m.width) (hh : m1.height = m.height) : SameShape cms (cms.set c m1) := by
  refine ⟨List.length_set _ _ _, fun j a a' ha ha' => ?_⟩
  rw [List.getElem?_set] at ha'
  by_cases hj : c = j
  · subst hj
    rw [hm] at ha
    cases ha
    have hlt : c < cms.length := (List.getElem?_eq_some_iff.1 hm).1
    simp only [if_true, hlt, Option.some.injEq] at ha'
    subst ha'
    exact ⟨hw, hh⟩
  · simp only [hj, if_false] at ha'
    rw [ha] at ha'
    cases ha'
    exact ⟨rfl, rfl⟩

theorem CellMap.insert_eq_some {m m1 : CellMap} {x y id : Int} (h : m.insert x y id = some m1) :
    m.inMap x y = true ∧ m1.width = m.width ∧ m1.height = m.height ∧
    ∀ a b, m1.cells a b = if a = x ∧ b = y then m.cells a b ++ [id] else m.cells a b := by
  unfold CellMap.insert at h
  by_cases hin : m.inMap x y = true
  · simp only [hin, if_true, Option.some.injEq] at h
    subst h
    exact ⟨hin, rfl, rfl, fun a b => rfl⟩
  · simp [hin] at h

theorem CellMap.insert_isSome {m : CellMap} {x y : Int} (id : Int) (h : m.inMap x y = true) :
    ∃ m1, m.insert x y id = some m1 := by
  simp [CellMap.insert, h]

theorem CellMap.drop_eq_some {m m1 : CellMap} {x y id : Int} (h : m.drop x y id = some m1) :
    m.inMap x y = true ∧ m1.width = m.width ∧ m1.height = m.height ∧
    ∀ a b, m1.cells a b = if a = x ∧ b = y then (m.cells a b).erase id else m.cells a b := by
  unfold CellMap.drop at h
  by_cases hin : m.inMap x y = true
  · simp only [hin, if_true, Option.some.injEq] at h
    subst h
    exact ⟨hin, rfl, rfl, fun a b => rfl⟩
  · simp [hin] at h

theorem CellMap.drop_isSome {m : CellMap} {x y : Int} (id : Int) (h : m.inMap x y = true) :
    ∃ m1, m.drop x y id = some m1 := by
  simp [CellMap.drop, h]

theorem insertCells_total (cs : Int) (id : Int) :
    ∀ (vs : List View) (cms : List CellMap), (∀ v ∈ vs, (cellAtOf cs cms v).isSome = true) →
      ∃ cms', insertCells cs id vs cms = some cms'
  | [], cms, _ => ⟨cms, rfl⟩
  | v :: vs, cms, h => by
    obtain ⟨m, hm, hin⟩ := (cellAtOf_isSome_iff cs cms v).1 (h v (List.mem_cons_self _ _))
    obtain ⟨m1, hm1⟩ := CellMap.insert_isSome id hin
    obtain ⟨-, hw, hh, -⟩ := CellMap.insert_eq_some hm1
    simp only [insertCells, hm, hm1]
    refine insertCells_total cs id vs _ fun w hw' => ?_
    exact (sameShape_set hm hw hh).inRange cs w (h w (List.mem_cons_of_mem _ hw'))

theorem insertCells_spec (cs : Int) (id : Int) :
    ∀ (vs : List View) (cms cms' : List CellMap), insertCells cs id vs cms = some cms' →
      SameShape cms cms' ∧ (∀ v ∈ vs, (cellAtOf cs cms v).isSome = true) ∧
      ∀ (c : Nat) (m m' : CellMap), cms[c]? = some m → cms'[c]? = some m' →
        ∀ x y, m'.cells x y = m.cells x y ++ List.replicate (occ cs vs c x y) id
  | [], cms, cms', h => by
    simp only [insertCells, Option.some.injEq] at h
    subst h
    refine ⟨SameShape.refl _, by simp, fun c m m' hm hm' x y => ?_⟩
    rw [hm] at hm'; cases hm'
    simp [occ]
  | v :: vs, cms, cms', h => by
    simp only [insertCells] at h
    cases hm : cms[v.cam]? with
    | none => simp [hm] at h
    | some m0 =>
      simp only [hm] at h
      cases hm1 : m0.insert (cellOf cs v).1 (cellOf cs v).2 id with
      | none => simp [hm1] at h
      | some m1 =>
        simp only [hm1] at h
        obtain ⟨hin, hw, hh, hc1⟩ := CellMap.insert_eq_some hm1
        obtain ⟨hshape, hrange, hcells⟩ := insertCells_spec cs id vs _ cms' h
        have hset := sameShape_set hm hw hh
        refine ⟨hset.trans hshape, ?_, ?_⟩
        · intro w hw'
          rcases List.mem_cons.1 hw' with rfl | hw'
          · exact (cellAtOf_isSome_iff cs cms w).2 ⟨m0, hm, hin⟩
          · exact hset.symm.inRange cs w (hrange w hw')
        · intro c m m' hc hc' x y
          have hlt : v.cam < cms.length := (List.getElem?_eq_some_iff.1 hm).1
          by_cases hj : v.cam = c
          · subst hj
            rw [hm] at hc; cases hc
            have := hcells v.cam m1 m' (by rw [List.getElem?_set]; simp [hlt]) hc' x y
            rw [this, occ_cons, hc1]
            by_cases hxy : cellOf cs v = (x, y)
            · have hx : x = (cellOf cs v).1 := by rw [hxy]
              have hy : y = (cellOf cs v).2 := by rw [hxy]
              simp only [hx, hy, and_self, if_true, List.append_assoc, true_and]
              rw [List.replicate_succ]
              rfl

            · have : ¬ (x = (cellOf cs v).1 ∧ y = (cellOf cs v).2) := by
                rintro ⟨rfl, rfl⟩; exact hxy rfl
              simp [hxy, this]
          · have := hcells c m m' (by rw [List.getElem?_set]; simp [hj, hc]) hc' x y
            rw [this, occ_cons]
            simp [hj]

theorem dropCells_total (cs : Int) (id : Int) :
    ∀ (vs : List View) (cms : List CellMap), (∀ v ∈ vs, (cellAtOf cs cms v).isSome = true) →
      ∃ cms', dropCells cs id vs cms = some cms'
  | [], cms, _ => ⟨cms, rfl⟩
  | v :: vs, cms, h => by
    obtain ⟨m, hm, hin⟩ := (cellAtOf_isSome_iff cs cms v).1 (h v (List.mem_cons_self _ _))
    obtain ⟨m1, hm1⟩ := CellMap.drop_isSome id hin
    obtain ⟨-, hw, hh, -⟩ := CellMap.drop_eq_some hm1
    simp only [dropCells, hm, hm1]
    refine dropCells_total cs id vs _ fun w hw' => ?_
    exact (sameShape_set hm hw hh).inRange cs w (h w (List.mem_cons_of_mem _ hw'))

theorem dropCells_spec (cs : Int) (id : Int) :
    ∀ (vs : List View) (cms cms' : List CellMap), dropCells cs id vs cms = some cms' →
      SameShape cms cms' ∧
      ∀ (c : Nat) (m m' : CellMap), cms[c]? = some m → cms'[c]? = some m' →
        ∀ x y i, (m'.cells x y).count i =
          (m.cells x y).count i - if i = id then occ cs vs c x y else 0
  | [], cms, cms', h => by
    simp only [dropCells, Option.some.injEq] at h
    subst h
    refine ⟨SameShape.refl _, fun c m m' hm hm' x y i => ?_⟩
    rw [hm] at hm'; cases hm'
    simp [occ]
  | v :: vs, cms, cms', h => by
    simp only [dropCells] at h
    cases hm : cms[v.cam]? with
    | none => simp [hm] at h
    | some m0 =>
      simp only [hm] at h
      cases hm1 : m0.drop (cellOf cs v).1 (cellOf cs v).2 id with
      | none => simp [hm1] at h
      | some m1 =>
        simp only [hm1] at h
        obtain ⟨hin, hw, hh, hc1⟩ := CellMap.drop_eq_some hm1
        obtain ⟨hshape, hcells⟩ := dropCells_spec cs id vs _ cms' h
        have hset := sameShape_set hm hw hh
        refine ⟨hset.trans hshape, ?_⟩
        intro c m m' hc hc' x y i
        have hlt : v.cam < cms.length := (List.getElem?_eq_some_iff.1 hm).1
        by_cases hj : v.cam = c
        · subst hj
          rw [hm] at hc; cases hc
          have := hcells v.cam m1 m' (by rw [List.getElem?_set]; simp [hlt]) hc' x y i
          rw [this, occ_cons, hc1]
          by_cases hxy : cellOf cs v = (x, y)
          · have hx : x = (cellOf cs v).1 := by rw [hxy]
            have hy : y = (cellOf cs v).2 := by rw [hxy]
            simp only [hx, hy, and_self, if_true, true_and, List.count_erase]
            by_cases hi : i = id
            · subst hi; simp; omega
            · have : ¬ id = i := fun e => hi e.symm
              simp [hi, this]
          · have : ¬ (x = (cellOf cs v).1 ∧ y = (cellOf cs v).2) := by
              rintro ⟨rfl, rfl⟩; exact hxy rfl
            simp [hxy, this]
        · have := hcells c m m' (by rw [List.getElem?_set]; simp [hj, hc]) hc' x y i
          rw [this, occ_cons]
          simp [hj]

end MVS

namespace MVS

theorem cellAt_of_shape {cs : Int} {cms cms' : List CellMap} (h : SameShape cms cms') {v : View}
    (hv : (cellAtOf cs cms v).isSome = true) :
    ∃ m m', cms[v.cam]? = some m ∧ cms'[v.cam]? = some m' ∧
      cellAtOf cs cms' v = some (m'.cells (cellOf cs v).1 (cellOf cs v).2) := by
  obtain ⟨m, hm, hin⟩ := (cellAtOf_isSome_iff cs cms v).1 hv
  obtain ⟨m', hm', hw, hh⟩ := h.get hm
  refine ⟨m, m', hm, hm', ?_⟩
  have hin' : m'.inMap (cellOf cs v).1 (cellOf cs v).2 = true := by
    simpa [CellMap.inMap, hw, hh] using hin
  simp [cellAtOf, hm', CellMap.getCell, hin']

/-- C3: `insertPatch` is all-or-nothing on `runtimeFiltering`: when the filter returns false
the engine (patch map, queue, cell maps) is unchanged; when it returns true the patch map
contains `p.id`, `p.id` is the last element of the queue, and the cell at the projection
of every view of `p` contains `p.id`.  The views of `p` are assumed to have a cell. -/
theorem insertPatch_all_or_nothing (s : MVS) (p : Patch)
    (hrange : ∀ v ∈ p.views, (s.cellAt v).isSome = true) :
    (s.runtimeFiltering p = some false → s.insertPatch p = some s) ∧
    (s.runtimeFiltering p = some true →
      ∃ s', s.insertPatch p = some s' ∧ p.id ∈ PatchMap.keys s'.patches ∧
        s'.queue.getLast? = some p.id ∧
        ∀ v ∈ p.views, ∃ cell, s'.cellAt v = some cell ∧ p.id ∈ cell) := by
  constructor
  · intro h
    simp [insertPatch, h]
  · intro h
    obtain ⟨cms, hcms⟩ := insertCells_total s.cellSize p.id p.views s.cellMaps hrange
    obtain ⟨hshape, -, hcells⟩ := insertCells_spec s.cellSize p.id p.views s.cellMaps cms hcms
    have hins : s.insertPatch p = some { s with
        patches := PatchMap.insert s.patches p
        queue := s.queue ++ [p.id]
        cellMaps := cms } := by
      simp only [insertPatch, h, hcms]
    refine ⟨_, hins, PatchMap.mem_keys_insert _ _, by simp, ?_⟩
    intro v hv
    obtain ⟨m, m', hm, hm', hcell⟩ := cellAt_of_shape hshape (hrange v hv)
    refine ⟨_, hcell, ?_⟩
    rw [hcells v.cam m m' hm hm']
    refine List.mem_append_right _ ?_
    rw [List.mem_replicate]
    exact ⟨(occ_pos_of_mem hv).ne', rfl⟩

/-- C2 (as amended): in an engine state whose patch map has distinct keys, in which every
view of the patch stored under `p.id` has a cell in the cell map of its camera, and whose
cells each hold `p.id` at most as many times as the stored patch has views that project
there (not at all when `p.id` has no entry), `deletePatch(p)` returns, and afterwards the
patch map has no entry for `p.id` and no cell of any cell map contains `p.id`. -/
theorem deletePatch_removes (s : MVS) (p : Patch)
    (hkeys : (PatchMap.keys s.patches).Nodup)
    (hrange : ∀ q, PatchMap.find s.patches p.id = some q →
      ∀ v ∈ q.views, (s.cellAt v).isSome = true)
    (hcount : ∀ (c : Nat) (m : CellMap), s.cellMaps[c]? = some m →
      ∀ x y, m.inMap x y = true → (m.cells x y).count p.id ≤ s.expectedCount p.id c x y) :
    ∃ s', s.deletePatch p.id = some s' ∧ PatchMap.find s'.patches p.id = none ∧
      ∀ m ∈ s'.cellMaps, ∀ x y cell, m.getCell x y = some cell → p.id ∉ cell := by
  have hget : ∀ {m : CellMap} {x y : Int} {cell : List Int}, m.getCell x y = some cell →
      m.inMap x y = true ∧ cell = m.cells x y := by
    intro m x y cell h
    unfold CellMap.getCell at h
    by_cases hin : m.inMap x y = true
    · simp only [hin, if_true, Option.some.injEq] at h
      exact ⟨hin, h.symm⟩
    · simp [hin] at h
  cases hf : PatchMap.find s.patches p.id with
  | none =>
    refine ⟨s, by simp [deletePatch, hf], hf, ?_⟩
    intro m hm x y cell hcell
    obtain ⟨c, hc⟩ := List.mem_iff_getElem?.1 hm
    obtain ⟨hin, rfl⟩ := hget hcell
    have := hcount c m hc x y hin
    simp only [expectedCount, hf, Nat.le_zero] at this
    exact List.count_eq_zero.1 this
  | some q =>
    have hq := PatchMap.find_some_id hf
    have hnone : PatchMap.find (PatchMap.erase s.patches p.id) p.id = none := by
      rw [PatchMap.find_erase _ hkeys]; simp
    by_cases he : s.cellMaps.isEmpty = true
    · have hdel : s.deletePatch p.id =
          some { s with patches := PatchMap.erase s.patches p.id } := by
        simp only [deletePatch, hf, he, if_true]
      refine ⟨_, hdel, hnone, ?_⟩
      intro m hm
      simp only [List.isEmpty_iff.1 he, List.not_mem_nil] at hm
    · obtain ⟨cms, hcms⟩ := dropCells_total s.cellSize q.id q.views s.cellMaps (hrange q hf)
      obtain ⟨hshape, hcells⟩ := dropCells_spec s.cellSize q.id q.views s.cellMaps cms hcms
      have hdel : s.deletePatch p.id =
          some { s with cellMaps := cms, patches := PatchMap.erase s.patches p.id } := by
        simp only [deletePatch, hf, he, if_false, hcms, Bool.false_eq_true]
      refine ⟨_, hdel, hnone, ?_⟩
      intro m' hm' x y cell hcell
      obtain ⟨c, hc'⟩ := List.mem_iff_getElem?.1 hm'
      obtain ⟨m, hm, hw, hh⟩ := hshape.symm.get hc'
      obtain ⟨hin', rfl⟩ := hget hcell
      have hin : m.inMap x y = true := by simpa [CellMap.inMap, hw, hh] using hin'
      have h1 := hcells c m m' hm hc' x y p.id
      have h2 := hcount c m hm x y hin
      simp only [expectedCount, hf] at h2
      rw [hq.1] at h1
      simp only [if_true] at h1
      apply List.count_eq_zero.1
      omega


theorem truncToInt_eq_floor (q : ℚ) (hq : 0 ≤ q) : truncToInt q = Int.floor q := by
  unfold truncToInt
  rw [Rat.floor_def, Int.tdiv_eq_ediv (Rat.num_nonneg.2 hq) (Int.natCast_nonneg _)]

theorem cellCoord_eq_floor (u : ℚ) (cs : Int) (hu : 0 ≤ u) (hcs : 0 < cs) :
    cellCoord u cs = Int.floor (u / cs) := by
  unfold cellCoord
  apply truncToInt_eq_floor
  have : (0 : ℚ) < cs := by exact_mod_cast hcs
  positivity

theorem getCell_eq_some {m : CellMap} {x y : Int} {cell : List Int}
    (h : m.getCell x y = some cell) : m.inMap x y = true ∧ cell = m.cells x y := by
  unfold CellMap.getCell at h
  by_cases hin : m.inMap x y = true
  · simp only [hin, if_true, Option.some.injEq] at h
    exact ⟨hin, h.symm⟩
  · simp [hin] at h

theorem wellFormed_consistent {s : MVS} (h : WellFormed s) : Consistent s := by
  constructor
  · intro p hp v hv
    obtain ⟨m, hm, hin⟩ := (cellAtOf_isSome_iff _ _ v).1 (h.in_range p hp v hv)
    have hnn := h.nonneg p hp v hv
    have hx := cellCoord_eq_floor v.pt.x s.cellSize hnn.1 h.size_pos
    have hy := cellCoord_eq_floor v.pt.y s.cellSize hnn.2 h.size_pos
    simp only [cellOf] at hin
    rw [hx, hy] at hin
    have hget : m.getCell (Int.floor (v.pt.x / s.cellSize)) (Int.floor (v.pt.y / s.cellSize)) =
        some (m.cells (Int.floor (v.pt.x / s.cellSize)) (Int.floor (v.pt.y / s.cellSize))) := by
      simp only [CellMap.getCell, hin, if_true]
    refine ⟨m, _, hm, hget, ?_⟩
    apply List.count_pos_iff.1
    rw [h.exact v.cam m hm, expectedCount, PatchMap.find_of_mem h.keys_nodup hp]
    have := @occ_pos_of_mem s.cellSize _ _ hv
    simp only [cellOf] at this
    rw [hx, hy] at this
    exact this
  · intro m hm x y cell hcell i hi
    obtain ⟨c, hc⟩ := List.mem_iff_getElem?.1 hm
    obtain ⟨-, rfl⟩ := getCell_eq_some hcell
    have hpos := List.count_pos_iff.2 hi
    rw [h.exact c m hc, expectedCount] at hpos
    by_contra hmem
    rw [(PatchMap.find_eq_none_iff _ _).2 hmem] at hpos
    exact absurd hpos (by simp)

end MVS

namespace PatchMap

theorem mem_insert {ps : PatchMap} {p q : Patch} (h : q ∈ insert ps p) : q = p ∨ q ∈ ps := by
  induction ps with
  | nil => simpa [insert] using h
  | cons r rs ih =>
    simp only [insert] at h
    by_cases h1 : p.id < r.id
    · simp only [h1, if_true, List.mem_cons] at h
      rcases h with h | h | h
      · exact Or.inl h
      · exact Or.inr (by simp [h])
      · exact Or.inr (List.mem_cons_of_mem _ h)
    · by_cases h2 : p.id = r.id
      · rw [if_neg h1, if_pos h2] at h
        exact Or.inr h
      · simp only [h1, h2, if_false, List.mem_cons] at h
        rcases h with h | h
        · exact Or.inr (by simp [h])
        · rcases ih h with h | h
          · exact Or.inl h
          · exact Or.inr (List.mem_cons_of_mem _ h)

theorem keys_erase_nodup {ps : PatchMap} (h : (keys ps).Nodup) (i : Int) :
    (keys (erase ps i)).Nodup :=
  List.Nodup.sublist ((erase_sublist ps i).map Patch.id) h

end PatchMap

namespace MVS

theorem wellFormed_insertPatch {s s' : MVS} {p : Patch} (hs : WellFormed s)
    (hfresh : PatchMap.find s.patches p.id = none) (hpts : NonnegViews p)
    (h : s.insertPatch p = some s') : WellFormed s' := by
  unfold insertPatch at h
  cases hr : s.runtimeFiltering p with
  | none => simp [hr] at h
  | some b =>
    cases b with
    | false =>
      simp only [hr, Option.some.injEq] at h
      exact h ▸ hs
    | true =>
      simp only [hr] at h
      cases hcms : insertCells s.cellSize p.id p.views s.cellMaps with
      | none => simp [hcms] at h
      | some cms =>
        simp only [hcms, Option.some.injEq] at h
        subst h
        obtain ⟨hshape, hrange, hcells⟩ :=
          insertCells_spec s.cellSize p.id p.views s.cellMaps cms hcms
        have hnotin := (PatchMap.find_eq_none_iff _ _).1 hfresh
        refine ⟨?_, ?_, ?_, ?_, hs.size_pos⟩
        · exact ((PatchMap.keys_insert_perm _ _ hnotin).nodup_iff).2
            (List.nodup_cons.2 ⟨hnotin, hs.keys_nodup⟩)
        · intro c m' hm' x y i
          obtain ⟨m, hm, -, -⟩ := hshape.symm.get hm'
          have hm'' : cms[c]? = some m' := hm'
          rw [hcells c m m' hm hm'' x y, List.count_append, hs.exact c m hm x y i,
            List.count_replicate]
          simp only [expectedCount, PatchMap.find_insert_fresh _ _ hnotin]
          by_cases hi : i = p.id
          · subst hi
            simp [hfresh]
          · have : ¬ p.id = i := fun e => hi e.symm
            simp [hi, this]
        · intro q hq v hv
          rcases PatchMap.mem_insert hq with rfl | hq
          · exact hshape.inRange _ v (hrange v hv)
          · exact hshape.inRange _ v (hs.in_range q hq v hv)
        · intro q hq
          rcases PatchMap.mem_insert hq with rfl | hq
          · exact hpts
          · exact hs.nonneg q hq

theorem wellFormed_deletePatch {s s' : MVS} {id : Int} (hs : WellFormed s)
    (h : s.deletePatch id = some s') : WellFormed s' := by
  unfold deletePatch at h
  cases hf : PatchMap.find s.patches id with
  | none =>
    simp only [hf, Option.some.injEq] at h
    exact h ▸ hs
  | some q =>
    have hq := PatchMap.find_some_id hf
    simp only [hf] at h
    have hmem : ∀ r ∈ PatchMap.erase s.patches id, r ∈ s.patches :=
      fun r hr => (PatchMap.erase_sublist _ _).subset hr
    by_cases he : s.cellMaps.isEmpty = true
    · simp only [he, if_true, Option.some.injEq] at h
      subst h
      refine ⟨PatchMap.keys_erase_nodup hs.keys_nodup _, ?_,
        fun r hr => hs.in_range r (hmem r hr), fun r hr => hs.nonneg r (hmem r hr), hs.size_pos⟩
      intro c m hm
      simp only [List.isEmpty_iff.1 he] at hm
      simp at hm
    · simp only [he, if_false, Bool.false_eq_true] at h
      cases hcms : dropCells s.cellSize q.id q.views s.cellMaps with
      | none => simp [hcms] at h
      | some cms =>
        simp only [hcms, Option.some.injEq] at h
        subst h
        obtain ⟨hshape, hcells⟩ := dropCells_spec s.cellSize q.id q.views s.cellMaps cms hcms
        refine ⟨PatchMap.keys_erase_nodup hs.keys_nodup _, ?_,
          fun r hr v hv => hshape.inRange _ v (hs.in_range r (hmem r hr) v hv),
          fun r hr => hs.nonneg r (hmem r hr), hs.size_pos⟩
        intro c m' hm' x y i
        obtain ⟨m, hm, -, -⟩ := hshape.symm.get hm'
        have hm'' : cms[c]? = some m' := hm'
        rw [hcells c m m' hm hm'' x y i, hs.exact c m hm x y i]
        simp only [expectedCount, PatchMap.find_erase _ hs.keys_nodup]
        by_cases hi : i = id
        · subst hi
          simp [hf, hq.1]
        · have : ¬ i = q.id := by rw [hq.1]; exact hi
          simp [hi, this]


theorem occAll_eq (cs : Int) (ps : List Patch) (hnd : (PatchMap.keys ps).Nodup) (i : Int)
    (c : Nat) (x y : Int) :
    occAll cs ps i c x y =
      match PatchMap.find ps i with
      | none => 0
      | some p => occ cs p.views c x y := by
  induction ps with
  | nil => simp [occAll, PatchMap.find]
  | cons q qs ih =>
    simp only [PatchMap.keys, List.map_cons, List.nodup_cons] at hnd
    simp only [occAll, PatchMap.find, ih hnd.2]
    by_cases h : q.id = i
    · have : PatchMap.find qs i = none := by
        rw [PatchMap.find_eq_none_iff]; exact h ▸ hnd.1
      simp [h, this]
    · simp [h]

theorem projectPatches_spec (cs : Int) :
    ∀ (ps : List Patch) (cms cms' : List CellMap), projectPatches cs ps cms = some cms' →
      SameShape cms cms' ∧ (∀ p ∈ ps, ∀ v ∈ p.views, (cellAtOf cs cms v).isSome = true) ∧
      ∀ (c : Nat) (m m' : CellMap), cms[c]? = some m → cms'[c]? = some m' →
        ∀ x y i, (m'.cells x y).count i = (m.cells x y).count i + occAll cs ps i c x y
  | [], cms, cms', h => by
    simp only [projectPatches, Option.some.injEq] at h
    subst h
    refine ⟨SameShape.refl _, by simp, fun c m m' hm hm' x y i => ?_⟩
    rw [hm] at hm'; cases hm'
    simp [occAll]
  | p :: ps, cms, cms', h => by
    simp only [projectPatches] at h
    cases hc1 : insertCells cs p.id p.views cms with
    | none => simp [hc1] at h
    | some cms1 =>
      simp only [hc1] at h
      obtain ⟨hshape1, hrange1, hcells1⟩ := insertCells_spec cs p.id p.views cms cms1 hc1
      obtain ⟨hshape, hrange, hcells⟩ := projectPatches_spec cs ps cms1 cms' h
      refine ⟨hshape1.trans hshape, ?_, ?_⟩
      · intro q hq v hv
        rcases List.mem_cons.1 hq with rfl | hq
        · exact hrange1 v hv
        · exact hshape1.symm.inRange cs v (hrange q hq v hv)
      · intro c m m' hm hm' x y i
        obtain ⟨m1, hm1, -, -⟩ := hshape1.get hm
        rw [hcells c m1 m' hm1 hm' x y i, hcells1 c m m1 hm hm1 x y, List.count_append,
          List.count_replicate, occAll]
        by_cases hi : p.id = i
        · simp [hi]; omega
        · simp [hi]

theorem wellFormed_setCellMaps {s0 s : MVS} (hcam : s0.cameras.isEmpty = false)
    (hsize : 0 < s0.cellSize) (hkeys : (PatchMap.keys s0.patches).Nodup)
    (hpts : ∀ p ∈ s0.patches, NonnegViews p) (h : s0.setCellMaps = some s) : WellFormed s := by
  unfold setCellMaps at h
  simp only [initCellMaps, hcam, if_false, Bool.false_eq_true] at h
  cases hc : projectPatches s0.cellSize s0.patches
      (s0.cameras.map fun cam => CellMap.new cam s0.cellSize) with
  | none => simp [hc] at h
  | some cms =>
    simp only [hc, Option.some.injEq] at h
    subst h
    obtain ⟨hshape, hrange, hcells⟩ := projectPatches_spec _ _ _ _ hc
    refine ⟨hkeys, ?_, fun p hp v hv => hshape.inRange _ v (hrange p hp v hv), hpts, hsize⟩
    intro c m' hm' x y i
    obtain ⟨m, hm, -, -⟩ := hshape.symm.get hm'
    have hm'' : cms[c]? = some m' := hm'
    rw [hcells c m m' hm hm'' x y i, occAll_eq _ _ hkeys]
    have hempty : m.cells x y = [] := by
      rw [List.getElem?_map] at hm
      cases hcam' : s0.cameras[c]? with
      | none => simp [hcam'] at hm
      | some cam =>
        simp only [hcam', Option.map_some', Option.some.injEq] at hm
        rw [← hm]
        rfl
    rw [hempty, List.count_nil, Nat.zero_add]
    rfl

theorem reachable_wellFormed {s : MVS} (h : Reachable s) : WellFormed s := by
  induction h with
  | setCellMaps s0 s hcam hsize hkeys hpts h => exact wellFormed_setCellMaps hcam hsize hkeys hpts h
  | insertPatch s s' p _ hfresh hpts h ih => exact wellFormed_insertPatch ih hfresh hpts h
  | deletePatch s s' id _ h ih => exact wellFormed_deletePatch ih h

/-- C1 (as amended): cell-map consistency holds after `setCellMaps` and after every subsequent
`deletePatch` and every subsequent `insertPatch` of a patch whose id is not yet a key of
the patch map: (a) every patch is found in the cell `(⌊u / cellSize⌋, ⌊v / cellSize⌋)`
of each of its visible cameras, and (b) every id stored in a cell is a key of the patch
map. -/
theorem reachable_consistent (s : MVS) (h : Reachable s) : Consistent s :=
  wellFormed_consistent (reachable_wellFormed h)

theorem eq_some_getD {α : Type} {o : Option α} (d : α) (h : o.isSome = true) :
    o = some (o.getD d) := by
  cases o with
  | none => cases h
  | some a => rfl

theorem nonnegViews_fifthPatch : NonnegViews Example.fifthPatch := by
  intro v hv
  have hviews : Example.fifthPatch.views = [⟨0, ⟨1, 1⟩⟩] := by decide!
  rw [hviews, List.mem_singleton] at hv
  subst hv
  exact ⟨by norm_num, by norm_num⟩

theorem reachable_builtEngine : Reachable Example.builtEngine :=
  Reachable.setCellMaps Example.emptyEngine _ (by decide!) (by decide!) (by decide!)
    (fun p hp => by cases hp) (eq_some_getD _ (by decide!))

theorem reachable_insertedOnce : Reachable Example.insertedOnce :=
  Reachable.insertPatch Example.builtEngine _ Example.fifthPatch reachable_builtEngine
    (by decide!) nonnegViews_fifthPatch (eq_some_getD _ (by decide!))

theorem not_consistent_of_cellAt {s : MVS} {v : View} {cell : List Int} {i : Int}
    (hcell : s.cellAt v = some cell) (hi : i ∈ cell) (hkey : i ∉ PatchMap.keys s.patches) :
    ¬ Consistent s := by
  rintro ⟨-, hb⟩
  unfold cellAt cellAtOf at hcell
  cases hm : s.cellMaps[v.cam]? with
  | none => simp [hm] at hcell
  | some m =>
    simp only [hm] at hcell
    exact hkey (hb m (List.mem_iff_getElem?.2 ⟨_, hm⟩) _ _ cell hcell i hi)

/-- C1, instance: the engine reached by `setCellMaps` and one `insertPatch` is consistent. -/
theorem reachable_consistent_witness :
    Reachable Example.insertedOnce ∧ Consistent Example.insertedOnce :=
  ⟨reachable_insertedOnce, reachable_consistent _ reachable_insertedOnce⟩

/-- C1, counterexample to the claim as stated: after `setCellMaps(); insertPatch(p);
insertPatch(p); deletePatch(p);` a cell still holds `p.id`, which is no longer a key of
the patch map. -/
theorem double_insert_breaks_consistency :
    ∃ s, Example.insertedTwiceDeleted = some s ∧ ¬ Consistent s := by
  refine ⟨Example.insertedTwiceDeleted.getD Example.emptyEngine,
    eq_some_getD _ (by decide!), ?_⟩
  exact @not_consistent_of_cellAt _ ⟨0, ⟨1, 1⟩⟩ [5] 5 (by decide!) (by decide!) (by decide!)

/-- C2, instance: deleting the patch inserted once into `Example.builtEngine`. -/
theorem deletePatch_removes_witness :
    ∃ s', Example.insertedOnce.deletePatch Example.fifthPatch.id = some s' ∧
      PatchMap.find s'.patches Example.fifthPatch.id = none ∧
      ∀ m ∈ s'.cellMaps, ∀ x y cell, m.getCell x y = some cell →
        Example.fifthPatch.id ∉ cell :=
  deletePatch_removes Example.insertedOnce Example.fifthPatch
    (reachable_wellFormed reachable_insertedOnce).keys_nodup
    (fun q hq => (reachable_wellFormed reachable_insertedOnce).in_range q
      (PatchMap.find_some_id hq).2)
    (fun c m hm x y _ => ((reachable_wellFormed reachable_insertedOnce).exact c m hm x y _).le)

/-- C2, counterexample to the claim as stated: in the state reached by inserting the same
patch twice the cell holds the id twice, and after `deletePatch(p)` the cell still
contains `p.id`. -/
theorem deletePatch_leaves_second_copy :
    (Example.insertedTwice.map fun s => (PatchMap.keys s.patches, s.cellAt ⟨0, ⟨1, 1⟩⟩)) =
      some ([5], some [5, 5]) ∧
    (Example.insertedTwice.bind fun s => (s.deletePatch Example.fifthPatch.id).map
      fun s' => s'.cellAt ⟨0, ⟨1, 1⟩⟩) = some (some [Example.fifthPatch.id]) := by
  constructor <;> decide!

/-- C3, instance: `Example.fifthPatch` is accepted by `Example.builtEngine` and inserted. -/
theorem insertPatch_all_or_nothing_witness :
    (∀ v ∈ Example.fifthPatch.views, (Example.builtEngine.cellAt v).isSome = true) ∧
    Example.builtEngine.runtimeFiltering Example.fifthPatch = some true ∧
    ∃ s', Example.builtEngine.insertPatch Example.fifthPatch = some s' ∧
      Example.fifthPatch.id ∈ PatchMap.keys s'.patches ∧
      s'.queue.getLast? = some Example.fifthPatch.id ∧
      ∀ v ∈ Example.fifthPatch.views, ∃ cell, s'.cellAt v = some cell ∧
        Example.fifthPatch.id ∈ cell :=
  ⟨by decide!, by decide!,
    (insertPatch_all_or_nothing Example.builtEngine Example.fifthPatch (by decide!)).2
      (by decide!)⟩

/-! ## The priority queue -/

theorem dbl_lt_irrefl (a : Dbl) : a.lt a = false := by
  cases a <;> simp [Dbl.lt]

theorem scanInv_init (s : MVS) : ScanInv s [] [] none DBL_MAX :=
  ⟨rfl, fun j hj => (by cases hj), fun _ => rfl, fun i hi => (by cases hi)⟩

theorem scanQueue_inv (s : MVS) :
    ∀ (q seen kept : List Int) (topIt : Option Nat) (tp : Dbl),
      (∀ id ∈ q, (s.getPatch id).isSome = true) → ScanInv s seen kept topIt tp →
      ∃ kept' topIt' tp', scanQueue s q kept topIt tp = some (kept', topIt') ∧
        ScanInv s (seen ++ q) kept' topIt' tp'
  | [], seen, kept, topIt, tp, _, hinv => ⟨kept, topIt, tp, rfl, by simpa using hinv⟩
  | id :: rest, seen, kept, topIt, tp, hres, hinv => by
    have hrest : ∀ j ∈ rest, (s.getPatch j).isSome = true :=
      fun j hj => hres j (List.mem_cons_of_mem _ hj)
    have hid := hres id (List.mem_cons_self _ _)
    cases hp : s.getPatch id with
    | none => rw [hp] at hid; cases hid
    | some pth =>
      have hU : s.unexpanded id = !pth.expanded := by simp [unexpanded, hp]
      have hP : s.priorityOf id = pth.priority := by simp [priorityOf, hp]
      have happ : seen ++ id :: rest = (seen ++ [id]) ++ rest := by simp
      rw [happ]
      simp only [scanQueue, hp]
      by_cases hexp : pth.expanded = true
      · -- expanded: erased from the queue
        simp only [hexp, if_true]
        have hUf : s.unexpanded id = false := by simp [hU, hexp]
        refine scanQueue_inv s rest (seen ++ [id]) kept topIt tp hrest ⟨?_, ?_, hinv.none_case, ?_⟩
        · rw [List.filter_append, ← hinv.kept_eq]; simp [hUf]
        · intro j hj hUj
          rcases List.mem_append.1 hj with hj | hj
          · exact hinv.lower j hj hUj
          · rw [List.mem_singleton] at hj
            rw [hj, hUf] at hUj; cases hUj
        · intro i hi
          obtain ⟨pre, top, post, hseen, hi', hUt, htp, hlt, hfirst⟩ := hinv.some_case i hi
          exact ⟨pre, top, post ++ [id], by simp [hseen], hi', hUt, htp, hlt, hfirst⟩
      · have hUt : s.unexpanded id = true := by simp [hU, hexp]
        have hkept : kept ++ [id] = (seen ++ [id]).filter s.unexpanded := by
          rw [List.filter_append, ← hinv.kept_eq]; simp [hUt]
        have hbound : tp = DBL_MAX ∨ tp.lt DBL_MAX = true := by
          cases topIt with
          | none => exact Or.inl (hinv.none_case rfl)
          | some i =>
            obtain ⟨_, _, _, _, _, _, _, hlt, _⟩ := hinv.some_case i rfl
            exact Or.inr hlt
        simp only [hexp, if_false, Bool.false_eq_true]
        by_cases hlt : pth.priority.lt tp = true
        · -- new top
          simp only [hlt, if_true]
          refine scanQueue_inv s rest (seen ++ [id]) (kept ++ [id]) (some kept.length)
            pth.priority hrest ⟨hkept, ?_, fun h => (by cases h), ?_⟩
          · intro j hj hUj
            rcases List.mem_append.1 hj with hj | hj
            · cases hjl : (s.priorityOf j).lt pth.priority with
              | false => rfl
              | true =>
                have := dbl_lt_trans hjl hlt
                rw [hinv.lower j hj hUj] at this; cases this
            · rw [List.mem_singleton] at hj
              rw [hj, hP]; exact dbl_lt_irrefl _
          · intro i hi
            simp only [Option.some.injEq] at hi
            refine ⟨seen, id, [], rfl, ?_, hUt, hP.symm, ?_, ?_⟩
            · rw [← hi, hinv.kept_eq]
            · rcases hbound with h | h
              · rw [← h]; exact hlt
              · exact dbl_lt_trans hlt h
            · intro j hj hUj heq
              have := hinv.lower j hj hUj
              rw [heq, hlt] at this; cases this
        · -- kept, top unchanged
          simp only [hlt, if_false]
          have hlt' : pth.priority.lt tp = false := by simpa using hlt
          refine scanQueue_inv s rest (seen ++ [id]) (kept ++ [id]) topIt tp hrest
            ⟨hkept, ?_, hinv.none_case, ?_⟩
          · intro j hj hUj
            rcases List.mem_append.1 hj with hj | hj
            · exact hinv.lower j hj hUj
            · rw [List.mem_singleton] at hj
              rw [hj, hP]; exact hlt'
          · intro i hi
            obtain ⟨pre, top, post, hseen, hi', hUt', htp, hlt2, hfirst⟩ := hinv.some_case i hi
            exact ⟨pre, top, post ++ [id], by simp [hseen], hi', hUt', htp, hlt2, hfirst⟩


theorem getElem?_append_length {α : Type} (l1 : List α) (a : α) (l2 : List α) :
    (l1 ++ a :: l2)[l1.length]? = some a := by
  induction l1 with
  | nil => simp
  | cons b l ih => simpa using ih

theorem eraseIdx_append_length {α : Type} (l1 : List α) (a : α) (l2 : List α) :
    (l1 ++ a :: l2).eraseIdx l1.length = l1 ++ l2 := by
  induction l1 with
  | nil => rfl
  | cons b l ih => simpa using ih

/-- What `getTopPriorityPatchId` does when every id of the queue resolves.  Without a
candidate (no unexpanded patch of the queue has a priority below `DBL_MAX`) it returns `-1`
and leaves the queue as it is when the queue holds no expanded patch, and has no defined
result when it does; with a candidate it returns the first unexpanded id whose priority is
minimal and erases it and the expanded ids. -/
theorem getTopPriorityPatchId_cases (s : MVS)
    (hres : ∀ id ∈ s.queue, (s.getPatch id).isSome = true) :
    ((∀ j ∈ s.queue, s.unexpanded j = true → (s.priorityOf j).lt DBL_MAX = false) ∧
      ((∀ j ∈ s.queue, s.unexpanded j = true) → s.getTopPriorityPatchId = some (-1, s)) ∧
      ((∃ j ∈ s.queue, s.unexpanded j = false) → s.getTopPriorityPatchId = none)) ∨
    (∃ pre top post, s.queue = pre ++ top :: post ∧
      s.getTopPriorityPatchId =
        some (top, { s with queue := (pre ++ post).filter s.unexpanded }) ∧
      s.unexpanded top = true ∧ (s.priorityOf top).lt DBL_MAX = true ∧
      (∀ j ∈ s.queue, s.unexpanded j = true →
        (s.priorityOf j).lt (s.priorityOf top) = false) ∧
      ∀ j ∈ pre, s.unexpanded j = true → s.priorityOf j ≠ s.priorityOf top) := by
  obtain ⟨kept, topIt, tp, hscan, hinv⟩ :=
    scanQueue_inv s s.queue [] [] none DBL_MAX hres (scanInv_init s)
  simp only [List.nil_append] at hinv
  cases topIt with
  | none =>
    left
    have htp := hinv.none_case rfl
    refine ⟨fun j hj hU => htp ▸ hinv.lower j hj hU, fun hall => ?_, fun hex => ?_⟩
    · have hkeep : s.queue.filter s.unexpanded = s.queue := List.filter_eq_self.2 hall
      simp only [getTopPriorityPatchId, hscan, hinv.kept_eq, hkeep, if_true]
    · have hlen : ¬ (s.queue.filter s.unexpanded).length = s.queue.length := by
        rw [List.filter_length_eq_length]
        intro hall
        obtain ⟨j, hj, hjf⟩ := hex
        rw [hall j hj] at hjf
        cases hjf
      simp only [getTopPriorityPatchId, hscan, hinv.kept_eq, hlen, if_false]
  | some i =>
    right
    obtain ⟨pre, top, post, hq, hi, hU, htp, hlt, hfirst⟩ := hinv.some_case i rfl
    refine ⟨pre, top, post, hq, ?_, hU, htp ▸ hlt, fun j hj hUj => htp ▸ hinv.lower j hj hUj,
      fun j hj hUj => htp ▸ hfirst j hj hUj⟩
    have hkept : kept = pre.filter s.unexpanded ++ top :: post.filter s.unexpanded := by
      rw [hinv.kept_eq, hq, List.filter_append, List.filter_cons, hU]
      rfl
    simp only [getTopPriorityPatchId, hscan, hkept, hi, getElem?_append_length,
      eraseIdx_append_length, List.filter_append]

/-- C8 (as amended): in an engine state in which all queue ids resolve to patches,
`getTopPriorityPatchId` returns unless its scan erases an expanded id and selects no
candidate (`StaleTop`), where the final test uses the invalid iterator `topIt` and the call
has no defined result.  When it returns an id `>= 0`, the patch with that id is not marked
expanded, afterwards the queue contains no id of an expanded patch, and it no longer
contains the returned id provided the queue held that id only once. -/
theorem getTopPriorityPatchId_not_expanded (s : MVS)
    (hres : ∀ id ∈ s.queue, (s.getPatch id).isSome = true) :
    (StaleTop s → s.getTopPriorityPatchId = none) ∧
    (¬ StaleTop s →
      ∃ top s', s.getTopPriorityPatchId = some (top, s') ∧ s'.patches = s.patches ∧
        (0 ≤ top →
          (∃ p, s.getPatch top = some p ∧ p.expanded = false) ∧
          (∀ j ∈ s'.queue, ∀ p, s'.getPatch j = some p → p.expanded = false) ∧
          (s.queue.count top ≤ 1 → top ∉ s'.queue))) := by
  have hU : ∀ j, s.unexpanded j = true → ∀ p, s.getPatch j = some p → p.expanded = false := by
    intro j hj p hp
    simpa [unexpanded, hp] using hj
  rcases getTopPriorityPatchId_cases s hres with
    ⟨hnone, hclean, hstale⟩ | ⟨pre, top, post, hq, hret, hUt, hlt, -⟩
  · refine ⟨fun h => hstale h.1, fun h => ?_⟩
    have hall : ∀ j ∈ s.queue, s.unexpanded j = true := by
      intro j hj
      cases hu : s.unexpanded j with
      | true => rfl
      | false => exact absurd ⟨⟨j, hj, hu⟩, hnone⟩ h
    exact ⟨_, _, hclean hall, rfl, fun h0 => absurd h0 (by decide)⟩
  · have hmem : top ∈ s.queue := by rw [hq]; simp
    refine ⟨fun h => ?_, fun _ => ⟨_, _, hret, rfl, fun _ => ⟨?_, ?_, ?_⟩⟩⟩
    · rw [h.2 top hmem hUt] at hlt
      cases hlt
    · cases hp : s.getPatch top with
      | none => simp [unexpanded, hp] at hUt
      | some p => exact ⟨p, rfl, hU top hUt p hp⟩
    · intro j hj p hp
      exact hU j (List.mem_filter.1 hj).2 p hp
    · intro hcount hmem'
      have hmem'' : top ∈ pre ++ post := (List.mem_filter.1 hmem').1
      rw [hq, List.count_append, List.count_cons_self] at hcount
      have : 0 < List.count top (pre ++ post) := List.count_pos_iff.2 hmem''
      rw [List.count_append] at this
      omega

/-- C8, instance: on `Example.queueEngine` the call returns id 2 and leaves the queue `[1, 3]`;
on `Example.expandedQueue`, whose only queue entry is an expanded patch, it has no defined
result. -/
theorem getTopPriorityPatchId_not_expanded_witness :
    (∀ id ∈ Example.queueEngine.queue, (Example.queueEngine.getPatch id).isSome = true) ∧
    ¬ StaleTop Example.queueEngine ∧
    (Example.queueEngine.getTopPriorityPatchId.map fun r => (r.1, r.2.queue)) =
      some (2, [1, 3]) ∧
    (StaleTop Example.expandedQueue ∧ Example.expandedQueue.getTopPriorityPatchId = none) ∧
    ∃ top s', Example.queueEngine.getTopPriorityPatchId = some (top, s') ∧
      s'.patches = Example.queueEngine.patches ∧
      (0 ≤ top →
        (∃ p, Example.queueEngine.getPatch top = some p ∧ p.expanded = false) ∧
        (∀ j ∈ s'.queue, ∀ p, s'.getPatch j = some p → p.expanded = false) ∧
        (Example.queueEngine.queue.count top ≤ 1 → top ∉ s'.queue)) :=
  ⟨by decide!, by unfold StaleTop; decide!, by decide!,
    ⟨by unfold StaleTop; decide!,
      (getTopPriorityPatchId_not_expanded Example.expandedQueue (by decide!)).1
        (by unfold StaleTop; decide!)⟩,
    (getTopPriorityPatchId_not_expanded Example.queueEngine (by decide!)).2
      (by unfold StaleTop; decide!)⟩

/-- C8, counterexample to the claim as stated: all ids of the queue `[0, 0]` resolve, the call
returns id 0, and the queue still contains 0 afterwards. -/
theorem getTopPriorityPatchId_keeps_second_copy :
    (∀ id ∈ Example.duplicateQueue.queue, (Example.duplicateQueue.getPatch id).isSome = true) ∧
    (Example.duplicateQueue.getTopPriorityPatchId.map fun r => (r.1, r.2.queue)) =
      some (0, [0]) := by
  constructor <;> decide!

/-- C9 (as amended): when all queue ids resolve to patches and are non-negative, and the scan
does not end on the invalid iterator (`StaleTop`: an expanded id is erased and no candidate
selected, where the call has no defined result), `getTopPriorityPatchId` returns `-1`
exactly when the queue holds no unexpanded patch whose priority is below `DBL_MAX` (NaN is
not); otherwise it returns an id of the queue whose patch is unexpanded, has a priority
below `DBL_MAX` that no unexpanded patch of the queue undercuts, and that no unexpanded
patch earlier in the queue shares. -/
theorem getTopPriorityPatchId_minimum (s : MVS)
    (hres : ∀ id ∈ s.queue, (s.getPatch id).isSome = true)
    (hids : ∀ id ∈ s.queue, 0 ≤ id) :
    (StaleTop s → s.getTopPriorityPatchId = none) ∧
    (¬ StaleTop s →
      ∃ top s', s.getTopPriorityPatchId = some (top, s') ∧
        (top = -1 ↔
          ∀ j ∈ s.queue, s.unexpanded j = true → (s.priorityOf j).lt DBL_MAX = false) ∧
        (top ≠ -1 → ∃ pre post, s.queue = pre ++ top :: post ∧
          s.unexpanded top = true ∧ (s.priorityOf top).lt DBL_MAX = true ∧
          (∀ j ∈ s.queue, s.unexpanded j = true →
            (s.priorityOf j).lt (s.priorityOf top) = false) ∧
          ∀ j ∈ pre, s.unexpanded j = true → s.priorityOf j ≠ s.priorityOf top)) := by
  rcases getTopPriorityPatchId_cases s hres with
    ⟨hnone, hclean, hstale⟩ | ⟨pre, top, post, hq, hret, hUt, hlt, hmin, hfirst⟩
  · refine ⟨fun h => hstale h.1, fun h => ?_⟩
    have hall : ∀ j ∈ s.queue, s.unexpanded j = true := by
      intro j hj
      cases hu : s.unexpanded j with
      | true => rfl
      | false => exact absurd ⟨⟨j, hj, hu⟩, hnone⟩ h
    exact ⟨_, _, hclean hall, ⟨fun _ => hnone, fun _ => rfl⟩, fun h' => absurd rfl h'⟩
  · have hmem : top ∈ s.queue := by rw [hq]; simp
    have hne : top ≠ -1 := by
      have := hids top hmem
      omega
    refine ⟨fun h => ?_, fun _ => ⟨_, _, hret, ⟨fun h => absurd h hne, fun h => ?_⟩,
      fun _ => ⟨pre, post, hq, hUt, hlt, hmin, hfirst⟩⟩⟩
    · rw [h.2 top hmem hUt] at hlt
      cases hlt
    · rw [h top hmem hUt] at hlt
      cases hlt

/-- C9, instance: on `Example.queueEngine` the call returns id 2, the first of the two
unexpanded patches of minimal priority 2. -/
theorem getTopPriorityPatchId_minimum_witness :
    (∀ id ∈ Example.queueEngine.queue, (Example.queueEngine.getPatch id).isSome = true) ∧
    (∀ id ∈ Example.queueEngine.queue, 0 ≤ id) ∧
    ¬ StaleTop Example.queueEngine ∧
    Example.queueEngine.getTopPriorityPatchId.map Prod.fst = some 2 ∧
    ∃ top s', Example.queueEngine.getTopPriorityPatchId = some (top, s') ∧
      (top = -1 ↔ ∀ j ∈ Example.queueEngine.queue, Example.queueEngine.unexpanded j = true →
        (Example.queueEngine.priorityOf j).lt DBL_MAX = false) ∧
      (top ≠ -1 → ∃ pre post, Example.queueEngine.queue = pre ++ top :: post ∧
        Example.queueEngine.unexpanded top = true ∧
        (Example.queueEngine.priorityOf top).lt DBL_MAX = true ∧
        (∀ j ∈ Example.queueEngine.queue, Example.queueEngine.unexpanded j = true →
          (Example.queueEngine.priorityOf j).lt (Example.queueEngine.priorityOf top) = false) ∧
        ∀ j ∈ pre, Example.queueEngine.unexpanded j = true →
          Example.queueEngine.priorityOf j ≠ Example.queueEngine.priorityOf top) :=
  ⟨by decide!, by decide!, by unfold StaleTop; decide!, by decide!,
    (getTopPriorityPatchId_minimum Example.queueEngine (by decide!) (by decide!)).2
      (by unfold StaleTop; decide!)⟩

/-- C9, counterexample to the claim as stated: the queue holds an unexpanded patch, of priority
NaN in `Example.nanQueue` and of priority `DBL_MAX` in `Example.maxQueue`, and the call
returns `-1`. -/
theorem getTopPriorityPatchId_misses_unexpanded :
    (Example.nanQueue.getTopPriorityPatchId.map Prod.fst = some (-1) ∧
      ∃ id ∈ Example.nanQueue.queue, Example.nanQueue.unexpanded id = true) ∧
    (Example.maxQueue.getTopPriorityPatchId.map Prod.fst = some (-1) ∧
      ∃ id ∈ Example.maxQueue.queue, Example.maxQueue.unexpanded id = true) := by
  refine ⟨⟨?_, ?_⟩, ⟨?_, ?_⟩⟩ <;> decide!

/-! ## The expansion loop -/

/-- C10, the code at the failing input: on `Example.seedEngine` (one camera, one seed)
`expansionPatches` returns after expanding the seed; the two children it inserted, ids
100 and 101, are in the patch map, not marked expanded, and still in the queue. -/
theorem expansionPatches_leaves_children :
    ((expansionPatches Example.ops 10 Example.seedEngine 0).map fun r =>
      (r.mvs.queue, r.mvs.patches.map fun p => (p.id, p.expanded), r.created)) =
      some ([100, 101], [((0 : Int), true), (100, false), (101, false)], 2) := by
  decide!

end MVS

/-! ## Initialization, expansion and cell occupancy -/

namespace MVS

theorem getTopPriorityPatchId_empty (s : MVS) (h : s.queue = []) :
    s.getTopPriorityPatchId = some (-1, { s with queue := [] }) := by
  simp [getTopPriorityPatchId, h, scanQueue]

/-- C14: with zero cameras `initCellMaps` returns false and leaves the engine unchanged, and
`expansionPatches` on an engine without cameras and patches returns at once with the
patch map and the cell maps unchanged, no patch constructed and no checkpoint written
(only the queue is cleared); with at least one camera `initCellMaps` returns true and
yields one cell map per camera, in camera order. -/
theorem initCellMaps_cameras (s : MVS) (ops : PatchOps) (fuel created : Nat) :
    (s.cameras = [] →
      s.initCellMaps = (false, s) ∧
      (s.patches = [] →
        expansionPatches ops (fuel + 1) s created =
          some ⟨{ s with queue := [] }, created, 0⟩)) ∧
    (s.cameras ≠ [] →
      s.initCellMaps.1 = true ∧
      s.initCellMaps.2.cellMaps.length = s.cameras.length ∧
      ∀ (i : Nat) (cam : Camera), s.cameras[i]? = some cam →
        s.initCellMaps.2.cellMaps[i]? = some (CellMap.new cam s.cellSize)) := by
  constructor
  · intro hc
    have hinit : s.initCellMaps = (false, s) := by simp [initCellMaps, hc]
    refine ⟨hinit, fun hp => ?_⟩
    have hproj : projectPatches s.cellSize s.patches s.cellMaps = some s.cellMaps := by
      rw [hp]; rfl
    have hset : s.setCellMaps = some s := by
      simp only [setCellMaps, hinit, hproj]
    have hq : s.initPriorityQueue.queue = [] := by
      simp only [initPriorityQueue, hp, List.map_nil]
    simp only [expansionPatches, hset, getTopPriorityPatchId_empty _ hq, expansionLoop]
    rfl
  · intro hc
    have he : s.cameras.isEmpty = false := by
      cases h : s.cameras with
      | nil => exact absurd h hc
      | cons _ _ => rfl
    simp only [initCellMaps, he, if_false, Bool.false_eq_true, List.length_map, true_and]
    intro i cam hi
    simp [List.getElem?_map, hi]

/-- C14, instance: `Example.noCameras` has no camera and no patch; `Example.seedEngine` has one
camera. -/
theorem initCellMaps_cameras_witness :
    (Example.noCameras.cameras = [] ∧ Example.noCameras.patches = [] ∧
      Example.noCameras.initCellMaps = (false, Example.noCameras) ∧
      expansionPatches Example.ops 1 Example.noCameras 0 =
        some ⟨{ Example.noCameras with queue := [] }, 0, 0⟩) ∧
    (Example.seedEngine.cameras ≠ [] ∧ Example.seedEngine.initCellMaps.1 = true ∧
      Example.seedEngine.initCellMaps.2.cellMaps.length = Example.seedEngine.cameras.length) :=
  ⟨⟨rfl, rfl,
      ((initCellMaps_cameras Example.noCameras Example.ops 0 0).1 rfl).1,
      ((initCellMaps_cameras Example.noCameras Example.ops 0 0).1 rfl).2 rfl⟩,
    ⟨by simp [Example.seedEngine],
      ((initCellMaps_cameras Example.seedEngine Example.ops 0 0).2
        (by simp [Example.seedEngine])).1,
      ((initCellMaps_cameras Example.seedEngine Example.ops 0 0).2
        (by simp [Example.seedEngine])).2.1⟩⟩

theorem inForeground_iff (cams : List Camera) (center : Vec3d) :
    inForeground cams center = true ↔
      ∀ cam ∈ cams, ∃ pt, cam.project center = some pt ∧
        cam.pixel (cvRound pt.y) (cvRound pt.x) ≠ 0 := by
  induction cams with
  | nil => simp [inForeground]
  | cons cam cams ih =>
    simp only [inForeground, List.mem_cons, forall_eq_or_imp]
    cases hp : cam.project center with
    | none => simp
    | some pt =>
      by_cases hz : cam.pixel (cvRound pt.y) (cvRound pt.x) = 0
      · simp [hz]
      · simp [hz, ih]

/-- The patches of the state after `insertPatch` are those before and, possibly, the
inserted patch, which then passed the foreground test. -/
theorem insertPatch_patches {s s' : MVS} {p : Patch} (h : s.insertPatch p = some s') :
    s'.cameras = s.cameras ∧
    ∀ q ∈ s'.patches, q ∈ s.patches ∨ inForeground s.cameras q.center = true := by
  unfold insertPatch at h
  cases hr : s.runtimeFiltering p with
  | none => simp [hr] at h
  | some b =>
    cases b with
    | false =>
      simp only [hr, Option.some.injEq] at h
      subst h
      exact ⟨rfl, fun q hq => Or.inl hq⟩
    | true =>
      simp only [hr] at h
      cases hcms : insertCells s.cellSize p.id p.views s.cellMaps with
      | none => simp [hcms] at h
      | some cms =>
        simp only [hcms, Option.some.injEq] at h
        subst h
        refine ⟨rfl, fun q hq => ?_⟩
        rcases PatchMap.mem_insert hq with rfl | hq
        · exact Or.inr (runtimeFiltering_true_checks s q hr).2.2.2.2.2.2.2.2.2.1
        · exact Or.inl hq

theorem grown_refl (st : MVS × Nat) : Grown st st := ⟨rfl, fun _ hq => Or.inl hq⟩

theorem grown_trans {a b c : MVS × Nat} (h1 : Grown a b) (h2 : Grown b c) : Grown a c := by
  refine ⟨h2.1.trans h1.1, fun q hq => ?_⟩
  rcases h2.2 q hq with hq | hq
  · exact h1.2 q hq
  · exact Or.inr (h1.1 ▸ hq)

theorem expandCell_grown {ops : PatchOps} {st st' : MVS × Nat} {cam : Camera} {parent : Patch}
    {cx cy : Int} (h : expandCell ops st cam parent cx cy = some st') : Grown st st' := by
  unfold expandCell at h
  cases hi : st.1.insertPatch
      (ops.newPatch st.2 (getExpansionPatchCenter st.1 cam parent cx cy) parent) with
  | none => simp [hi] at h
  | some s' =>
    simp only [hi, Option.some.injEq] at h
    subst h
    exact insertPatch_patches hi

theorem expandNeighbors_grown (ops : PatchOps) (cam : Camera) (pth : Patch) (c : Nat) :
    ∀ (ns : List (Int × Int)) (st st' : MVS × Nat),
      expandNeighbors ops cam pth c ns st = some st' → Grown st st'
  | [], st, st', h => by
    simp only [expandNeighbors, Option.some.injEq] at h
    exact h ▸ grown_refl st
  | n :: rest, st, st', h => by
    simp only [expandNeighbors] at h
    cases hm : st.1.cellMaps[c]? with
    | none => simp [hm] at h
    | some m =>
      simp only [hm] at h
      by_cases hin : m.inMap n.1 n.2 = true
      · simp only [hin, Bool.not_true, Bool.false_eq_true, if_false] at h
        cases hcell : m.getCell n.1 n.2 with
        | none => simp [hcell] at h
        | some cell =>
          simp only [hcell] at h
          cases hskip : skipNeighborCell st.1 ops cell pth with
          | none => simp [hskip] at h
          | some b =>
            cases b with
            | true =>
              simp only [hskip] at h
              exact expandNeighbors_grown ops cam pth c rest st st' h
            | false =>
              simp only [hskip] at h
              cases he : expandCell ops st cam pth n.1 n.2 with
              | none => simp [he] at h
              | some st1 =>
                simp only [he] at h
                exact grown_trans (expandCell_grown he)
                  (expandNeighbors_grown ops cam pth c rest st1 st' h)
      · simp only [hin, Bool.not_false, if_true] at h
        exact expandNeighbors_grown ops cam pth c rest st st' h

theorem expandViews_grown (ops : PatchOps) (pth : Patch) :
    ∀ (vs : List View) (st st' : MVS × Nat), expandViews ops pth vs st = some st' → Grown st st'
  | [], st, st', h => by
    simp only [expandViews, Option.some.injEq] at h
    exact h ▸ grown_refl st
  | v :: vs, st, st', h => by
    simp only [expandViews] at h
    by_cases hv : v.cam = pth.refCam
    · simp only [hv, ne_eq, not_true_eq_false, if_false] at h
      cases hcam : st.1.cameras[pth.refCam]? with
      | none => simp [hcam] at h
      | some cam =>
        simp only [hcam] at h
        cases hn : expandNeighbors ops cam pth pth.refCam
            [((cellOf st.1.cellSize v).1 - 1, (cellOf st.1.cellSize v).2),
              ((cellOf st.1.cellSize v).1, (cellOf st.1.cellSize v).2 - 1),
              ((cellOf st.1.cellSize v).1 + 1, (cellOf st.1.cellSize v).2),
              ((cellOf st.1.cellSize v).1, (cellOf st.1.cellSize v).2 + 1)] st with
        | none => simp [hn] at h
        | some st1 =>
          simp only [hn] at h
          exact grown_trans (expandNeighbors_grown ops cam pth _ _ st st1 hn)
            (expandViews_grown ops pth vs st1 st' h)
    · simp only [ne_eq, hv, not_false_eq_true, if_true] at h
      exact expandViews_grown ops pth vs st st' h

/-- Every patch that `expandNeighborCell` adds to the patch map has a center that
`Camera::project` maps into the image of every camera of the engine, and for which the
unchecked read at the rounded projection yields a non-zero value: a non-zero pixel of level 0
whenever the rounded index lies inside the image. -/
theorem expandNeighborCell_inserts_projecting (ops : PatchOps) (st st' : MVS × Nat) (pth : Patch)
    (h : expandNeighborCell ops st pth = some st') :
    ∀ q ∈ st'.1.patches, q ∉ st.1.patches →
      ∀ cam ∈ st'.1.cameras, ∃ pt, cam.project q.center = some pt ∧
        cam.pixel (cvRound pt.y) (cvRound pt.x) ≠ 0 := by
  intro q hq hnew
  obtain ⟨hcams, hgrown⟩ := expandViews_grown ops pth pth.views st st' h
  rcases hgrown q hq with hold | hfg
  · exact absurd hold hnew
  · rw [hcams]
    exact (inForeground_iff _ _).1 hfg

theorem occ_single_le (cs : Int) (v : View) (c : Nat) (x y : Int) : occ cs [v] c x y ≤ 1 := by
  simp only [occ, List.countP_cons, List.countP_nil]
  split <;> simp

/-- The cells after `insertPatch`: each cell has grown by the views of the patch that
project to it. -/
theorem insertPatch_cells {s s' : MVS} {p : Patch} (h : s.insertPatch p = some s') :
    s' = s ∨ (s.runtimeFiltering p = some true ∧ s'.maxCellPatchNum = s.maxCellPatchNum ∧
      ∀ (c : Nat) (m' : CellMap), s'.cellMaps[c]? = some m' →
        ∀ x y cell', m'.getCell x y = some cell' →
          ∃ (m : CellMap) (cell : List Int), s.cellMaps[c]? = some m ∧
            m.getCell x y = some cell ∧
            cell' = cell ++ List.replicate (occ s.cellSize p.views c x y) p.id) := by
  unfold insertPatch at h
  cases hr : s.runtimeFiltering p with
  | none => simp [hr] at h
  | some b =>
    cases b with
    | false =>
      simp only [hr, Option.some.injEq] at h
      exact Or.inl h.symm
    | true =>
      simp only [hr] at h
      cases hcms : insertCells s.cellSize p.id p.views s.cellMaps with
      | none => simp [hcms] at h
      | some cms =>
        simp only [hcms, Option.some.injEq] at h
        subst h
        obtain ⟨hshape, -, hcells⟩ := insertCells_spec s.cellSize p.id p.views s.cellMaps cms hcms
        refine Or.inr ⟨rfl, rfl, ?_⟩
        intro c m' hc' x y cell' hcell'
        obtain ⟨m, hm, hw, hh⟩ := hshape.symm.get hc'
        obtain ⟨hin', rfl⟩ := getCell_eq_some hcell'
        have hin : m.inMap x y = true := by simpa [CellMap.inMap, hw, hh] using hin'
        exact ⟨m, m.cells x y, hm, by simp [CellMap.getCell, hin], hcells c m m' hm hc' x y⟩

theorem cellsBounded_of_all (s : MVS)
    (h : (s.cellMaps.all fun m => (List.range m.width).all fun x =>
      (List.range m.height).all fun y =>
        decide ((m.cells x y).length ≤ s.maxCellPatchNum)) = true) : CellsBounded s := by
  intro m hm x y cell hcell
  obtain ⟨hin, rfl⟩ := getCell_eq_some hcell
  simp only [CellMap.inMap, decide_eq_true_eq] at hin
  simp only [List.all_eq_true, List.mem_range, decide_eq_true_eq] at h
  have := h m hm x.toNat (by omega) y.toNat (by omega)
  rwa [Int.toNat_of_nonneg hin.1, Int.toNat_of_nonneg hin.2.2.1] at this

/-- C12 (as amended): starting from a state in which every cell holds at most
`maxCellPatchNum` ids, after `insertPatch(p)` every cell holds at most `maxCellPatchNum`
ids plus the number of views of `p` that project to it; the bound `maxCellPatchNum`
itself is kept when `p` has a single view and its id is not yet in the cell of that
view. -/
theorem insertPatch_cell_bound (s s' : MVS) (p : Patch) (hb : CellsBounded s)
    (h : s.insertPatch p = some s') :
    (∀ (c : Nat) (m' : CellMap), s'.cellMaps[c]? = some m' →
      ∀ x y cell', m'.getCell x y = some cell' →
        cell'.length ≤ s.maxCellPatchNum + occ s.cellSize p.views c x y) ∧
    (∀ v, p.views = [v] → (∀ cell, s.cellAt v = some cell → p.id ∉ cell) → CellsBounded s') := by
  rcases insertPatch_cells h with rfl | ⟨hr, hmax, hcells⟩
  · exact ⟨fun c m' hm' x y cell' hc =>
        Nat.le_add_right_of_le (hb m' (List.mem_iff_getElem?.2 ⟨c, hm'⟩) x y cell' hc),
      fun _ _ _ => hb⟩
  · constructor
    · intro c m' hm' x y cell' hc
      obtain ⟨m, cell, hm, hcell, rfl⟩ := hcells c m' hm' x y cell' hc
      have := hb m (List.mem_iff_getElem?.2 ⟨c, hm⟩) x y cell hcell
      simp only [List.length_append, List.length_replicate]
      omega
    · intro v hv hfresh m' hm' x y cell' hc
      obtain ⟨c, hc'⟩ := List.mem_iff_getElem?.1 hm'
      obtain ⟨m, cell, hm, hcell, rfl⟩ := hcells c m' hc' x y cell' hc
      have hbound := hb m (List.mem_iff_getElem?.2 ⟨c, hm⟩) x y cell hcell
      rw [hmax]
      simp only [List.length_append, List.length_replicate, hv]
      by_cases hocc : occ s.cellSize [v] c x y = 0
      · omega
      · have hle := occ_single_le s.cellSize v c x y
        have hhit : v.cam = c ∧ cellOf s.cellSize v = (x, y) := by
          by_contra hne
          apply hocc
          simp [occ, hne]
        have hat : s.cellAt v = some cell := by
          simp only [cellAt, cellAtOf, hhit.1, hm, hhit.2, hcell]
        have hne : s.cellMaps.isEmpty = false := by
          cases hl : s.cellMaps with
          | nil => rw [hl] at hm; simp at hm
          | cons _ _ => rfl
        obtain ⟨-, -, -, -, -, -, -, -, -, -, count, -, -, hfilter⟩ :=
          runtimeFiltering_true_checks s p hr
        rcases hfilter with he | hfilter
        · rw [he] at hne; cases hne
        · obtain ⟨w, hw, cellw, hcw, hroom⟩ :=
            cellFilter_true_room s p p.views 0 hfilter (by simp [Patch.getCameraNumber])
          rw [hv, List.mem_singleton] at hw
          subst hw
          rw [hat] at hcw
          cases hcw
          rcases hroom with hin | hlt
          · exact absurd hin (hfresh cell hat)
          · omega

theorem not_cellsBounded_of_cellAt {s : MVS} {v : View} {cell : List Int}
    (hcell : s.cellAt v = some cell) (hlen : s.maxCellPatchNum < cell.length) :
    ¬ CellsBounded s := by
  intro hb
  unfold cellAt cellAtOf at hcell
  cases hm : s.cellMaps[v.cam]? with
  | none => simp [hm] at hcell
  | some m =>
    simp only [hm] at hcell
    have := hb m (List.mem_iff_getElem?.2 ⟨_, hm⟩) _ _ cell hcell
    omega

/-- C12, instance: inserting `Example.fifthPatch`, which has one view, into
`Example.builtEngine`. -/
theorem insertPatch_cell_bound_witness :
    CellsBounded Example.builtEngine ∧
    Example.builtEngine.insertPatch Example.fifthPatch = some Example.insertedOnce ∧
    CellsBounded Example.insertedOnce :=
  ⟨cellsBounded_of_all _ (by decide!), eq_some_getD _ (by decide!),
    (insertPatch_cell_bound Example.builtEngine Example.insertedOnce Example.fifthPatch
      (cellsBounded_of_all _ (by decide!)) (eq_some_getD _ (by decide!))).2
      ⟨0, ⟨1, 1⟩⟩ (by decide!) (by
        intro cell hcell
        have h0 : Example.builtEngine.cellAt ⟨0, ⟨1, 1⟩⟩ = some [] := by decide!
        rw [h0] at hcell
        cases hcell
        simp)⟩

/-- C12, counterexample to the claim as stated: every cell of `Example.fullEngine` holds at most
`maxCellPatchNum = 3` ids; `insertPatch` accepts `Example.twoViewPatch`, whose second
cell has room, and afterwards the cell of its first view holds 4 ids. -/
theorem insertPatch_overfills_cell :
    CellsBounded Example.fullEngine ∧
    ∃ s', Example.fullEngine.insertPatch Example.twoViewPatch = some s' ∧
      s'.cellAt ⟨0, ⟨1, 1⟩⟩ = some [1, 2, 3, 4] ∧ ¬ CellsBounded s' :=
  ⟨cellsBounded_of_all _ (by decide!),
    (Example.fullEngine.insertPatch Example.twoViewPatch).getD Example.fullEngine,
    eq_some_getD _ (by decide!), by decide!,
    @not_cellsBounded_of_cellAt _ ⟨0, ⟨1, 1⟩⟩ [1, 2, 3, 4] (by decide!) (by decide!)⟩

end MVS

/-! ## The expansion patch center -/

namespace MVS

end MVS

/-! ## The patch distance kernel -/

namespace MVS

end MVS

/-! ## Skipping and expanding neighbour cells -/

namespace MVS

theorem skipNeighborCellLoop_iff (s : MVS) (ops : PatchOps) (p : Patch) :
    ∀ (cell : List Int), (∀ id ∈ cell, (s.getPatch id).isSome = true) →
      ∃ b, skipNeighborCellLoop s ops p cell = some b ∧
        (b = true ↔ ∃ id ∈ cell, ∃ q, s.getPatch id = some q ∧
          (q.correlation.gt (Dbl.num s.minCorrelation) = true ∨ ops.isNeighbor p q = true))
  | [], _ => ⟨false, rfl, by simp⟩
  | id :: rest, hres => by
    have hid := hres id (List.mem_cons_self _ _)
    cases hq : s.getPatch id with
    | none => rw [hq] at hid; cases hid
    | some q =>
      simp only [skipNeighborCellLoop, hq]
      by_cases h1 : q.correlation.gt (Dbl.num s.minCorrelation) = true
      · exact ⟨true, by simp [h1], by
          simp only [true_iff]
          exact ⟨id, List.mem_cons_self _ _, q, hq, Or.inl h1⟩⟩
      · by_cases h2 : ops.isNeighbor p q = true
        · exact ⟨true, by simp [h1, h2], by
            simp only [true_iff]
            exact ⟨id, List.mem_cons_self _ _, q, hq, Or.inr h2⟩⟩
        · obtain ⟨b, hb, hiff⟩ := skipNeighborCellLoop_iff s ops p rest
            fun j hj => hres j (List.mem_cons_of_mem _ hj)
          refine ⟨b, by simp [h1, h2, hb], ?_⟩
          rw [hiff]
          constructor
          · rintro ⟨j, hj, r, hr, hor⟩
            exact ⟨j, List.mem_cons_of_mem _ hj, r, hr, hor⟩
          · rintro ⟨j, hj, r, hr, hor⟩
            rcases List.mem_cons.1 hj with rfl | hj
            · rw [hq] at hr
              cases hr
              rcases hor with h | h
              · exact absurd h h1
              · exact absurd h h2
            · exact ⟨j, hj, r, hr, hor⟩

theorem skipNeighborCell_iff (s : MVS) (ops : PatchOps) (cell : List Int) (p : Patch)
    (hres : ∀ id ∈ cell, (s.getPatch id).isSome = true) :
    ∃ b, skipNeighborCell s ops cell p = some b ∧
      (b = true ↔ s.maxCellPatchNum ≤ cell.length ∨ ∃ id ∈ cell, ∃ q, s.getPatch id = some q ∧
        (q.correlation.gt (Dbl.num s.minCorrelation) = true ∨ ops.isNeighbor p q = true)) := by
  unfold skipNeighborCell
  by_cases hfull : s.maxCellPatchNum ≤ cell.length
  · exact ⟨true, by simp [hfull], by simp [hfull]⟩
  · obtain ⟨b, hb, hiff⟩ := skipNeighborCellLoop_iff s ops p cell hres
    exact ⟨b, by simp [hfull, hb], by simp [hfull, hiff]⟩

theorem insertPatch_cellSize {s s' : MVS} {p : Patch} (h : s.insertPatch p = some s') :
    s'.cellSize = s.cellSize := by
  unfold insertPatch at h
  cases hr : s.runtimeFiltering p with
  | none => simp [hr] at h
  | some b =>
    cases b with
    | false =>
      simp only [hr, Option.some.injEq] at h
      rw [← h]
    | true =>
      simp only [hr] at h
      cases hcms : insertCells s.cellSize p.id p.views s.cellMaps with
      | none => simp [hcms] at h
      | some cms =>
        simp only [hcms, Option.some.injEq] at h
        rw [← h]

theorem expandCell_cellSize {ops : PatchOps} {st st' : MVS × Nat} {cam : Camera} {parent : Patch}
    {cx cy : Int} (h : expandCell ops st cam parent cx cy = some st') :
    st'.1.cellSize = st.1.cellSize := by
  unfold expandCell at h
  cases hi : st.1.insertPatch
      (ops.newPatch st.2 (getExpansionPatchCenter st.1 cam parent cx cy) parent) with
  | none => simp [hi] at h
  | some s' =>
    simp only [hi, Option.some.injEq] at h
    subst h
    exact insertPatch_cellSize hi

theorem expandNeighborsLog_spec (ops : PatchOps) (cam : Camera) (pth : Patch) (c : Nat) :
    ∀ (ns : List (Int × Int)) (st : MVS × Nat) (log : List ExpandCall)
      (res : (MVS × Nat) × List ExpandCall),
      expandNeighborsLog ops cam pth c ns (st, log) = some res →
      expandNeighbors ops cam pth c ns st = some res.1 ∧
      res.1.1.cellSize = st.1.cellSize ∧
      ∃ new, res.2 = log ++ new ∧
        ∀ call ∈ new, (call.cx, call.cy) ∈ ns ∧ CallOk ops pth c call
  | [], st, log, res, h => by
    simp only [expandNeighborsLog, Option.some.injEq] at h
    subst h
    exact ⟨rfl, rfl, [], by simp, by simp⟩
  | n :: rest, st, log, res, h => by
    simp only [expandNeighborsLog] at h
    simp only [expandNeighbors]
    cases hm : st.1.cellMaps[c]? with
    | none => simp [hm] at h
    | some m =>
      simp only [hm] at h ⊢
      by_cases hin : m.inMap n.1 n.2 = true
      · simp only [hin, Bool.not_true, Bool.false_eq_true, if_false] at h ⊢
        cases hcell : m.getCell n.1 n.2 with
        | none => simp [hcell] at h
        | some cell =>
          simp only [hcell] at h ⊢
          cases hskip : skipNeighborCell st.1 ops cell pth with
          | none => simp [hskip] at h
          | some b =>
            cases b with
            | true =>
              simp only [hskip] at h ⊢
              obtain ⟨h1, h2, new, h3, h4⟩ := expandNeighborsLog_spec ops cam pth c rest st log res h
              exact ⟨h1, h2, new, h3, fun call hc =>
                ⟨List.mem_cons_of_mem _ (h4 call hc).1, (h4 call hc).2⟩⟩
            | false =>
              simp only [hskip] at h ⊢
              cases he : expandCell ops st cam pth n.1 n.2 with
              | none => simp [he] at h
              | some st1 =>
                simp only [he] at h ⊢
                obtain ⟨h1, h2, new, h3, h4⟩ :=
                  expandNeighborsLog_spec ops cam pth c rest st1 _ res h
                refine ⟨h1, h2.trans (expandCell_cellSize he), ⟨st.1, c, n.1, n.2⟩ :: new,
                  by simp [h3], ?_⟩
                intro call hc
                rcases List.mem_cons.1 hc with rfl | hc
                · exact ⟨List.mem_cons_self _ _, rfl, m, cell, hm, hin, hcell, hskip⟩
                · exact ⟨List.mem_cons_of_mem _ (h4 call hc).1, (h4 call hc).2⟩
      · simp only [hin, Bool.not_false, if_true] at h ⊢
        obtain ⟨h1, h2, new, h3, h4⟩ := expandNeighborsLog_spec ops cam pth c rest st log res h
        exact ⟨h1, h2, new, h3, fun call hc =>
          ⟨List.mem_cons_of_mem _ (h4 call hc).1, (h4 call hc).2⟩⟩

theorem expandViewsLog_spec (ops : PatchOps) (pth : Patch) :
    ∀ (vs : List View) (st : MVS × Nat) (log : List ExpandCall)
      (res : (MVS × Nat) × List ExpandCall),
      expandViewsLog ops pth vs (st, log) = some res →
      expandViews ops pth vs st = some res.1 ∧
      res.1.1.cellSize = st.1.cellSize ∧
      ∃ new, res.2 = log ++ new ∧
        ∀ call ∈ new, CallOk ops pth pth.refCam call ∧ ∃ v ∈ vs, v.cam = pth.refCam ∧
          Int.natAbs (call.cx - (cellOf st.1.cellSize v).1) +
            Int.natAbs (call.cy - (cellOf st.1.cellSize v).2) = 1
  | [], st, log, res, h => by
    simp only [expandViewsLog, Option.some.injEq] at h
    subst h
    exact ⟨rfl, rfl, [], by simp, by simp⟩
  | v :: vs, st, log, res, h => by
    simp only [expandViewsLog] at h
    simp only [expandViews]
    by_cases hv : v.cam = pth.refCam
    · simp only [hv, ne_eq, not_true_eq_false, if_false] at h ⊢
      cases hcam : st.1.cameras[pth.refCam]? with
      | none => simp [hcam] at h
      | some cam =>
        simp only [hcam] at h ⊢
        cases hn : expandNeighborsLog ops cam pth pth.refCam
            [((cellOf st.1.cellSize v).1 - 1, (cellOf st.1.cellSize v).2),
              ((cellOf st.1.cellSize v).1, (cellOf st.1.cellSize v).2 - 1),
              ((cellOf st.1.cellSize v).1 + 1, (cellOf st.1.cellSize v).2),
              ((cellOf st.1.cellSize v).1, (cellOf st.1.cellSize v).2 + 1)] (st, log) with
        | none => simp [hn] at h
        | some acc =>
          simp only [hn] at h
          obtain ⟨a1, a2, new1, a3, a4⟩ := expandNeighborsLog_spec ops cam pth _ _ st log acc hn
          obtain ⟨b1, b2, new2, b3, b4⟩ := expandViewsLog_spec ops pth vs acc.1 acc.2 res h
          refine ⟨by simp only [a1, b1], b2.trans a2, new1 ++ new2, by simp [b3, a3], ?_⟩
          intro call hc
          rcases List.mem_append.1 hc with hc | hc
          · obtain ⟨hmem, hok⟩ := a4 call hc
            refine ⟨hok, v, List.mem_cons_self _ _, hv, ?_⟩
            simp only [List.mem_cons, Prod.mk.injEq, List.mem_singleton, List.not_mem_nil,
              or_false] at hmem
            rcases hmem with ⟨h1, h2⟩ | ⟨h1, h2⟩ | ⟨h1, h2⟩ | ⟨h1, h2⟩ <;> omega
          · obtain ⟨hok, w, hw, hwc, hdist⟩ := b4 call hc
            rw [a2] at hdist
            exact ⟨hok, w, List.mem_cons_of_mem _ hw, hwc, hdist⟩
    · simp only [ne_eq, hv, not_false_eq_true, if_true] at h ⊢
      obtain ⟨b1, b2, new, b3, b4⟩ := expandViewsLog_spec ops pth vs st log res h
      refine ⟨b1, b2, new, b3, fun call hc => ?_⟩
      obtain ⟨hok, w, hw, hwc, hdist⟩ := b4 call hc
      exact ⟨hok, w, List.mem_cons_of_mem _ hw, hwc, hdist⟩

theorem expandNeighborsLog_fst (ops : PatchOps) (cam : Camera) (pth : Patch) (c : Nat) :
    ∀ (ns : List (Int × Int)) (st : MVS × Nat) (log : List ExpandCall),
      (expandNeighborsLog ops cam pth c ns (st, log)).map Prod.fst =
        expandNeighbors ops cam pth c ns st
  | [], st, log => rfl
  | n :: rest, st, log => by
    simp only [expandNeighborsLog, expandNeighbors]
    cases hm : st.1.cellMaps[c]? with
    | none => rfl
    | some m =>
      simp only
      by_cases hin : m.inMap n.1 n.2 = true
      · simp only [hin, Bool.not_true, Bool.false_eq_true, if_false]
        cases hcell : m.getCell n.1 n.2 with
        | none => rfl
        | some cell =>
          simp only
          cases hskip : skipNeighborCell st.1 ops cell pth with
          | none => rfl
          | some b =>
            cases b with
            | true => exact expandNeighborsLog_fst ops cam pth c rest st log
            | false =>
              simp only
              cases he : expandCell ops st cam pth n.1 n.2 with
              | none => rfl
              | some st1 => exact expandNeighborsLog_fst ops cam pth c rest st1 _
      · simp only [hin, Bool.not_false, if_true]
        exact expandNeighborsLog_fst ops cam pth c rest st log

theorem expandViewsLog_fst (ops : PatchOps) (pth : Patch) :
    ∀ (vs : List View) (st : MVS × Nat) (log : List ExpandCall),
      (expandViewsLog ops pth vs (st, log)).map Prod.fst = expandViews ops pth vs st
  | [], st, log => rfl
  | v :: vs, st, log => by
    simp only [expandViewsLog, expandViews]
    by_cases hv : v.cam = pth.refCam
    · simp only [hv, ne_eq, not_true_eq_false, if_false]
      cases hcam : st.1.cameras[pth.refCam]? with
      | none => rfl
      | some cam =>
        simp only
        rw [← expandNeighborsLog_fst ops cam pth pth.refCam _ st log]
        cases hn : expandNeighborsLog ops cam pth pth.refCam
            [((cellOf st.1.cellSize v).1 - 1, (cellOf st.1.cellSize v).2),
              ((cellOf st.1.cellSize v).1, (cellOf st.1.cellSize v).2 - 1),
              ((cellOf st.1.cellSize v).1 + 1, (cellOf st.1.cellSize v).2),
              ((cellOf st.1.cellSize v).1, (cellOf st.1.cellSize v).2 + 1)] (st, log) with
        | none => rfl
        | some acc => exact expandViewsLog_fst ops pth vs acc.1 acc.2
    · simp only [ne_eq, hv, not_false_eq_true, if_true]
      exact expandViewsLog_fst ops pth vs st log

/-- C16: `skipNeighborCell(cell, p)` returns true if and only if the cell holds at least
`maxCellPatchNum` ids, or some patch of the cell has a correlation above `minCorrelation`,
or some patch of the cell is a neighbour of `p`; and every call of `expandCell` made by
`expandNeighborCell` is for the reference camera of `p`, for a cell inside the map that
`skipNeighborCell` did not skip and that is a 4-connected neighbour of the cell of a view
of `p` in its reference camera. -/
theorem skipNeighborCell_and_expandCell_calls (s : MVS) (ops : PatchOps) (cell : List Int)
    (p : Patch) (st : MVS × Nat) :
    ((∀ id ∈ cell, (s.getPatch id).isSome = true) →
      ∃ b, skipNeighborCell s ops cell p = some b ∧
        (b = true ↔ s.maxCellPatchNum ≤ cell.length ∨
          ∃ id ∈ cell, ∃ q, s.getPatch id = some q ∧
            (q.correlation.gt (Dbl.num s.minCorrelation) = true ∨
              ops.isNeighbor p q = true))) ∧
    (expandNeighborCellLog ops st p).map Prod.fst = expandNeighborCell ops st p ∧
    ∀ res, expandNeighborCellLog ops st p = some res → ∀ call ∈ res.2,
      call.cam = p.refCam ∧
      (∃ m c, call.mvs.cellMaps[p.refCam]? = some m ∧ m.inMap call.cx call.cy = true ∧
        m.getCell call.cx call.cy = some c ∧ skipNeighborCell call.mvs ops c p = some false) ∧
      ∃ v ∈ p.views, v.cam = p.refCam ∧
        Int.natAbs (call.cx - (cellOf st.1.cellSize v).1) +
          Int.natAbs (call.cy - (cellOf st.1.cellSize v).2) = 1 := by
  refine ⟨skipNeighborCell_iff s ops cell p, expandViewsLog_fst ops p p.views st [], ?_⟩
  intro res hres call hcall
  obtain ⟨-, -, new, hnew, hcalls⟩ := expandViewsLog_spec ops p p.views st [] res hres
  rw [hnew, List.nil_append] at hcall
  obtain ⟨hok, hview⟩ := hcalls call hcall
  exact ⟨hok.1, hok.2, hview⟩

/-- C16, instance: in `Example.seedBuilt` the cell `[0]` of the seed is skipped (the correlation
of the seed is above `minCorrelation`), and expanding the seed calls `expandCell` for the
cells `(1, 0)` and `(0, 1)` of camera 0, the two neighbours inside the `2 × 2` map. -/
theorem skipNeighborCell_and_expandCell_calls_witness :
    (∀ id ∈ [(0 : Int)], (Example.seedBuilt.getPatch id).isSome = true) ∧
    skipNeighborCell Example.seedBuilt Example.ops [0] (Example.patchAt 0 ⟨1, 1, 1⟩) =
      some true ∧
    expandNeighborCellLog Example.ops (Example.seedBuilt, 0) (Example.patchAt 0 ⟨1, 1, 1⟩) =
      some Example.seedExpandedLog ∧
    (Example.seedExpandedLog.2.map fun call => (call.cam, call.cx, call.cy)) =
      [(0, 1, 0), (0, 0, 1)] ∧
    ∀ call ∈ Example.seedExpandedLog.2,
      call.cam = (Example.patchAt 0 ⟨1, 1, 1⟩).refCam ∧
      (∃ m c, call.mvs.cellMaps[(Example.patchAt 0 ⟨1, 1, 1⟩).refCam]? = some m ∧
        m.inMap call.cx call.cy = true ∧ m.getCell call.cx call.cy = some c ∧
        skipNeighborCell call.mvs Example.ops c (Example.patchAt 0 ⟨1, 1, 1⟩) = some false) ∧
      ∃ v ∈ (Example.patchAt 0 ⟨1, 1, 1⟩).views, v.cam = (Example.patchAt 0 ⟨1, 1, 1⟩).refCam ∧
        Int.natAbs (call.cx - (cellOf Example.seedBuilt.cellSize v).1) +
          Int.natAbs (call.cy - (cellOf Example.seedBuilt.cellSize v).2) = 1 :=
  ⟨by decide!, by decide!, eq_some_getD _ (by decide!), by decide!,
    (skipNeighborCell_and_expandCell_calls Example.seedBuilt Example.ops [0]
      (Example.patchAt 0 ⟨1, 1, 1⟩) (Example.seedBuilt, 0)).2.2 _ (eq_some_getD _ (by decide!))⟩

end MVS

/-! ## The neighbour-cell filter -/

namespace MVS

theorem perm9 {α : Type} (a b c d e f g h i : α) :
    [e, a, g, c, i, h, f, b, d].Perm [a, b, c, d, e, f, g, h, i] := by
  have hp : [4, 0, 6, 2, 8, 7, 5, 1, 3].Perm (List.range 9) := by decide
  have := hp.map fun k : Nat => [a, b, c, d, e, f, g, h, i].getD k a
  simpa [List.range, List.range.loop] using this

theorem neighborCells9_perm (x y : Int) : (neighborCells9 x y).Perm (block3x3 x y) := by
  simp only [neighborCells9, block3x3, List.flatMap_cons, List.flatMap_nil, List.map_cons,
    List.map_nil, List.cons_append, List.nil_append, List.append_nil]
  exact perm9 _ _ _ _ _ _ _ _ _

theorem block3x3_nodup (x y : Int) : (block3x3 x y).Nodup := by
  simp only [block3x3, List.flatMap_cons, List.flatMap_nil, List.map_cons,
    List.map_nil, List.cons_append, List.nil_append, List.append_nil]
  simp only [List.nodup_cons, List.mem_cons, Prod.mk.injEq, List.mem_singleton,
    List.not_mem_nil, List.nodup_nil, not_or, not_and, or_false, and_true, not_false_eq_true]
  refine ⟨?_, ?_, ?_, ?_, ?_, ?_, ?_, ?_⟩ <;> (try refine ⟨?_, ?_⟩) <;> (try refine ⟨?_, ?_⟩) <;>
    (try refine ⟨?_, ?_⟩) <;> (try refine ⟨?_, ?_⟩) <;> (try refine ⟨?_, ?_⟩) <;>
    (try refine ⟨?_, ?_⟩) <;> (try refine ⟨?_, ?_⟩) <;> intros <;> omega


theorem idsOfCells_cons (m : CellMap) (n : Int × Int) (cells : List (Int × Int)) :
    idsOfCells m (n :: cells) =
      if m.inMap n.1 n.2 = true then m.cells n.1 n.2 ++ idsOfCells m cells
      else idsOfCells m cells := by
  unfold idsOfCells
  by_cases h : m.inMap n.1 n.2 = true
  · simp [List.filter_cons, h]
  · simp [List.filter_cons, h]

theorem idsOfCells_perm (m : CellMap) {l1 l2 : List (Int × Int)} (h : l1.Perm l2) :
    (idsOfCells m l1).Perm (idsOfCells m l2) := by
  unfold idsOfCells
  exact List.Perm.flatMap_right _ (h.filter _)

theorem countNeighborPatches_spec (s : MVS) (ops : PatchOps) (c : Patch) :
    ∀ (cell : List Int) (num : Int), (∀ id ∈ cell, (s.getPatch id).isSome = true) →
      countNeighborPatches s ops c cell num =
        some (num + (cell.countP (isNeighborId s ops c) : Nat))
  | [], num, _ => by simp [countNeighborPatches]
  | id :: rest, num, hres => by
    have hid := hres id (List.mem_cons_self _ _)
    cases hq : s.getPatch id with
    | none => rw [hq] at hid; cases hid
    | some q =>
      simp only [countNeighborPatches, hq]
      rw [countNeighborPatches_spec s ops c rest _ fun j hj => hres j (List.mem_cons_of_mem _ hj)]
      simp only [List.countP_cons, isNeighborId, hq]
      by_cases hn : ops.isNeighbor c q = true
      · simp [hn]; omega
      · simp [hn]

theorem tallyNeighborCells_spec (s : MVS) (ops : PatchOps) (m : CellMap) (c : Patch) :
    ∀ (cells : List (Int × Int)) (sum num : Int),
      (∀ id ∈ idsOfCells m cells, (s.getPatch id).isSome = true) →
      tallyNeighborCells s ops m c cells (sum, num) =
        some (sum + ((idsOfCells m cells).length : Nat),
          num + ((idsOfCells m cells).countP (isNeighborId s ops c) : Nat))
  | [], sum, num, _ => by simp [tallyNeighborCells, idsOfCells]
  | n :: rest, sum, num, hres => by
    rw [idsOfCells_cons] at hres ⊢
    simp only [tallyNeighborCells]
    by_cases hin : m.inMap n.1 n.2 = true
    · simp only [hin, if_true, Bool.not_true, Bool.false_eq_true, if_false] at hres ⊢
      have hcell : m.getCell n.1 n.2 = some (m.cells n.1 n.2) := by simp [CellMap.getCell, hin]
      simp only [hcell]
      rw [countNeighborPatches_spec s ops c _ num fun j hj => hres j (List.mem_append_left _ hj)]
      simp only
      rw [tallyNeighborCells_spec s ops m c rest _ _ fun j hj => hres j (List.mem_append_right _ hj)]
      simp only [List.length_append, List.countP_append, Nat.cast_add]
      congr 2 <;> ring
    · simp only [hin, if_false, Bool.not_false, if_true, Bool.false_eq_true] at hres ⊢
      exact tallyNeighborCells_spec s ops m c rest sum num hres

theorem markCenterCell_spec (s : MVS) (ops : PatchOps) (ratio : ℚ) (m : CellMap) (x y : Int)
    (hnb : ∀ id ∈ idsOfCells m (block3x3 x y), (s.getPatch id).isSome = true) :
    ∀ (cell removeIdx : List Int), (∀ id ∈ cell, (s.getPatch id).isSome = true) →
      markCenterCell s ops ratio m x y cell removeIdx =
        some (removeIdx ++ cell.filter (lowRatio s ops ratio m x y))
  | [], removeIdx, _ => by simp [markCenterCell]
  | id :: rest, removeIdx, hres => by
    have hid := hres id (List.mem_cons_self _ _)
    have hperm := idsOfCells_perm m (neighborCells9_perm x y)
    cases hq : s.getPatch id with
    | none => rw [hq] at hid; cases hid
    | some c =>
      have hcid : c.id = id := (PatchMap.find_some_id hq).1
      simp only [markCenterCell, hq]
      rw [tallyNeighborCells_spec s ops m c _ 0 0 fun j hj => hnb j (hperm.subset hj)]
      simp only [zero_add]
      rw [markCenterCell_spec s ops ratio m x y hnb rest _
        fun j hj => hres j (List.mem_cons_of_mem _ hj)]
      have htest : belowRatio
          ((idsOfCells m (neighborCells9 x y)).countP (isNeighborId s ops c) : Nat)
          ((idsOfCells m (neighborCells9 x y)).length : Nat) ratio =
          lowRatio s ops ratio m x y id := by
        simp only [belowRatio, lowRatio, hq, hperm.length_eq, hperm.countP_eq,
          Int.cast_natCast, ne_eq, Nat.cast_eq_zero]
      rw [htest, List.filter_cons]
      by_cases hf : lowRatio s ops ratio m x y id = true
      · simp [hf, hcid]
      · simp [hf]


theorem mem_neighborCells9 (x y a b : Int) :
    (a, b) ∈ neighborCells9 x y ↔ x - 1 ≤ a ∧ a ≤ x + 1 ∧ y - 1 ≤ b ∧ b ≤ y + 1 := by
  simp only [neighborCells9, List.mem_cons, Prod.mk.injEq, List.mem_nil_iff, or_false,
    List.mem_singleton]
  constructor
  · intro h; omega
  · intro h; omega

theorem cell_subset_idsOfCells (m : CellMap) (x y : Int) (cell : List Int)
    (hc : m.getCell x y = some cell) : ∀ id ∈ cell, id ∈ idsOfCells m (block3x3 x y) := by
  intro id hid
  unfold CellMap.getCell at hc
  by_cases hin : m.inMap x y = true
  · simp only [hin, if_true, Option.some.injEq] at hc
    subst hc
    simp only [idsOfCells, List.mem_flatMap, List.mem_filter]
    refine ⟨(x, y), ⟨?_, hin⟩, hid⟩
    simp [block3x3]
  · simp [hin] at hc

end MVS

/-! ## The visibility filter -/

namespace MVS

theorem closerInCell_spec (norm : Vec3d → ℚ) (s : MVS) (pth : Patch) (cam : Camera) :
    ∀ cell : List Int, (∀ id ∈ cell, (s.getPatch id).isSome = true) →
      closerInCell norm s pth cam (norm (pth.center.sub cam.center)) cell =
        some (!cell.all fun id => decide (id = pth.id) || !closerId norm s pth cam id)
  | [], _ => by simp [closerInCell]
  | id :: rest, hres => by
    have ih := closerInCell_spec norm s pth cam rest fun j hj => hres j (List.mem_cons_of_mem _ hj)
    have hid := hres id (List.mem_cons_self _ _)
    cases hq : s.getPatch id with
    | none => rw [hq] at hid; cases hid
    | some q =>
      by_cases he : id = pth.id
      · simp only [closerInCell, he, if_true, ih, List.all_cons, decide_True, Bool.true_or,
          Bool.true_and]
      · have hcl : closerId norm s pth cam id =
            decide (norm (q.center.sub cam.center) < norm (pth.center.sub cam.center)) := by
          simp only [closerId, hq]
        simp only [closerInCell, he, if_false, hq, List.all_cons, decide_False, Bool.false_or,
          hcl, gt_iff_lt]
        by_cases hc : norm (q.center.sub cam.center) < norm (pth.center.sub cam.center)
        · simp [hc]
        · simp only [hc, if_false, ih, decide_False, Bool.not_false, Bool.true_and]

theorem countVisible_spec (norm : Vec3d → ℚ) (s : MVS) (pth : Patch) :
    ∀ (vs : List View) (k : Int),
      (∀ v ∈ vs, (s.getCamera v.cam).isSome = true ∧ ∃ cell, s.cellAt v = some cell ∧
        ∀ id ∈ cell, (s.getPatch id).isSome = true) →
      countVisible norm s pth vs k =
        some (k - vs.length + ((vs.countP (unoccluded norm s pth) : Nat) : Int))
  | [], k, _ => by simp [countVisible]
  | v :: rest, k, h => by
    obtain ⟨hcam, cell, hcell, hres⟩ := h v (List.mem_cons_self _ _)
    cases hc : s.getCamera v.cam with
    | none => rw [hc] at hcam; cases hcam
    | some cam =>
      simp only [countVisible, hc, hcell, closerInCell_spec norm s pth cam cell hres]
      rw [countVisible_spec norm s pth rest _ fun w hw => h w (List.mem_cons_of_mem _ hw)]
      have hu : unoccluded norm s pth v =
          cell.all fun id => decide (id = pth.id) || !closerId norm s pth cam id := by
        simp only [unoccluded, hc, hcell]
      rw [List.countP_cons, hu]
      cases hall : (cell.all fun id => decide (id = pth.id) || !closerId norm s pth cam id)
      · simp only [Bool.not_false, if_true, List.length_cons, Nat.cast_add, Nat.cast_one,
          Bool.false_eq_true, if_false, Nat.add_zero]
        congr 1; ring
      · simp only [Bool.not_true, Bool.false_eq_true, if_false, List.length_cons, Nat.cast_add,
          Nat.cast_one, if_true]
        congr 1; ring

theorem shrunk_refl (s : MVS) : Shrunk s s :=
  ⟨rfl, rfl, fun _ => Or.inr rfl, fun _ cell h => ⟨cell, h, fun _ hi => hi⟩⟩

theorem shrunk_trans {a b c : MVS} (h1 : Shrunk a b) (h2 : Shrunk b c) : Shrunk a c := by
  refine ⟨h2.cameras.trans h1.cameras, h2.minCamNum.trans h1.minCamNum, fun i => ?_,
    fun v cell2 hc => ?_⟩
  · rcases h2.patches i with h | h
    · exact Or.inl h
    · rcases h1.patches i with h' | h'
      · exact Or.inl (h.trans h')
      · exact Or.inr (h.trans h')
  · obtain ⟨cell1, hc1, hsub1⟩ := h2.cells v cell2 hc
    obtain ⟨cell0, hc0, hsub0⟩ := h1.cells v cell1 hc1
    exact ⟨cell0, hc0, fun i hi => hsub0 i (hsub1 i hi)⟩

theorem deletePatch_shrunk {s : MVS} (hs : WellFormed s) (id : Int) :
    ∃ s', s.deletePatch id = some s' ∧ Shrunk s s' ∧
      s'.cellMaps.length = s.cellMaps.length ∧
      ∀ j, s'.getPatch j = if j = id then none else s.getPatch j := by
  unfold deletePatch
  cases hf : PatchMap.find s.patches id with
  | none =>
    refine ⟨s, rfl, shrunk_refl s, rfl, fun j => ?_⟩
    by_cases hj : j = id
    · simp only [hj, if_true]; exact hf
    · simp only [hj, if_false]
  | some q =>
    have hq := PatchMap.find_some_id hf
    have hfind : ∀ j, PatchMap.find (PatchMap.erase s.patches id) j =
        if j = id then none else PatchMap.find s.patches j :=
      PatchMap.find_erase _ hs.keys_nodup id
    have hpat : ∀ i, PatchMap.find (PatchMap.erase s.patches id) i = none ∨
        PatchMap.find (PatchMap.erase s.patches id) i = PatchMap.find s.patches i := by
      intro i
      rw [hfind i]
      by_cases hi : i = id
      · exact Or.inl (by simp only [hi, if_true])
      · exact Or.inr (by simp only [hi, if_false])
    by_cases he : s.cellMaps.isEmpty = true
    · simp only [he, if_true]
      exact ⟨_, rfl, ⟨rfl, rfl, hpat, fun _ cell h => ⟨cell, h, fun _ hi => hi⟩⟩, rfl, hfind⟩
    · simp only [he, if_false, Bool.false_eq_true]
      obtain ⟨cms, hcms⟩ := dropCells_total s.cellSize q.id q.views s.cellMaps
        (hs.in_range q hq.2)
      obtain ⟨hshape, hcells⟩ := dropCells_spec s.cellSize q.id q.views s.cellMaps cms hcms
      simp only [hcms]
      refine ⟨_, rfl, ⟨rfl, rfl, hpat, fun v cell2 hc => ?_⟩, hshape.length_eq, hfind⟩
      simp only [cellAt, cellAtOf] at hc ⊢
      cases hm2 : cms[v.cam]? with
      | none => simp [hm2] at hc
      | some m2 =>
        simp only [hm2] at hc
        obtain ⟨m, hm, hw, hh⟩ := hshape.symm.get hm2
        obtain ⟨hin2, hcell2⟩ := getCell_eq_some hc
        have hin : m.inMap (cellOf s.cellSize v).1 (cellOf s.cellSize v).2 = true := by
          simpa [CellMap.inMap, hw, hh] using hin2
        refine ⟨m.cells (cellOf s.cellSize v).1 (cellOf s.cellSize v).2, ?_, fun i hi => ?_⟩
        · simp [hm, CellMap.getCell, hin]
        · subst hcell2
          have hcount := hcells v.cam m m2 hm hm2 (cellOf s.cellSize v).1 (cellOf s.cellSize v).2 i
          have hpos : 0 < (m2.cells (cellOf s.cellSize v).1 (cellOf s.cellSize v).2).count i :=
            List.count_pos_iff.2 hi
          exact List.count_pos_iff.1 (by omega)

theorem unoccluded_shrunk (norm : Vec3d → ℚ) {s t : MVS} (h : Shrunk s t) (pth : Patch) (v : View)
    (hv : (t.cellAt v).isSome = true) (hu : unoccluded norm s pth v = true) :
    unoccluded norm t pth v = true := by
  unfold unoccluded at hu ⊢
  cases hc : s.getCamera v.cam with
  | none => simp [hc] at hu
  | some cam =>
    cases hcell : s.cellAt v with
    | none => simp [hc, hcell] at hu
    | some cell =>
      cases hcell2 : t.cellAt v with
      | none => rw [hcell2] at hv; cases hv
      | some cell2 =>
        have hc2 : t.getCamera v.cam = some cam := by
          simp only [getCamera, h.cameras] at hc ⊢; exact hc
        obtain ⟨cell0, hcell0, hsub⟩ := h.cells v cell2 hcell2
        rw [hcell] at hcell0
        cases hcell0
        simp only [hc, hcell, List.all_eq_true, Bool.or_eq_true, decide_eq_true_eq,
          Bool.not_eq_true'] at hu
        simp only [hc2, List.all_eq_true, Bool.or_eq_true, decide_eq_true_eq, Bool.not_eq_true']
        intro i hi
        rcases hu i (hsub i hi) with h1 | h1
        · exact Or.inl h1
        · right
          unfold closerId at h1 ⊢
          rcases h.patches i with h2 | h2
          · rw [h2]
          · rw [h2]; exact h1

theorem visibility_pre {s : MVS} (hs : WellFormed s)
    (hlen : s.cellMaps.length ≤ s.cameras.length) {pth : Patch}
    (hp : s.getPatch pth.id = some pth) :
    ∀ v ∈ pth.views, (s.getCamera v.cam).isSome = true ∧ ∃ cell, s.cellAt v = some cell ∧
      ∀ id ∈ cell, (s.getPatch id).isSome = true := by
  intro v hv
  have hmem := (PatchMap.find_some_id hp).2
  have hr := hs.in_range pth hmem v hv
  obtain ⟨m, hm, hin⟩ := (cellAtOf_isSome_iff _ _ _).1 hr
  have hlt : v.cam < s.cellMaps.length := (List.getElem?_eq_some_iff.1 hm).1
  refine ⟨?_, m.cells (cellOf s.cellSize v).1 (cellOf s.cellSize v).2, ?_, fun id hid => ?_⟩
  · have : v.cam < s.cameras.length := by omega
    simp [getCamera, List.getElem?_eq_getElem this]
  · simp [cellAt, cellAtOf, hm, CellMap.getCell, hin]
  · have hmm : m ∈ s.cellMaps := List.getElem?_mem hm
    have hk := (wellFormed_consistent hs).2 m hmm (cellOf s.cellSize v).1 (cellOf s.cellSize v).2
      _ (by simp [CellMap.getCell, hin]) id hid
    cases hg : s.getPatch id with
    | none => exact absurd hk ((PatchMap.find_eq_none_iff _ _).1 hg)
    | some q => rfl

theorem countVisible_eq (norm : Vec3d → ℚ) {s : MVS} (hs : WellFormed s)
    (hlen : s.cellMaps.length ≤ s.cameras.length) {pth : Patch}
    (hp : s.getPatch pth.id = some pth) :
    countVisible norm s pth pth.views pth.getCameraNumber =
      some ((pth.views.countP (unoccluded norm s pth) : Nat) : Int) := by
  rw [countVisible_spec norm s pth pth.views _ (visibility_pre hs hlen hp)]
  simp [Patch.getCameraNumber]

theorem visibilityLoop_append (norm : Vec3d → ℚ) :
    ∀ (l1 l2 : List Patch) (s : MVS),
      visibilityLoop norm (l1 ++ l2) s = (visibilityLoop norm l1 s).bind (visibilityLoop norm l2)
  | [], l2, s => by simp [visibilityLoop]
  | p :: l1, l2, s => by
    simp only [List.cons_append, visibilityLoop]
    cases countVisible norm s p p.views p.getCameraNumber with
    | none => rfl
    | some n =>
      simp only
      by_cases hn : n < s.minCamNum
      · simp only [hn, if_true]
        cases s.deletePatch p.id with
        | none => rfl
        | some s1 => exact visibilityLoop_append norm l1 l2 s1
      · simp only [hn, if_false]
        exact visibilityLoop_append norm l1 l2 s

theorem visibilityLoop_spec (norm : Vec3d → ℚ) :
    ∀ (ps : List Patch) (s : MVS), WellFormed s → s.cellMaps.length ≤ s.cameras.length →
      (ps.map Patch.id).Nodup → (∀ q ∈ ps, s.getPatch q.id = some q) →
      ∃ s', visibilityLoop norm ps s = some s' ∧ WellFormed s' ∧
        s'.cellMaps.length = s.cellMaps.length ∧ Shrunk s s' ∧
        ∀ i, i ∉ ps.map Patch.id → s'.getPatch i = s.getPatch i
  | [], s, hs, _, _, _ => ⟨s, rfl, hs, rfl, shrunk_refl s, fun _ _ => rfl⟩
  | p :: rest, s, hs, hlen, hnd, hres => by
    have hp := hres p (List.mem_cons_self _ _)
    rw [List.map_cons, List.nodup_cons] at hnd
    simp only [visibilityLoop, countVisible_eq norm hs hlen hp]
    by_cases hn : ((p.views.countP (unoccluded norm s p) : Nat) : Int) < s.minCamNum
    · simp only [hn, if_true]
      obtain ⟨s1, hdel, hsh, hl1, hget⟩ := deletePatch_shrunk hs p.id
      have hs1 := wellFormed_deletePatch hs hdel
      simp only [hdel]
      have hres1 : ∀ q ∈ rest, s1.getPatch q.id = some q := by
        intro q hq
        have hne : q.id ≠ p.id := fun he => hnd.1 (he ▸ List.mem_map_of_mem _ hq)
        rw [hget, if_neg hne]
        exact hres q (List.mem_cons_of_mem _ hq)
      obtain ⟨s2, hrun, hs2, hl2, hsh2, hkeep⟩ := visibilityLoop_spec norm rest s1 hs1
        (by rw [hl1, hsh.cameras]; exact hlen) hnd.2 hres1
      refine ⟨s2, hrun, hs2, hl2.trans hl1, shrunk_trans hsh hsh2, fun i hi => ?_⟩
      simp only [List.map_cons, List.mem_cons, not_or] at hi
      rw [hkeep i hi.2, hget, if_neg hi.1]
    · simp only [hn, if_false]
      obtain ⟨s2, hrun, hs2, hl2, hsh2, hkeep⟩ := visibilityLoop_spec norm rest s hs hlen hnd.2
        fun q hq => hres q (List.mem_cons_of_mem _ hq)
      refine ⟨s2, hrun, hs2, hl2, hsh2, fun i hi => ?_⟩
      simp only [List.map_cons, List.mem_cons, not_or] at hi
      exact hkeep i hi.2

/-- C18: on a well-formed engine with a camera for every cell map, `visibilityFiltering`
returns, and for every patch `pth` of the patch map, with `t` the state at the moment `pth` is
examined (after the loop has passed the entries before it), `pth` is missing from the final
patch map iff the number of its views in which no other patch of the cell is strictly closer
to the camera center, counted in `t`, is below `minCamNum`; otherwise it is still stored
unchanged.  In particular a patch with at least `minCamNum` views that is nearest or tied in
all of its cells, in `t` or already in the initial state, is kept. -/
theorem visibilityFiltering_deletes_iff (norm : Vec3d → ℚ) (s : MVS) (pre rest : List Patch)
    (pth : Patch) (hs : WellFormed s) (hlen : s.cellMaps.length ≤ s.cameras.length)
    (hp : s.patches = pre ++ pth :: rest) :
    ∃ t s', visibilityLoop norm pre s = some t ∧ visibilityFiltering norm s = some s' ∧
      t.getPatch pth.id = some pth ∧
      (s'.getPatch pth.id = none ↔
        ((pth.views.countP (unoccluded norm t pth) : Nat) : Int) < s.minCamNum) ∧
      (s'.getPatch pth.id = none ∨ s'.getPatch pth.id = some pth) ∧
      (s.minCamNum ≤ pth.getCameraNumber →
        ((∀ v ∈ pth.views, unoccluded norm t pth v = true) ∨
          (∀ v ∈ pth.views, unoccluded norm s pth v = true)) →
        s'.getPatch pth.id = some pth) := by
  have hnd : ((pre ++ pth :: rest).map Patch.id).Nodup := by
    rw [← hp]; exact hs.keys_nodup
  have hres : ∀ q ∈ pre ++ pth :: rest, s.getPatch q.id = some q := by
    intro q hq
    rw [← hp] at hq
    exact PatchMap.find_of_mem hs.keys_nodup hq
  rw [List.map_append, List.nodup_append] at hnd
  obtain ⟨hnd1, hnd2, hdisj⟩ := hnd
  obtain ⟨t, hpre, ht, hlt, hsh, hkeep⟩ := visibilityLoop_spec norm pre s hs hlen hnd1
    fun q hq => hres q (List.mem_append_left _ hq)
  have hrest : ∀ q ∈ pth :: rest, t.getPatch q.id = some q := by
    intro q hq
    rw [hkeep q.id fun hin => hdisj hin (List.mem_map_of_mem _ hq)]
    exact hres q (List.mem_append_right _ hq)
  have hlen' : t.cellMaps.length ≤ t.cameras.length := by rw [hlt, hsh.cameras]; exact hlen
  obtain ⟨s', hrun, hs', -, -, hkeep'⟩ := visibilityLoop_spec norm (pth :: rest) t ht hlen' hnd2
    hrest
  have hpt := hrest pth (List.mem_cons_self _ _)
  have hfull : visibilityFiltering norm s = some s' := by
    rw [visibilityFiltering, hp, visibilityLoop_append, hpre]
    exact hrun
  rw [List.map_cons, List.nodup_cons] at hnd2
  have hcases : (((pth.views.countP (unoccluded norm t pth) : Nat) : Int) < s.minCamNum ∧
        s'.getPatch pth.id = none) ∨
      (¬ ((pth.views.countP (unoccluded norm t pth) : Nat) : Int) < s.minCamNum ∧
        s'.getPatch pth.id = some pth) := by
    simp only [visibilityLoop, countVisible_eq norm ht hlen' hpt, hsh.minCamNum] at hrun
    by_cases hn : ((pth.views.countP (unoccluded norm t pth) : Nat) : Int) < s.minCamNum
    · left
      refine ⟨hn, ?_⟩
      simp only [hn, if_true] at hrun
      obtain ⟨t1, hdel, hsh1, hl1, hget⟩ := deletePatch_shrunk ht pth.id
      have ht1 := wellFormed_deletePatch ht hdel
      simp only [hdel] at hrun
      have hres1 : ∀ q ∈ rest, t1.getPatch q.id = some q := by
        intro q hq
        have hne : q.id ≠ pth.id := fun he => hnd2.1 (he ▸ List.mem_map_of_mem _ hq)
        rw [hget, if_neg hne]
        exact hrest q (List.mem_cons_of_mem _ hq)
      obtain ⟨s2, hrun2, -, -, -, hkeep2⟩ := visibilityLoop_spec norm rest t1 ht1
        (by rw [hl1, hsh1.cameras]; exact hlen') hnd2.2 hres1
      rw [hrun2] at hrun
      cases hrun
      rw [hkeep2 pth.id hnd2.1, hget, if_pos rfl]
    · right
      refine ⟨hn, ?_⟩
      simp only [hn, if_false] at hrun
      obtain ⟨s2, hrun2, -, -, -, hkeep2⟩ := visibilityLoop_spec norm rest t ht hlen' hnd2.2
        fun q hq => hrest q (List.mem_cons_of_mem _ hq)
      rw [hrun2] at hrun
      cases hrun
      rw [hkeep2 pth.id hnd2.1, hpt]
  refine ⟨t, s', hpre, hfull, hpt, ?_, ?_, ?_⟩
  · rcases hcases with ⟨hn, hg⟩ | ⟨hn, hg⟩
    · exact ⟨fun _ => hn, fun _ => hg⟩
    · exact ⟨fun h => (by rw [hg] at h; cases h), fun h => absurd h hn⟩
  · rcases hcases with ⟨-, hg⟩ | ⟨-, hg⟩
    · exact Or.inl hg
    · exact Or.inr hg
  · intro hmin hall
    have hall' : ∀ v ∈ pth.views, unoccluded norm t pth v = true := by
      rcases hall with h | h
      · exact h
      · intro v hv
        exact unoccluded_shrunk norm hsh pth v
          (ht.in_range pth (PatchMap.find_some_id hpt).2 v hv) (h v hv)
    rcases hcases with ⟨hn, -⟩ | ⟨-, hg⟩
    · exfalso
      rw [List.countP_eq_length.2 hall'] at hn
      unfold Patch.getCameraNumber at hmin
      omega
    · exact hg

theorem wellFormed_depthEngine : WellFormed Example.depthEngine :=
  @wellFormed_setCellMaps Example.depthSeeds _ (by decide!) (by decide!) (by decide!)
    (by unfold NonnegViews; decide!) (eq_some_getD _ (by decide!))

/-- C18, instance: in `Example.depthEngine` with `minCamNum = 1` the patch 1 lies behind the
patch 2 of the same cell and is deleted; the patch 2 is kept. -/
theorem visibilityFiltering_deletes_iff_witness :
    WellFormed Example.depthEngine ∧
    ∃ s', visibilityFiltering Example.normSq Example.depthEngine = some s' ∧
      s'.getPatch 1 = none ∧
      s'.getPatch 2 = some (Example.patchAt 2 ⟨1, 1, 1⟩) := by
  obtain ⟨t, s', ht, hrun, -, hiff, -, -⟩ := visibilityFiltering_deletes_iff Example.normSq
    Example.depthEngine [] [Example.patchAt 2 ⟨1, 1, 1⟩] (Example.patchAt 1 ⟨2, 2, 2⟩)
    wellFormed_depthEngine (by decide!) (by decide!)
  cases ht
  refine ⟨wellFormed_depthEngine, s', hrun, hiff.2 (by decide!), ?_⟩
  have h2 : visibilityFiltering Example.normSq Example.depthEngine =
      some ((visibilityFiltering Example.normSq Example.depthEngine).getD Example.depthEngine) :=
    eq_some_getD _ (by decide!)
  rw [h2] at hrun
  cases hrun
  decide!

end MVS

/-! ## The k-nearest-neighbour filter -/

namespace MVS

theorem deleteAll_spec : ∀ (ids : List Int) (s : MVS), WellFormed s →
    ∃ s', deleteAll s ids = some s' ∧ WellFormed s' ∧
      ∀ j, s'.getPatch j = if j ∈ ids then none else s.getPatch j
  | [], s, hs => ⟨s, rfl, hs, fun j => by simp⟩
  | id :: rest, s, hs => by
    obtain ⟨s1, hdel, -, -, hget⟩ := deletePatch_shrunk hs id
    obtain ⟨s2, hrun, hs2, hget2⟩ := deleteAll_spec rest s1 (wellFormed_deletePatch hs hdel)
    refine ⟨s2, by simp only [deleteAll, hdel, hrun], hs2, fun j => ?_⟩
    rw [hget2 j, hget j]
    by_cases h1 : j = id
    · simp [h1]
    · by_cases h2 : j ∈ rest
      · simp [h2]
      · simp [h1, h2]

theorem wellFormed_mixedEngine : WellFormed Example.mixedEngine :=
  @wellFormed_setCellMaps Example.mixedSeeds _ (by decide!) (by decide!) (by decide!)
    (by unfold NonnegViews; decide!) (eq_some_getD _ (by decide!))

end MVS

/-! ## Patch quantization -/

namespace MVS

theorem quantizeBin_center (s : MVS) (quanNormal : Vec3d) (quanDist : ℚ) :
    ∀ (ids : List Int) (calls : List QuanCall), quantizeBin s quanNormal quanDist ids = some calls →
      ∀ call ∈ calls, ∃ pth, s.getPatch call.id = some pth ∧ call.center = pth.center
  | [], calls, h, call, hc => by
    simp only [quantizeBin, Option.some.injEq] at h
    subst h
    cases hc
  | id :: rest, calls, h, call, hc => by
    unfold quantizeBin at h
    cases hp : s.getPatch id with
    | none => simp [hp] at h
    | some pth =>
      cases hr : quantizeBin s quanNormal quanDist rest with
      | none => simp [hp, hr] at h
      | some more =>
        simp only [hp, hr, Option.some.injEq] at h
        subst h
        rcases List.mem_cons.1 hc with hc | hc
        · subst hc
          exact ⟨pth, by rw [(PatchMap.find_some_id hp).1]; exact hp, rfl⟩
        · exact quantizeBin_center s quanNormal quanDist rest more hr call hc

/-- C20, on the code: with two patches and one bin per axis, `patchQuantization` hands to
`Patch::setQuantization` the centers `(0, 0, 1)` and `(0, 2, 0)` of the patches as they are,
with `quanNormal = (0, 0, 1)` and `quanDist = -2`; neither satisfies
`-quanNormal . center = quanDist`.  The projected center `projCenter`, which does satisfy it,
is computed and not handed over. -/
theorem patchQuantization_hands_unprojected_center :
    patchQuantization Example.sphericalOf Example.sphericalToNormal Example.quanEngine 1 1 1 =
      some [⟨1, ⟨0, 0, 1⟩, ⟨0, 0, 1⟩, -2, ⟨0, 0, 2⟩⟩, ⟨2, ⟨0, 2, 0⟩, ⟨0, 0, 1⟩, -2, ⟨0, 2, 2⟩⟩] ∧
    ∀ call ∈ ([⟨1, ⟨0, 0, 1⟩, ⟨0, 0, 1⟩, -2, ⟨0, 0, 2⟩⟩,
        ⟨2, ⟨0, 2, 0⟩, ⟨0, 0, 1⟩, -2, ⟨0, 2, 2⟩⟩] : List QuanCall),
      -(call.quanNormal.ddot call.center) ≠ call.quanDist ∧
      -(call.quanNormal.ddot call.projCenter) = call.quanDist := by
  decide!

end MVS

/-! ## The queue invariant of the expansion loop -/

namespace PatchMap

theorem find_setExpanded (ps : PatchMap) (i j : Int) :
    find (setExpanded ps i) j =
      (find ps j).map fun p => if j = i then p.setExpanded else p := by
  induction ps with
  | nil => simp [setExpanded, find]
  | cons q qs ih =>
    simp only [setExpanded]
    by_cases h : q.id = i
    · subst h
      simp only [if_true, find, Patch.setExpanded]
      by_cases hj : q.id = j
      · subst hj
        simp
      · have hj' : ¬ j = q.id := fun e => hj e.symm
        simp [hj, hj']
    · simp only [h, if_false, find, ih]
      by_cases hj : q.id = j
      · have hj' : ¬ j = i := fun e => h (hj.trans e)
        simp [hj, hj']
      · simp [hj]

theorem find_erase_ne (ps : PatchMap) {i j : Int} (hne : j ≠ i) :
    find (erase ps i) j = find ps j := by
  induction ps with
  | nil => simp [erase, find]
  | cons q qs ih =>
    simp only [erase]
    by_cases h : q.id = i
    · have hj : ¬ q.id = j := fun e => hne (e.symm.trans h)
      simp [h, find, hj, hne.symm]
    · simp only [h, if_false, find, ih]

theorem keys_subset_insert (ps : PatchMap) (p : Patch) {j : Int} (hj : j ∈ keys ps) :
    j ∈ keys (insert ps p) := by
  induction ps with
  | nil => simp [keys] at hj
  | cons q qs ih =>
    simp only [insert]
    by_cases h1 : p.id < q.id
    · simp only [h1, if_true, keys, List.map_cons, List.mem_cons]
      exact Or.inr (by simpa [keys] using hj)
    · by_cases h2 : p.id = q.id
      · simpa [h1, h2] using hj
      · simp only [h1, h2, if_false, keys, List.map_cons, List.mem_cons] at hj ⊢
        rcases hj with hj | hj
        · exact Or.inl hj
        · exact Or.inr (ih hj)

theorem find_isSome_iff (ps : PatchMap) (i : Int) : (find ps i).isSome = true ↔ i ∈ keys ps := by
  cases h : find ps i with
  | none => simpa using (find_eq_none_iff ps i).1 h
  | some p =>
    simp only [Option.isSome_some, true_iff]
    by_contra hc
    rw [(find_eq_none_iff ps i).2 hc] at h
    cases h

end PatchMap

namespace MVS

theorem queueResolves_initPriorityQueue (s : MVS) : QueueResolves s.initPriorityQueue := by
  intro id hid
  exact (PatchMap.find_isSome_iff _ _).2 hid

theorem getTopPriorityPatchId_resolves (s : MVS) (hq : QueueResolves s) {next : Int} {s2 : MVS}
    (h : s.getTopPriorityPatchId = some (next, s2)) :
    s2.patches = s.patches ∧
      (∀ id ∈ s2.queue, id ∈ s.queue ∧ s.unexpanded id = true) ∧
      (next = -1 ∨ (next ∈ s.queue ∧ s.unexpanded next = true)) := by
  rcases getTopPriorityPatchId_cases s hq with
    ⟨-, hclean, hstale⟩ | ⟨pre, top, post, hqueue, hret, hun, -⟩
  · by_cases hall : ∀ j ∈ s.queue, s.unexpanded j = true
    · rw [hclean hall] at h
      cases h
      exact ⟨rfl, fun id hid => ⟨hid, hall id hid⟩, Or.inl rfl⟩
    · have hex : ∃ j ∈ s.queue, s.unexpanded j = false := by
        by_contra hno
        apply hall
        intro j hj
        cases hu : s.unexpanded j with
        | true => rfl
        | false => exact absurd ⟨j, hj, hu⟩ hno
      rw [hstale hex] at h
      cases h
  · rw [hret] at h
    cases h
    refine ⟨rfl, fun id hid => ?_, Or.inr ⟨?_, hun⟩⟩
    · obtain ⟨h1, h2⟩ := List.mem_filter.1 hid
      refine ⟨?_, h2⟩
      rw [hqueue]
      rcases List.mem_append.1 h1 with h1 | h1
      · exact List.mem_append_left _ h1
      · exact List.mem_append_right _ (List.mem_cons_of_mem _ h1)
    · rw [hqueue]
      exact List.mem_append_right _ (List.mem_cons_self _ _)

theorem loop_step (s : MVS) (pthId : Int) (hq : QueueResolves s) (h0 : 0 ≤ pthId)
    {found : Patch} (hf : s.getPatch pthId = some found) {next : Int} {s2 : MVS}
    (htop : (markExpanded s pthId).getTopPriorityPatchId = some (next, s2)) :
    found.id = pthId ∧ pthId ∉ s2.queue ∧ next ≠ pthId ∧ QueueResolves s2 ∧
      (0 ≤ next → (s2.getPatch next).isSome = true) := by
  have hget : ∀ j, (markExpanded s pthId).getPatch j =
      (s.getPatch j).map fun p => if j = pthId then p.setExpanded else p :=
    fun j => PatchMap.find_setExpanded s.patches pthId j
  have hq1 : QueueResolves (markExpanded s pthId) := by
    intro id hid
    rw [hget id]
    have := hq id hid
    cases hs : s.getPatch id with
    | none => rw [hs] at this; cases this
    | some p => rfl
  have hexp : (markExpanded s pthId).unexpanded pthId = false := by
    simp [unexpanded, hget, hf, Patch.setExpanded]
  obtain ⟨hpat, hqueue, hnext⟩ := getTopPriorityPatchId_resolves _ hq1 htop
  have hget2 : ∀ j, s2.getPatch j = (markExpanded s pthId).getPatch j := by
    intro j
    unfold getPatch
    rw [hpat]
  refine ⟨(PatchMap.find_some_id hf).1, fun hin => ?_, ?_, fun id hid => ?_, fun hn => ?_⟩
  · have := (hqueue pthId hin).2
    rw [hexp] at this
    cases this
  · rcases hnext with h | ⟨-, h⟩
    · omega
    · intro he
      rw [he, hexp] at h
      cases h
  · rw [hget2]
    exact hq1 id (hqueue id hid).1
  · rcases hnext with h | ⟨h, -⟩
    · omega
    · rw [hget2]
      exact hq1 next h

theorem deletePatch_queue {s s' : MVS} {i : Int} (h : s.deletePatch i = some s') :
    s'.queue = s.queue ∧ ∀ j, j ≠ i → s'.getPatch j = s.getPatch j := by
  unfold deletePatch at h
  cases hf : PatchMap.find s.patches i with
  | none =>
    simp only [hf, Option.some.injEq] at h
    subst h
    exact ⟨rfl, fun _ _ => rfl⟩
  | some q =>
    simp only [hf] at h
    by_cases he : s.cellMaps.isEmpty = true
    · simp only [he, if_true, Option.some.injEq] at h
      subst h
      exact ⟨rfl, fun j hj => PatchMap.find_erase_ne _ hj⟩
    · simp only [he, if_false, Bool.false_eq_true] at h
      cases hcms : dropCells s.cellSize q.id q.views s.cellMaps with
      | none => simp [hcms] at h
      | some cms =>
        simp only [hcms, Option.some.injEq] at h
        subst h
        exact ⟨rfl, fun j hj => PatchMap.find_erase_ne _ hj⟩

theorem keysGrow_refl (st : MVS × Nat) : KeysGrow st st :=
  ⟨fun _ h => h, fun _ h => Or.inl h⟩

theorem keysGrow_trans {a b c : MVS × Nat} (h1 : KeysGrow a b) (h2 : KeysGrow b c) :
    KeysGrow a c := by
  refine ⟨fun id h => h2.1 id (h1.1 id h), fun id hid => ?_⟩
  rcases h2.2 id hid with h | h
  · rcases h1.2 id h with h' | h'
    · exact Or.inl h'
    · exact Or.inr (h2.1 id h')
  · exact Or.inr h

theorem insertPatch_keysGrow {s s' : MVS} {p : Patch} (c c' : Nat)
    (h : s.insertPatch p = some s') : KeysGrow (s, c) (s', c') := by
  unfold insertPatch at h
  cases hr : s.runtimeFiltering p with
  | none => simp [hr] at h
  | some b =>
    cases b with
    | false =>
      simp only [hr, Option.some.injEq] at h
      subst h
      exact ⟨fun _ h => h, fun _ h => Or.inl h⟩
    | true =>
      simp only [hr] at h
      cases hcms : insertCells s.cellSize p.id p.views s.cellMaps with
      | none => simp [hcms] at h
      | some cms =>
        simp only [hcms, Option.some.injEq] at h
        subst h
        refine ⟨fun id hid => ?_, fun id hid => ?_⟩
        · exact (PatchMap.find_isSome_iff _ _).2
            (PatchMap.keys_subset_insert _ _ ((PatchMap.find_isSome_iff _ _).1 hid))
        · rcases List.mem_append.1 hid with hid | hid
          · exact Or.inl hid
          · rw [List.mem_singleton] at hid
            subst hid
            exact Or.inr ((PatchMap.find_isSome_iff _ _).2 (PatchMap.mem_keys_insert _ _))

theorem expandCell_keysGrow {ops : PatchOps} {st st' : MVS × Nat} {cam : Camera} {parent : Patch}
    {cx cy : Int} (h : expandCell ops st cam parent cx cy = some st') : KeysGrow st st' := by
  unfold expandCell at h
  cases hi : st.1.insertPatch
      (ops.newPatch st.2 (getExpansionPatchCenter st.1 cam parent cx cy) parent) with
  | none => simp [hi] at h
  | some s' =>
    simp only [hi, Option.some.injEq] at h
    subst h
    exact insertPatch_keysGrow st.2 (st.2 + 1) hi

theorem expandNeighbors_keysGrow (ops : PatchOps) (cam : Camera) (pth : Patch) (c : Nat) :
    ∀ (ns : List (Int × Int)) (st st' : MVS × Nat),
      expandNeighbors ops cam pth c ns st = some st' → KeysGrow st st'
  | [], st, st', h => by
    simp only [expandNeighbors, Option.some.injEq] at h
    exact h ▸ keysGrow_refl st
  | n :: rest, st, st', h => by
    simp only [expandNeighbors] at h
    cases hm : st.1.cellMaps[c]? with
    | none => simp [hm] at h
    | some m =>
      simp only [hm] at h
      by_cases hin : m.inMap n.1 n.2 = true
      · simp only [hin, Bool.not_true, Bool.false_eq_true, if_false] at h
        cases hcell : m.getCell n.1 n.2 with
        | none => simp [hcell] at h
        | some cell =>
          simp only [hcell] at h
          cases hskip : skipNeighborCell st.1 ops cell pth with
          | none => simp [hskip] at h
          | some b =>
            cases b with
            | true =>
              simp only [hskip] at h
              exact expandNeighbors_keysGrow ops cam pth c rest st st' h
            | false =>
              simp only [hskip] at h
              cases he : expandCell ops st cam pth n.1 n.2 with
              | none => simp [he] at h
              | some st1 =>
                simp only [he] at h
                exact keysGrow_trans (expandCell_keysGrow he)
                  (expandNeighbors_keysGrow ops cam pth c rest st1 st' h)
      · simp only [hin, Bool.not_false, if_true] at h
        exact expandNeighbors_keysGrow ops cam pth c rest st st' h

theorem expandViews_keysGrow (ops : PatchOps) (pth : Patch) :
    ∀ (vs : List View) (st st' : MVS × Nat),
      expandViews ops pth vs st = some st' → KeysGrow st st'
  | [], st, st', h => by
    simp only [expandViews, Option.some.injEq] at h
    exact h ▸ keysGrow_refl st
  | v :: vs, st, st', h => by
    simp only [expandViews] at h
    by_cases hv : v.cam = pth.refCam
    · simp only [hv, ne_eq, not_true_eq_false, if_false] at h
      cases hcam : st.1.cameras[pth.refCam]? with
      | none => simp [hcam] at h
      | some cam =>
        simp only [hcam] at h
        cases hn : expandNeighbors ops cam pth pth.refCam
            [((cellOf st.1.cellSize v).1 - 1, (cellOf st.1.cellSize v).2),
              ((cellOf st.1.cellSize v).1, (cellOf st.1.cellSize v).2 - 1),
              ((cellOf st.1.cellSize v).1 + 1, (cellOf st.1.cellSize v).2),
              ((cellOf st.1.cellSize v).1, (cellOf st.1.cellSize v).2 + 1)] st with
        | none => simp [hn] at h
        | some st1 =>
          simp only [hn] at h
          exact keysGrow_trans (expandNeighbors_keysGrow ops cam pth _ _ st st1 hn)
            (expandViews_keysGrow ops pth vs st1 st' h)
    · simp only [ne_eq, hv, not_false_eq_true, if_true] at h
      exact expandViews_keysGrow ops pth vs st st' h

theorem expansionConfigs_ok (ops : PatchOps) :
    ∀ (fuel : Nat) (st : MVS × Nat) (pthId : Int), QueueResolves st.1 →
      (0 ≤ pthId → (st.1.getPatch pthId).isSome = true) →
      ∀ cfg ∈ expansionConfigs ops fuel st pthId, ConfigOk cfg
  | 0, st, pthId, hq, hp, cfg, hcfg => by
    simp only [expansionConfigs, List.mem_singleton] at hcfg
    subst hcfg
    exact ⟨hq, hp⟩
  | fuel + 1, st, pthId, hq, hp, cfg, hcfg => by
    simp only [expansionConfigs, List.mem_cons] at hcfg
    rcases hcfg with hcfg | hcfg
    · subst hcfg
      exact ⟨hq, hp⟩
    · by_cases hneg : pthId < 0
      · simp [hneg] at hcfg
      · simp only [hneg, if_false] at hcfg
        have h0 : 0 ≤ pthId := by omega
        cases hf : st.1.getPatch pthId with
        | none => simp [hf] at hcfg
        | some found =>
          simp only [hf] at hcfg
          cases htop : ({ st.1 with patches := PatchMap.setExpanded st.1.patches pthId } :
              MVS).getTopPriorityPatchId with
          | none => simp [htop] at hcfg
          | some r =>
            obtain ⟨next, s2⟩ := r
            simp only [htop] at hcfg
            obtain ⟨hid, hnin, hne, hq2, hnext⟩ := loop_step st.1 pthId hq h0 hf htop
            have hpid : found.setExpanded.id = pthId := hid
            cases hr : s2.runtimeFiltering found.setExpanded with
            | none => simp [hr] at hcfg
            | some b =>
              cases b with
              | false =>
                simp only [hr] at hcfg
                cases hd : s2.deletePatch found.setExpanded.id with
                | none => simp [hd] at hcfg
                | some s3 =>
                  simp only [hd] at hcfg
                  rw [hpid] at hd
                  obtain ⟨hqueue, hkeep⟩ := deletePatch_queue hd
                  refine expansionConfigs_ok ops fuel (s3, st.2) next ?_ ?_ cfg hcfg
                  · intro id hin
                    have hin2 : id ∈ s2.queue := hqueue ▸ hin
                    have hne2 : id ≠ pthId := fun he => hnin (he ▸ hin2)
                    show (s3.getPatch id).isSome = true
                    rw [hkeep id hne2]
                    exact hq2 id hin2
                  · intro hn
                    show (s3.getPatch next).isSome = true
                    rw [hkeep next hne]
                    exact hnext hn
              | true =>
                simp only [hr] at hcfg
                cases he : expandNeighborCell ops (s2, st.2) found.setExpanded with
                | none => simp [he] at hcfg
                | some st1 =>
                  simp only [he] at hcfg
                  have hg : KeysGrow (s2, st.2) st1 := expandViews_keysGrow ops _ _ _ _ he
                  refine expansionConfigs_ok ops fuel st1 next ?_ ?_ cfg hcfg
                  · intro id hin
                    rcases hg.2 id hin with h | h
                    · exact hg.1 id (hq2 id h)
                    · exact h
                  · intro hn
                    exact hg.1 next (hnext hn)

theorem getLast?_cons_of_some {α : Type} (a : α) {l : List α} {x : α}
    (h : l.getLast? = some x) : (a :: l).getLast? = some x := by
  cases l with
  | nil => cases h
  | cons b l => rw [List.getLast?_cons_cons]; exact h

theorem expansionLoop_last_config (ops : PatchOps) :
    ∀ (fuel : Nat) (st : MVS × Nat) (pthId : Int) (count saves : Nat) (res : Expansion),
      expansionLoop ops fuel st pthId count saves = some res →
      ∃ id, id < 0 ∧ (expansionConfigs ops fuel st pthId).getLast? = some (res.mvs, id)
  | 0, st, pthId, count, saves, res, h => by simp [expansionLoop] at h
  | fuel + 1, st, pthId, count, saves, res, h => by
    simp only [expansionLoop] at h
    simp only [expansionConfigs]
    by_cases hneg : pthId < 0
    · simp only [hneg, if_true, Option.some.injEq] at h
      subst h
      exact ⟨pthId, hneg, by simp [hneg]⟩
    · simp only [hneg, if_false] at h ⊢
      cases hf : st.1.getPatch pthId with
      | none => simp [hf] at h
      | some found =>
        simp only [hf] at h ⊢
        cases htop : ({ st.1 with patches := PatchMap.setExpanded st.1.patches pthId } :
            MVS).getTopPriorityPatchId with
        | none => simp [htop] at h
        | some r =>
          obtain ⟨next, s2⟩ := r
          simp only [htop] at h ⊢
          cases hr : s2.runtimeFiltering found.setExpanded with
          | none => simp [hr] at h
          | some b =>
            cases b with
            | false =>
              simp only [hr] at h ⊢
              cases hd : s2.deletePatch found.setExpanded.id with
              | none => simp [hd] at h
              | some s3 =>
                simp only [hd] at h ⊢
                obtain ⟨id, hid, hlast⟩ := expansionLoop_last_config ops fuel _ _ _ _ res h
                exact ⟨id, hid, getLast?_cons_of_some _ hlast⟩
            | true =>
              simp only [hr] at h ⊢
              cases he : expandNeighborCell ops (s2, st.2) found.setExpanded with
              | none => simp [he] at h
              | some st1 =>
                simp only [he] at h ⊢
                obtain ⟨id, hid, hlast⟩ := expansionLoop_last_config ops fuel _ _ _ _ res h
                exact ⟨id, hid, getLast?_cons_of_some _ hlast⟩

/-- Up to the first undefined access, a run of `expansionPatches` keeps the queue invariant:
in every configuration in which it reaches the test of its loop, every id held in the
priority queue is a key of the patch map, and so is `pthId` when the loop goes on; the state
in which `expansionPatches` returns is that of the last configuration. -/
theorem expansionPatchesConfigs_ok (ops : PatchOps) (fuel : Nat) (s : MVS) (created : Nat) :
    (∀ cfg ∈ expansionPatchesConfigs ops fuel s created, ConfigOk cfg) ∧
    (∀ res, expansionPatches ops fuel s created = some res →
      ∃ id, id < 0 ∧
        (expansionPatchesConfigs ops fuel s created).getLast? = some (res.mvs, id)) := by
  refine ⟨fun cfg hcfg => ?_, fun res hres => ?_⟩
  · unfold expansionPatchesConfigs at hcfg
    cases hs : s.setCellMaps with
    | none => simp [hs] at hcfg
    | some s1 =>
      simp only [hs] at hcfg
      cases htop : s1.initPriorityQueue.getTopPriorityPatchId with
      | none => simp [htop] at hcfg
      | some r =>
        obtain ⟨next, s2⟩ := r
        simp only [htop] at hcfg
        obtain ⟨hpat, hqueue, hnext⟩ :=
          getTopPriorityPatchId_resolves _ (queueResolves_initPriorityQueue s1) htop
        have hget2 : ∀ j, s2.getPatch j = s1.initPriorityQueue.getPatch j := by
          intro j
          unfold getPatch
          rw [hpat]
        refine expansionConfigs_ok ops fuel (s2, created) next ?_ ?_ cfg hcfg
        · intro id hid
          show (s2.getPatch id).isSome = true
          rw [hget2]
          exact queueResolves_initPriorityQueue s1 id (hqueue id hid).1
        · intro hn
          show (s2.getPatch next).isSome = true
          rcases hnext with h | ⟨h, -⟩
          · omega
          · rw [hget2]
            exact queueResolves_initPriorityQueue s1 next h
  · unfold expansionPatches at hres
    unfold expansionPatchesConfigs
    cases hs : s.setCellMaps with
    | none => simp [hs] at hres
    | some s1 =>
      simp only [hs] at hres ⊢
      cases htop : s1.initPriorityQueue.getTopPriorityPatchId with
      | none => simp [htop] at hres
      | some r =>
        obtain ⟨pthId, s2⟩ := r
        simp only [htop] at hres ⊢
        exact expansionLoop_last_config ops fuel _ _ _ _ res hres

/-- C21, on the code: on `Example.expandedSeed`, one camera and one seed patch that is already
marked expanded, `setCellMaps` and `initPriorityQueue` leave the queue `[0]`, whose id is a
key of the patch map.  The first `getTopPriorityPatchId()` erases that id and selects no
candidate, so that its final test compares and dereferences the iterator `topIt` taken as
`queue.end()` before the erasure: the call, and with it `pthId` and the lookup
`getPatch(pthId)` at the top of the loop, has no defined result.  Such a state is left by
`expansionPatches` itself: on `Example.coarseSeeds` a first call returns with the seed marked
expanded and the queue empty, and a second call on the state it leaves has no defined
result either. -/
theorem expansionPatches_stale_lookahead :
    (∃ s1, Example.expandedSeed.setCellMaps = some s1 ∧
      s1.initPriorityQueue.queue = [0] ∧ QueueResolves s1.initPriorityQueue ∧
      scanQueue s1.initPriorityQueue s1.initPriorityQueue.queue [] none DBL_MAX =
        some ([], none) ∧
      s1.initPriorityQueue.getTopPriorityPatchId = none ∧
      ∀ fuel, expansionPatches Example.ops fuel Example.expandedSeed 0 = none) ∧
    (expansionPatches Example.ops 10 Example.coarseSeeds 0 = some Example.coarseRun ∧
      (Example.coarseRun.mvs.patches.map fun p => (p.id, p.expanded)) = [((0 : Int), true)] ∧
      Example.coarseRun.mvs.queue = [] ∧
      ∀ fuel, expansionPatches Example.ops fuel Example.coarseRun.mvs
        Example.coarseRun.created = none) := by
  have hs := eq_some_getD Example.expandedSeed (show
    (Example.expandedSeed.setCellMaps).isSome = true by decide!)
  have htop : ((Example.expandedSeed.setCellMaps).getD
      Example.expandedSeed).initPriorityQueue.getTopPriorityPatchId = none :=
    Option.isNone_iff_eq_none.1 (by decide!)
  have hs2 := eq_some_getD Example.coarseRun.mvs (show
    (Example.coarseRun.mvs.setCellMaps).isSome = true by decide!)
  have htop2 : ((Example.coarseRun.mvs.setCellMaps).getD
      Example.coarseRun.mvs).initPriorityQueue.getTopPriorityPatchId = none :=
    Option.isNone_iff_eq_none.1 (by decide!)
  refine ⟨⟨_, hs, by decide!, queueResolves_initPriorityQueue _, by decide!, htop,
    fun fuel => ?_⟩, eq_some_getD _ (by decide!), by decide!, by decide!, fun fuel => ?_⟩
  · unfold expansionPatches
    rw [hs]
    simp only [htop]
  · unfold expansionPatches
    rw [hs2]
    simp only [htop2]

end MVS

/-! ## The denominator of the neighbour-cell ratio -/

namespace MVS

theorem mem_gridCells {w h : Nat} {x y : Int} (hm : (x, y) ∈ gridCells w h) :
    0 ≤ x ∧ x < w ∧ 0 ≤ y ∧ y < h := by
  obtain ⟨a, ha, hm1⟩ := List.mem_flatMap.1 hm
  obtain ⟨b, hb, hm2⟩ := List.mem_map.1 hm1
  have ha' := List.mem_range.1 ha
  simp only [List.bind_eq_flatMap, List.pure_def, List.mem_flatMap, List.mem_range,
    List.mem_singleton] at hb
  obtain ⟨k, hk, hkb⟩ := hb
  simp only [Prod.mk.injEq] at hm2
  omega

theorem tallyNeighborCells_sum (s : MVS) (ops : PatchOps) (m : CellMap) (c : Patch) :
    ∀ (cells : List (Int × Int)) (sum num : Int) (tally : Int × Int),
      tallyNeighborCells s ops m c cells (sum, num) = some tally →
      tally.1 = sum + ((idsOfCells m cells).length : Nat)
  | [], sum, num, tally, h => by
    simp only [tallyNeighborCells, Option.some.injEq] at h
    subst h
    simp [idsOfCells]
  | n :: rest, sum, num, tally, h => by
    rw [idsOfCells_cons]
    simp only [tallyNeighborCells] at h
    by_cases hin : m.inMap n.1 n.2 = true
    · simp only [hin, if_true, Bool.not_true, Bool.false_eq_true, if_false] at h ⊢
      have hcell : m.getCell n.1 n.2 = some (m.cells n.1 n.2) := by simp [CellMap.getCell, hin]
      simp only [hcell] at h
      cases hcnt : countNeighborPatches s ops c (m.cells n.1 n.2) num with
      | none => simp [hcnt] at h
      | some k =>
        simp only [hcnt] at h
        rw [tallyNeighborCells_sum s ops m c rest _ _ tally h]
        simp only [List.length_append, Nat.cast_add]
        ring
    · simp only [hin, if_false, Bool.not_false, if_true, Bool.false_eq_true] at h ⊢
      exact tallyNeighborCells_sum s ops m c rest sum num tally h

/-- C22: for every cell `(x, y)` ranged over by the loops of `neighborCellFiltering` the
offset `(x, y)` lies inside the map, and for every patch id held in that cell the loop over
the nine neighbour cells ends with `neighborPthSum >= 1`, whatever the center patch: the
quotient `neighborPthNum / neighborPthSum` is a division by a non-zero number, and the loop
does end when the ids of the neighbourhood resolve. -/
theorem neighborCellFiltering_denominator_pos (s : MVS) (ops : PatchOps) (m : CellMap)
    (centerPth : Patch) (x y id : Int) (hxy : (x, y) ∈ gridCells m.width m.height)
    (hid : id ∈ m.cells x y) :
    m.inMap x y = true ∧ m.getCell x y = some (m.cells x y) ∧
    (∀ tally, tallyNeighborCells s ops m centerPth (neighborCells9 x y) (0, 0) = some tally →
      1 ≤ tally.1 ∧
      ∀ neighborRatio : ℚ, belowRatio tally.2 tally.1 neighborRatio =
        decide (roundDouble ((tally.2 : ℚ) / (tally.1 : ℚ)) < neighborRatio)) ∧
    ((∀ j ∈ idsOfCells m (block3x3 x y), (s.getPatch j).isSome = true) →
      ∃ tally, tallyNeighborCells s ops m centerPth (neighborCells9 x y) (0, 0) = some tally ∧
        1 ≤ tally.1) := by
  have hin : m.inMap x y = true := by
    have := mem_gridCells hxy
    simp only [CellMap.inMap, decide_eq_true_eq]
    exact this
  have hcell : m.getCell x y = some (m.cells x y) := by simp [CellMap.getCell, hin]
  have hlen : 1 ≤ (idsOfCells m (neighborCells9 x y)).length := by
    have hmem : id ∈ idsOfCells m (neighborCells9 x y) :=
      (idsOfCells_perm m (neighborCells9_perm x y)).symm.subset
        (cell_subset_idsOfCells m x y _ hcell id hid)
    exact List.length_pos_of_mem hmem
  have hpos : ∀ tally, tallyNeighborCells s ops m centerPth (neighborCells9 x y) (0, 0) =
      some tally → 1 ≤ tally.1 := by
    intro tally h
    rw [tallyNeighborCells_sum s ops m centerPth _ 0 0 tally h]
    omega
  refine ⟨hin, hcell, fun tally h => ⟨hpos tally h, fun r => ?_⟩, fun hres => ?_⟩
  · have hne : tally.1 ≠ 0 := by have := hpos tally h; omega
    simp only [belowRatio, ne_eq, hne, not_false_eq_true, true_and]
  · have hperm := idsOfCells_perm m (neighborCells9_perm x y)
    have hrun := tallyNeighborCells_spec s ops m centerPth (neighborCells9 x y) 0 0
      fun j hj => hres j (hperm.subset hj)
    exact ⟨_, hrun, hpos _ hrun⟩

/-- C22, instance: for the patch 3 in cell `(1, 1)` of `Example.mixedMap` the loop ends with
`neighborPthSum = 3` and `neighborPthNum = 1`. -/
theorem neighborCellFiltering_denominator_pos_witness :
    ((1 : Int), (1 : Int)) ∈ gridCells Example.mixedMap.width Example.mixedMap.height ∧
    (3 : Int) ∈ Example.mixedMap.cells 1 1 ∧
    tallyNeighborCells Example.mixedEngine Example.centerOps Example.mixedMap
      (Example.patchAt 3 ⟨3, 3, 1⟩) (neighborCells9 1 1) (0, 0) = some (3, 1) ∧
    (1 : Int) ≤ 3 := by
  have h := neighborCellFiltering_denominator_pos Example.mixedEngine Example.centerOps
    Example.mixedMap (Example.patchAt 3 ⟨3, 3, 1⟩) 1 1 3 (by decide!) (by decide!)
  have ht : tallyNeighborCells Example.mixedEngine Example.centerOps Example.mixedMap
      (Example.patchAt 3 ⟨3, 3, 1⟩) (neighborCells9 1 1) (0, 0) = some (3, 1) := by decide!
  exact ⟨by decide!, by decide!, ht, (h.2.2.1 _ ht).1⟩

end MVS

/-! ## The sweep of the neighbour-cell filter -/

namespace MVS

theorem deletePatch_sameShape {s s' : MVS} {id : Int} (h : s.deletePatch id = some s') :
    SameShape s.cellMaps s'.cellMaps := by
  unfold deletePatch at h
  cases hf : PatchMap.find s.patches id with
  | none =>
    simp only [hf, Option.some.injEq] at h
    subst h
    exact SameShape.refl _
  | some q =>
    simp only [hf] at h
    by_cases he : s.cellMaps.isEmpty = true
    · simp only [he, if_true, Option.some.injEq] at h
      subst h
      exact SameShape.refl _
    · simp only [he, if_false, Bool.false_eq_true] at h
      cases hd : dropCells s.cellSize q.id q.views s.cellMaps with
      | none => simp [hd] at h
      | some cms =>
        simp only [hd, Option.some.injEq] at h
        subst h
        exact (dropCells_spec s.cellSize q.id q.views s.cellMaps cms hd).1

theorem deleteAll_sameShape : ∀ (ids : List Int) (s s' : MVS), deleteAll s ids = some s' →
    SameShape s.cellMaps s'.cellMaps
  | [], s, s', h => by
    simp only [deleteAll, Option.some.injEq] at h
    subst h
    exact SameShape.refl _
  | id :: rest, s, s', h => by
    simp only [deleteAll] at h
    cases hd : s.deletePatch id with
    | none => simp [hd] at h
    | some s1 =>
      simp only [hd] at h
      exact (deletePatch_sameShape hd).trans (deleteAll_sameShape rest s1 s' h)

theorem wellFormed_ids_resolve {t : MVS} (ht : WellFormed t) {i : Nat} {m : CellMap}
    (hm : t.cellMaps[i]? = some m) (cells : List (Int × Int)) :
    ∀ id ∈ idsOfCells m cells, (t.getPatch id).isSome = true := by
  intro id hid
  simp only [idsOfCells, List.mem_flatMap, List.mem_filter] at hid
  obtain ⟨n, ⟨-, hin⟩, hmem⟩ := hid
  have hcell : m.getCell n.1 n.2 = some (m.cells n.1 n.2) := by simp [CellMap.getCell, hin]
  exact (PatchMap.find_isSome_iff _ _).2
    ((wellFormed_consistent ht).2 m (List.getElem?_mem hm) n.1 n.2 _ hcell id hmem)

theorem filterSteps_append (ops : PatchOps) (r : ℚ) :
    ∀ (vs1 vs2 : List (Nat × Int × Int)) (a b c : MVS),
      FilterSteps ops r vs1 a b → FilterSteps ops r vs2 b c → FilterSteps ops r (vs1 ++ vs2) a c
  | [], vs2, a, b, c, h1, h2 => by
    simp only [FilterSteps] at h1
    subst h1
    exact h2
  | v :: vs1, vs2, a, b, c, h1, h2 => by
    simp only [FilterSteps, List.cons_append] at h1 ⊢
    obtain ⟨m, cell, t1, hm, hc, htal, hmark, hdel, hget, hrest⟩ := h1
    exact ⟨m, cell, t1, hm, hc, htal, hmark, hdel, hget,
      filterSteps_append ops r vs1 vs2 t1 b c hrest h2⟩

theorem forCells_filter_spec (ops : PatchOps) (r : ℚ) (i : Nat) (w h : Nat) :
    ∀ (cells : List (Int × Int)) (t : MVS), WellFormed t →
      (∃ m, t.cellMaps[i]? = some m ∧ m.width = w ∧ m.height = h) →
      (∀ c ∈ cells, 0 ≤ c.1 ∧ c.1 < w ∧ 0 ≤ c.2 ∧ c.2 < h) →
      ∃ t1, forCells (neighborCellFilterAt ops r i) cells t = some t1 ∧ WellFormed t1 ∧
        SameShape t.cellMaps t1.cellMaps ∧
        FilterSteps ops r (cells.map fun c => (i, c.1, c.2)) t t1
  | [], t, ht, _, _ => ⟨t, rfl, ht, SameShape.refl _, rfl⟩
  | c :: rest, t, ht, hmap, hin => by
    obtain ⟨m, hm, hw, hh⟩ := hmap
    have hinm : m.inMap c.1 c.2 = true := by
      have := hin c (List.mem_cons_self _ _)
      simp only [CellMap.inMap, decide_eq_true_eq, hw, hh]
      exact this
    have hcell : m.getCell c.1 c.2 = some (m.cells c.1 c.2) := by simp [CellMap.getCell, hinm]
    have hres := wellFormed_ids_resolve ht hm (block3x3 c.1 c.2)
    have hperm := idsOfCells_perm m (neighborCells9_perm c.1 c.2)
    have hmark := markCenterCell_spec t ops r m c.1 c.2 hres (m.cells c.1 c.2) []
      fun id hid => hres id (cell_subset_idsOfCells m c.1 c.2 _ hcell id hid)
    rw [List.nil_append] at hmark
    obtain ⟨t1, hdel, ht1, hget⟩ :=
      deleteAll_spec ((m.cells c.1 c.2).filter (lowRatio t ops r m c.1 c.2)) t ht
    have hshape := deleteAll_sameShape _ t t1 hdel
    obtain ⟨m1, hm1, hw1, hh1⟩ := hshape.get hm
    obtain ⟨t2, hrun, ht2, hshape2, hsteps⟩ := forCells_filter_spec ops r i w h rest t1 ht1
      ⟨m1, hm1, hw1.trans hw, hh1.trans hh⟩ fun d hd => hin d (List.mem_cons_of_mem _ hd)
    have hat : neighborCellFilterAt ops r i t c.1 c.2 = some t1 := by
      simp only [neighborCellFilterAt, hm, hcell, hmark, hdel]
    refine ⟨t2, by simp only [forCells, hat, hrun], ht2, hshape.trans hshape2, ?_⟩
    simp only [List.map_cons, FilterSteps]
    refine ⟨m, m.cells c.1 c.2, t1, hm, hcell, fun centerPth => ?_, hmark, hdel, hget, hsteps⟩
    rw [tallyNeighborCells_spec t ops m centerPth _ 0 0 fun j hj => hres j (hperm.subset hj)]
    simp

theorem neighborCellFilterCameras_spec (ops : PatchOps) (r : ℚ) (s : MVS) :
    ∀ (cams : List Nat) (t : MVS), WellFormed t → SameShape s.cellMaps t.cellMaps →
      (∀ i ∈ cams, i < s.cellMaps.length) →
      ∃ t1, neighborCellFilterCameras ops r cams t = some t1 ∧ WellFormed t1 ∧
        FilterSteps ops r
          (cams.flatMap fun i =>
            match s.cellMaps[i]? with
            | none => []
            | some m => (gridCells m.width m.height).map fun c => (i, c.1, c.2)) t t1
  | [], t, ht, _, _ => ⟨t, rfl, ht, rfl⟩
  | i :: rest, t, ht, hshape, hlt => by
    have hi : i < s.cellMaps.length := hlt i (List.mem_cons_self _ _)
    have hm0 : s.cellMaps[i]? = some s.cellMaps[i] := List.getElem?_eq_getElem hi
    obtain ⟨m, hm, hw, hh⟩ := hshape.get hm0
    obtain ⟨t1, hrun, ht1, hshape1, hsteps⟩ := forCells_filter_spec ops r i m.width m.height
      (gridCells m.width m.height) t ht ⟨m, hm, rfl, rfl⟩ fun c hc => mem_gridCells hc
    obtain ⟨t2, hrun2, ht2, hsteps2⟩ := neighborCellFilterCameras_spec ops r s rest t1 ht1
      (hshape.trans hshape1) fun j hj => hlt j (List.mem_cons_of_mem _ hj)
    refine ⟨t2, by simp only [neighborCellFilterCameras, hm, hrun, hrun2], ht2, ?_⟩
    rw [List.flatMap_cons, hm0]
    simp only
    rw [← hw, ← hh]
    exact filterSteps_append ops r _ _ t t1 t2 hsteps hsteps2

/-- C17, on `double`s: in `neighborCellFiltering` the nine cells `(nx[j], ny[j])` of every
center cell are pairwise distinct and are exactly its 3 × 3 neighbourhood; and on every
well-formed state with a cell map for each camera the filter returns, after visiting every
cell of every camera once and in order, where at each visit (`FilterSteps`) the loop over the
nine cells returns for every center patch as `neighborPthSum` the number of patches held by
those of the nine cells that lie inside the map and as `neighborPthNum` the number of these
that are neighbours of the center patch, the ids marked in `removeIdx` are the ids of the
center cell whose own quotient `neighborPthNum / neighborPthSum`, rounded to the nearest
`double`, is below `neighborRatio`, and the patches of these ids are the ones deleted. -/
theorem neighborCellFiltering_marks_by_ratio (s : MVS) (ops : PatchOps) (neighborRatio : ℚ)
    (hs : WellFormed s) (hlen : s.cameras.length ≤ s.cellMaps.length) :
    (∀ x y : Int, (neighborCells9 x y).Nodup ∧ (neighborCells9 x y).length = 9 ∧
      ∀ a b : Int, (a, b) ∈ neighborCells9 x y ↔
        x - 1 ≤ a ∧ a ≤ x + 1 ∧ y - 1 ≤ b ∧ b ≤ y + 1) ∧
    ∃ s1, neighborCellFiltering ops s neighborRatio = some s1 ∧
      FilterSteps ops neighborRatio (cellVisits s) s s1 := by
  refine ⟨fun x y => ⟨(neighborCells9_perm x y).nodup_iff.mpr (block3x3_nodup x y), rfl,
    mem_neighborCells9 x y⟩, ?_⟩
  obtain ⟨s1, hrun, -, hsteps⟩ := neighborCellFilterCameras_spec ops neighborRatio s
    (List.range s.cameras.length) s hs (SameShape.refl _)
    fun i hi => lt_of_lt_of_le (List.mem_range.1 hi) hlen
  exact ⟨s1, hrun, hsteps⟩

/-- C17, instance: in `Example.mixedEngine` with `neighborRatio = 1/2` the four cells of
camera 0 are visited in the order `(0, 0)`, `(0, 1)`, `(1, 0)`, `(1, 1)`; the patches 1 and 2
of cell `(0, 0)` have two neighbours among the three patches of their neighbourhood and are
not marked; the patch 3 of cell `(1, 1)` has one among three, is marked and is deleted. -/
theorem neighborCellFiltering_marks_by_ratio_witness :
    (WellFormed Example.mixedEngine ∧
      Example.mixedEngine.cameras.length ≤ Example.mixedEngine.cellMaps.length) ∧
    cellVisits Example.mixedEngine = [(0, 0, 0), (0, 0, 1), (0, 1, 0), (0, 1, 1)] ∧
    (Example.mixedMap.getCell 0 0 = some [1, 2] ∧ Example.mixedMap.getCell 1 1 = some [3]) ∧
    markCenterCell Example.mixedEngine Example.centerOps (1 / 2) Example.mixedMap 0 0 [1, 2] []
      = some [] ∧
    markCenterCell Example.mixedEngine Example.centerOps (1 / 2) Example.mixedMap 1 1 [3] []
      = some [3] ∧
    (∃ s1, neighborCellFiltering Example.centerOps Example.mixedEngine (1 / 2) = some s1 ∧
      FilterSteps Example.centerOps (1 / 2) (cellVisits Example.mixedEngine)
        Example.mixedEngine s1 ∧
      PatchMap.keys s1.patches = [1, 2]) := by
  have hw : WellFormed Example.mixedEngine ∧
      Example.mixedEngine.cameras.length ≤ Example.mixedEngine.cellMaps.length :=
    ⟨wellFormed_mixedEngine, by decide!⟩
  obtain ⟨s1, hrun, hsteps⟩ := (neighborCellFiltering_marks_by_ratio Example.mixedEngine
    Example.centerOps (1 / 2) hw.1 hw.2).2
  have hkeys : PatchMap.keys ((neighborCellFiltering Example.centerOps Example.mixedEngine
      (1 / 2)).getD Example.mixedEngine).patches = [1, 2] := by decide!
  rw [hrun] at hkeys
  exact ⟨hw, by decide!, by decide!, by decide!, by decide!, s1, hrun, hsteps, hkeys⟩

/-- C17, on the code: the test compares the quotient of two `double`s, which is rounded.  In
`Example.fiveEngine` every patch has one neighbour, itself, among the five patches of its
neighbourhood; with `neighborRatio = 0.2` (the `double` nearest to it, which is above `1/5`)
the share `1/5` is below `neighborRatio`, yet the quotient `1.0 / 5.0` is the `double`
`neighborRatio` itself, no patch is marked and the filter deletes none. -/
theorem neighborCellFiltering_keeps_below_ratio :
    (roundDouble (1 / 5) = 3602879701896397 / 18014398509481984 ∧
      (1 / 5 : ℚ) < 3602879701896397 / 18014398509481984) ∧
    WellFormed Example.fiveEngine ∧
    Example.fiveMap.getCell 0 0 = some [1, 5] ∧
    tallyNeighborCells Example.fiveEngine Example.centerOps Example.fiveMap
      (Example.patchAt 1 ⟨1, 1, 1⟩) (neighborCells9 0 0) (0, 0) = some (5, 1) ∧
    fewNeighbors Example.fiveEngine Example.centerOps (3602879701896397 / 18014398509481984)
      Example.fiveMap 0 0 1 = true ∧
    markCenterCell Example.fiveEngine Example.centerOps (3602879701896397 / 18014398509481984)
      Example.fiveMap 0 0 [1, 5] [] = some [] ∧
    ∃ s1, neighborCellFiltering Example.centerOps Example.fiveEngine
        (3602879701896397 / 18014398509481984) = some s1 ∧
      PatchMap.keys s1.patches = [1, 2, 3, 4, 5] :=
  ⟨⟨by decide!, by norm_num⟩,
    @wellFormed_setCellMaps Example.fiveSeeds _ (by decide!) (by decide!) (by decide!)
      (by unfold NonnegViews; decide!) (eq_some_getD _ (by decide!)),
    by decide!, by decide!, by decide!, by decide!,
    ⟨(neighborCellFiltering Example.centerOps Example.fiveEngine
      (3602879701896397 / 18014398509481984)).getD Example.fiveEngine,
      eq_some_getD _ (by decide!), by decide!⟩⟩

end MVS

end PAIS
